import Mathlib

/-!
Verification development for the scapegoat-tree core
(`src/code_snippets/chp12/diff_fuzz/src/tree/`): an arena-allocated,
fixed-capacity, self-balancing binary search tree.

The embedding specialises the Rust generics `K`, `V` to `Nat` and models
arena indices as `Nat`.  The `f32` rebalance parameters `alpha_num` /
`alpha_denom` are modelled as exact rationals, and the `f32` logarithm in
`alpha_balance_depth` is modelled as the exact floor logarithm.  All
imperative loops are modelled as fuelled recursions; the fuel is chosen
large enough that, on well-formed states, it is never exhausted (running
out of fuel corresponds to nontermination or an arena-index panic in the
Rust source, which cannot happen on well-formed states).

Default cargo features are assumed: `fast_rebalance`, `low_mem_insert`
and `alt_impl` are all disabled.
-/

/-- Mirror of `tree/node.rs` `Node<K, V, U>`: key, value, two optional
child indices. -/
structure Node where
  key : Nat
  val : Nat
  left : Option Nat
  right : Option Nat
deriving DecidableEq, Repr, Inhabited

/-- Mirror of `tree/arena.rs` `Arena<K, V, U, N>`: a slot vector (which
grows up to the capacity) plus a LIFO free list.  The free list is kept
with its most recently pushed element at the head of the list. -/
structure Arena where
  cap : Nat
  vec : List (Option Node)
  freeList : List Nat
deriving DecidableEq, Repr

/-- Mirror of `tree/node.rs` `NodeGetHelper`: result of a lookup. -/
structure NodeGetHelper where
  nodeIdx : Option Nat
  parentIdx : Option Nat
  isRightChild : Bool
deriving DecidableEq, Repr

/-- Occupied slot contents at an index, or `none`. -/
def Arena.node? (a : Arena) (i : Nat) : Option Node :=
  match a.vec.get? i with
  | some (some n) => n
  | _ => none

/-- Mirror of the `Index` impl for `Arena` (which panics on an empty
slot); the default node stands in for the unreachable panic case. -/
def Arena.getNode (a : Arena) (i : Nat) : Node :=
  (a.node? i).getD default

/-- Mirror of `Arena::is_occupied`. -/
def Arena.isOccupied (a : Arena) (i : Nat) : Bool :=
  (a.node? i).isSome

/-- Mirror of `Arena::len` (number of slots, occupied or not). -/
def Arena.lenSlots (a : Arena) : Nat :=
  a.vec.length

/-- Mirror of `Arena::add`: pop the free list (LIFO) if possible,
otherwise append a fresh slot.  Returns the new arena and the index. -/
def Arena.add (a : Arena) (k v : Nat) : Arena × Nat :=
  match a.freeList with
  | i :: rest =>
    ({ a with vec := a.vec.set i (some ⟨k, v, none, none⟩), freeList := rest }, i)
  | [] =>
    ({ a with vec := a.vec ++ [some ⟨k, v, none, none⟩] }, a.vec.length)

/-- Mirror of `Arena::remove`: empty the slot and push the index onto
the free list, returning the extracted node. -/
def Arena.removeNode (a : Arena) (i : Nat) : Arena × Option Node :=
  if a.isOccupied i then
    ({ a with vec := a.vec.set i none, freeList := i :: a.freeList }, a.node? i)
  else
    (a, none)

/-- Apply a function to the node stored at an index (no-op when the slot
is empty or out of bounds, which models the unreachable `IndexMut`
panic). -/
def Arena.modifyNode (a : Arena) (i : Nat) (f : Node → Node) : Arena :=
  match a.vec.get? i with
  | some (some n) => { a with vec := a.vec.set i (some (f n)) }
  | _ => a

/-- Mirror of `SmallNode::set_left_idx` through the arena. -/
def Arena.setLeft (a : Arena) (i : Nat) (x : Option Nat) : Arena :=
  a.modifyNode i (fun n => { n with left := x })

/-- Mirror of `SmallNode::set_right_idx` through the arena. -/
def Arena.setRight (a : Arena) (i : Nat) (x : Option Nat) : Arena :=
  a.modifyNode i (fun n => { n with right := x })

/-- Mirror of `tree/error.rs` `SgError` (the variants exercised by the
tree core). -/
inductive SgError where
  | maximumCapacityExceeded
  | stackCapacityExceeded
  | rebalanceFactorOutOfRange
deriving DecidableEq, Repr

/-- Mirror of `tree/tree.rs` `SgTree<K, V, N>`.  `alphaNum`/`alphaDenom`
are the `f32` balance parameters modelled as exact rationals. -/
structure SgTree where
  arena : Arena
  optRootIdx : Option Nat
  maxIdx : Nat
  minIdx : Nat
  currSize : Nat
  alphaNum : Rat
  alphaDenom : Rat
  maxSize : Nat
  rebalCnt : Nat
deriving DecidableEq, Repr

/-- Mirror of `SgTree::new` (with explicit capacity `n` standing for the
const generic `N`): empty arena, default alpha `2/3`. -/
def SgTree.new (n : Nat) : SgTree where
  arena := ⟨n, [], []⟩
  optRootIdx := none
  maxIdx := 0
  minIdx := 0
  currSize := 0
  alphaNum := 2
  alphaDenom := 3
  maxSize := 0
  rebalCnt := 0

/-- Mirror of `SgTree::len`. -/
def SgTree.len (t : SgTree) : Nat := t.currSize

/-- Mirror of `SgTree::capacity`. -/
def SgTree.capacity (t : SgTree) : Nat := t.arena.cap

/-- Mirror of `SgTree::is_empty`. -/
def SgTree.isEmpty (t : SgTree) : Bool := t.optRootIdx.isNone

/-- Mirror of `SgTree::set_rebal_param`: accept exactly when
`0.5 <= num/denom < 1.0` (the `f32` division is modelled as exact
rational division).  The range check is phrased over the integer
numerators/denominators (multiplying through by the square of the
denominator of `num/den`), which theorem `setRebalCond_iff` proves
equivalent to the rational-division range check; this keeps the
definition computable by kernel reduction. -/
def SgTree.setRebalParam (t : SgTree) (num den : Rat) :
    SgTree × Except SgError Unit :=
  let a := num.num * den.den
  let b := num.den * den.num
  if b ^ 2 ≤ 2 * a * b ∧ a * b < b ^ 2 then
    ({ t with alphaNum := num, alphaDenom := den }, Except.ok ())
  else
    (t, Except.error SgError.rebalanceFactorOutOfRange)

/-- Mirror of `SgTree::clear`: reset to the freshly constructed state,
preserving `rebal_cnt`, unless the tree is already empty. -/
def SgTree.clear (t : SgTree) : SgTree :=
  if t.isEmpty then t
  else { SgTree.new t.arena.cap with rebalCnt := t.rebalCnt }

/-- The relation modelling `(A/B) ^ d ≤ val` over the reals for
`B ≠ 0`: both sides multiplied by `(B ^ d) ^ 2 > 0`. -/
def fracPowLe (a b : Int) (d val : Nat) : Prop :=
  a ^ d * b ^ d ≤ (val : Int) * (b ^ d) ^ 2

instance (a b : Int) (d val : Nat) : Decidable (fracPowLe a b d val) :=
  inferInstanceAs (Decidable (_ ≤ _))

/-- Largest `d ≤ fuel` with `(A/B) ^ d ≤ val` (0 when there is none). -/
def ratLogFloorAux (a b : Int) (val : Nat) : Nat → Nat
  | 0 => 0
  | d+1 => if fracPowLe a b (d+1) val then d+1 else ratLogFloorAux a b val d

/-- Mirror of `SgTree::alpha_balance_depth`: the floor of the base
`alpha_denom/alpha_num` logarithm of `val`, with the `f32` logarithm
modelled exactly.  The base is the exact fraction `A/B` with
`A = alpha_denom.num * alpha_num.den` and
`B = alpha_denom.den * alpha_num.num`.  For a valid alpha the base
exceeds 1 and its reduced denominator divides `|B|`, so
`(A/B) ^ d ≤ val` forces `d ≤ |B| * val`, making the fuel
sufficient. -/
def SgTree.alphaBalanceDepth (t : SgTree) (val : Nat) : Nat :=
  let a := t.alphaDenom.num * t.alphaNum.den
  let b := t.alphaDenom.den * t.alphaNum.num
  ratLogFloorAux a b val (b.natAbs * val + 1)

/-- Fuelled loop body of `SgTree::priv_get` (no path recording; the
default feature set never records a path in `priv_get`).  Fuel
exhaustion or an unoccupied index returns the not-found helper, which
models the unreachable panic / divergence cases. -/
def privGetAux (a : Arena) (key : Nat) :
    Nat → Nat → Option Nat → Bool → NodeGetHelper
  | 0, _, _, _ => ⟨none, none, false⟩
  | fuel+1, currIdx, optParentIdx, isRight =>
    match a.node? currIdx with
    | none => ⟨none, none, false⟩
    | some node =>
      if key < node.key then
        match node.left with
        | some lt => privGetAux a key fuel lt (some currIdx) false
        | none => ⟨none, none, false⟩
      else if key = node.key then ⟨some currIdx, optParentIdx, isRight⟩
      else
        match node.right with
        | some gt => privGetAux a key fuel gt (some currIdx) true
        | none => ⟨none, none, false⟩

/-- Mirror of `SgTree::priv_get` (without a path sink). -/
def SgTree.privGet (t : SgTree) (key : Nat) : NodeGetHelper :=
  match t.optRootIdx with
  | some rootIdx => privGetAux t.arena key (t.arena.vec.length + 1) rootIdx none false
  | none => ⟨none, none, false⟩

/-- Mirror of `SgTree::contains_key`. -/
def SgTree.containsKey (t : SgTree) (key : Nat) : Bool :=
  (t.privGet key).nodeIdx.isSome

/-- Fuelled loop body of the iterative worklist in
`SgTree::get_subtree_size`: pops an index, counts it, pushes its
children. -/
def subtreeSizeAux (a : Arena) : Nat → List Nat → Nat → Nat
  | 0, _, acc => acc
  | _+1, [], acc => acc
  | fuel+1, idx :: wl, acc =>
    match a.node? idx with
    | none => acc
    | some n =>
      let wl1 := match n.left with | some l => l :: wl | none => wl
      let wl2 := match n.right with | some r => r :: wl1 | none => wl1
      subtreeSizeAux a fuel wl2 (acc + 1)

/-- Mirror of `SgTree::get_subtree_size`. -/
def SgTree.getSubtreeSize (t : SgTree) (idx : Nat) : Nat :=
  subtreeSizeAux t.arena (t.arena.vec.length + 1) [idx] 0

/-- Mirror of `SgTree::get_subtree_size_differential`: the parent's
subtree size from the walked child's size plus a DFS count of the
sibling subtree plus one. -/
def SgTree.getSubtreeSizeDiff (t : SgTree) (parentIdx childIdx childSize : Nat) : Nat :=
  let parent := t.arena.getNode parentIdx
  let isRight := parent.right = some childIdx
  let otherSize :=
    if isRight then
      match parent.left with | some i => t.getSubtreeSize i | none => 0
    else
      match parent.right with | some i => t.getSubtreeSize i | none => 0
  childSize + otherSize + 1

/-- The relation modelling `q * n ≤ p * m` for rationals `q`, `p` and
naturals `n`, `m` by cross multiplication with the (always positive)
denominators; theorem `ratScaleLe_iff` proves the equivalence. -/
def ratScaleLe (q : Rat) (n : Nat) (p : Rat) (m : Nat) : Prop :=
  q.num * (n : Int) * (p.den : Int) ≤ p.num * (m : Int) * (q.den : Int)

instance (q : Rat) (n : Nat) (p : Rat) (m : Nat) : Decidable (ratScaleLe q n p m) :=
  inferInstanceAs (Decidable (_ ≤ _))

/-- Fuelled while-loop of `SgTree::find_scapegoat` (Galperin–Rivest
default algorithm): climb the recorded path while the ancestor stays
alpha-weight-balanced, i.e. while
`alpha_denom * node_size <= alpha_num * parent_size`. -/
def findScapegoatAux (t : SgTree) (path : List Nat) :
    Nat → Nat → Nat → Nat → Nat
  | 0, pIdx, _, _ => pIdx
  | fuel+1, pIdx, nodeSize, parentSize =>
    if 0 < pIdx ∧ ratScaleLe t.alphaDenom nodeSize t.alphaNum parentSize then
      let nodeSize' := parentSize
      let pIdx' := pIdx - 1
      let parentSize' :=
        t.getSubtreeSizeDiff (path.getD pIdx' 0) (path.getD (pIdx' + 1) 0) nodeSize'
      findScapegoatAux t path fuel pIdx' nodeSize' parentSize'
    else pIdx

/-- Mirror of `SgTree::find_scapegoat` (default `alt_impl` disabled). -/
def SgTree.findScapegoat (t : SgTree) (path : List Nat) : Option Nat :=
  if path.length ≤ 1 then none
  else
    let start := path.length - 1
    let startSize := t.getSubtreeSize (path.getD start 0)
    let stop := findScapegoatAux t path path.length start 1 startSize
    some (path.getD stop 0)

/-- Fuelled descent loop of `SgTree::priv_insert`: follows the sorted
path pushing visited indices, overwriting key and value on an equal key
and attaching a fresh arena node at a missing child otherwise.  Returns
the updated tree, the displaced value (if any), the `NodeGetHelper` of
the new or found node, and the recorded path. -/
def privInsertGo (t : SgTree) (key val : Nat) :
    Nat → Nat → List Nat → SgTree × Option Nat × NodeGetHelper × List Nat
  | 0, _, path => (t, none, ⟨none, none, false⟩, path)
  | fuel+1, currIdx, path =>
    match t.arena.node? currIdx with
    | none => (t, none, ⟨none, none, false⟩, path ++ [currIdx])
    | some currNode =>
      let path := path ++ [currIdx]
      if key < currNode.key then
        match currNode.left with
        | some leftIdx => privInsertGo t key val fuel leftIdx path
        | none =>
          let newMinFound := key < (t.arena.getNode t.minIdx).key
          let (a1, newIdx) := t.arena.add key val
          let t1 := { t with arena := a1 }
          let t2 := if newMinFound then { t1 with minIdx := newIdx } else t1
          (t2, none, ⟨some newIdx, some currIdx, false⟩, path)
      else if key = currNode.key then
        let a1 := t.arena.modifyNode currIdx (fun n => { n with key := key, val := val })
        ({ t with arena := a1 }, some currNode.val, ⟨some currIdx, none, false⟩, path)
      else
        match currNode.right with
        | some rightIdx => privInsertGo t key val fuel rightIdx path
        | none =>
          let newMaxFound := (t.arena.getNode t.maxIdx).key < key
          let (a1, newIdx) := t.arena.add key val
          let t1 := { t with arena := a1 }
          let t2 := if newMaxFound then { t1 with maxIdx := newIdx } else t1
          (t2, none, ⟨some newIdx, some currIdx, true⟩, path)

/-- Mirror of `SgTree::priv_insert`: descend (or create the root), then
link the new leaf to its parent and bump `curr_size` / `max_size`. -/
def SgTree.privInsert (t : SgTree) (key val : Nat) :
    SgTree × Option Nat × NodeGetHelper × List Nat :=
  match t.optRootIdx with
  | some idx =>
    let r := privInsertGo t key val (t.arena.vec.length + 1) idx []
    let t1 := r.1
    let ngh := r.2.2.1
    match ngh.parentIdx with
    | some parentIdx =>
      let t2 := { t1 with currSize := t1.currSize + 1, maxSize := t1.maxSize + 1 }
      let a2 := if ngh.isRightChild then t2.arena.setRight parentIdx ngh.nodeIdx
                else t2.arena.setLeft parentIdx ngh.nodeIdx
      ({ t2 with arena := a2 }, r.2.1, ngh, r.2.2.2)
    | none => (t1, r.2.1, ngh, r.2.2.2)
  | none =>
    let t1 := { t with currSize := t.currSize + 1, maxSize := t.maxSize + 1 }
    let (a1, rootIdx) := t1.arena.add key val
    ({ t1 with arena := a1, optRootIdx := some rootIdx,
               maxIdx := rootIdx, minIdx := rootIdx },
     none, ⟨some rootIdx, none, false⟩, [])

/-- Fuelled DFS worklist of `SgTree::flatten_subtree_to_sorted_idxs`
(before sorting): pops an index and appends/pushes its children.  The
child pushed last (the right one) sits at the head, matching the Rust
`ArrayVec` pop-from-the-end discipline. -/
def flattenAux (a : Arena) : Nat → List Nat → List Nat → List Nat
  | 0, _, acc => acc
  | _+1, [], acc => acc
  | fuel+1, idx :: wl, acc =>
    match a.node? idx with
    | none => acc
    | some n =>
      let p1 := match n.left with
        | some l => (l :: wl, acc ++ [l])
        | none => (wl, acc)
      let p2 := match n.right with
        | some r => (r :: p1.1, p1.2 ++ [r])
        | none => p1
      flattenAux a fuel p2.1 p2.2

/-- The key order on arena indices used by the sorting steps. -/
def keyLe (a : Arena) (i j : Nat) : Prop :=
  (a.getNode i).key ≤ (a.getNode j).key

instance (a : Arena) : DecidableRel (keyLe a) :=
  fun i j => inferInstanceAs (Decidable (_ ≤ _))

/-- Mirror of `SgTree::flatten_subtree_to_sorted_idxs`: collect every
index reachable from `idx` (seeded with `idx` itself), then sort the
collected indices in ascending stored-key order.  The Rust source uses
`sort_unstable_by`, whose result is unspecified up to the order of
comparator-equal elements; on the distinct keys of a tree every correct
sort produces the same list, so insertion sort is a faithful model. -/
def SgTree.flattenSubtree (t : SgTree) (idx : Nat) : List Nat :=
  let collected := flattenAux t.arena (t.arena.vec.length + 1) [idx] [idx]
  List.insertionSort (keyLe t.arena) collected

/-- Mirror of `tree/node.rs` `NodeRebuildHelper`. -/
structure NodeRebuildHelper where
  lowIdx : Nat
  highIdx : Nat
  midIdx : Nat
deriving DecidableEq, Repr

/-- Mirror of `NodeRebuildHelper::new`. -/
def NodeRebuildHelper.ofRange (lo hi : Nat) : NodeRebuildHelper :=
  ⟨lo, hi, lo + (hi - lo) / 2⟩

/-- Fuelled worklist loop of
`SgTree::rebalance_subtree_from_sorted_idxs`: pop a `(sorted position,
range)` pair, clear the node's children, then link the middles of the
two half ranges (pushing the right half last so it is processed
first). -/
def rebalLoop (sorted : List Nat) : Arena → Nat → List (Nat × NodeRebuildHelper) → Arena
  | a, 0, _ => a
  | a, _+1, [] => a
  | a, fuel+1, (sortedIdx, nrh) :: wl =>
    let pi := sorted.getD sortedIdx 0
    let a1 := (a.setLeft pi none).setRight pi none
    let p2 :=
      if nrh.lowIdx < nrh.midIdx then
        let c := NodeRebuildHelper.ofRange nrh.lowIdx (nrh.midIdx - 1)
        (a1.setLeft pi (some (sorted.getD c.midIdx 0)), (c.midIdx, c) :: wl)
      else (a1, wl)
    let p3 :=
      if nrh.midIdx < nrh.highIdx then
        let c := NodeRebuildHelper.ofRange (nrh.midIdx + 1) nrh.highIdx
        (p2.1.setRight pi (some (sorted.getD c.midIdx 0)), (c.midIdx, c) :: p2.2)
      else p2
    rebalLoop sorted p3.1 fuel p3.2

/-- Mirror of `SgTree::rebalance_subtree_from_sorted_idxs`: update the
tree root (or the old subtree root's parent edge, located by key
lookup), then rewire all children through the worklist loop. -/
def SgTree.rebalanceFromSorted (t : SgTree) (oldSubtreeRootIdx : Nat)
    (sorted : List Nat) : SgTree :=
  if sorted.length ≤ 1 then t
  else
    let sortedLast := sorted.length - 1
    let subtreeRootSortedIdx := sortedLast / 2
    let subtreeRootArenaIdx := sorted.getD subtreeRootSortedIdx 0
    let t1 :=
      match t.optRootIdx with
      | some rootIdx =>
        if rootIdx ∈ sorted then { t with optRootIdx := some subtreeRootArenaIdx }
        else
          let oldKey := (t.arena.getNode oldSubtreeRootIdx).key
          let ngh := t.privGet oldKey
          match ngh.parentIdx with
          | some parentIdx =>
            { t with arena :=
                if ngh.isRightChild then t.arena.setRight parentIdx (some subtreeRootArenaIdx)
                else t.arena.setLeft parentIdx (some subtreeRootArenaIdx) }
          | none => t
      | none => t
    let a' := rebalLoop sorted t1.arena (sorted.length + 1)
      [(subtreeRootSortedIdx, NodeRebuildHelper.ofRange 0 sortedLast)]
    { t1 with arena := a' }

/-- Mirror of `SgTree::rebuild`: flatten, reshape in place, and count
the rebalance (`wrapping_add` modelled as plain successor). -/
def SgTree.rebuild (t : SgTree) (idx : Nat) : SgTree :=
  let sorted := t.flattenSubtree idx
  let t1 := t.rebalanceFromSorted idx sorted
  { t1 with rebalCnt := t1.rebalCnt + 1 }

/-- Mirror of `SgTree::priv_balancing_insert`: inner insert, then
rebuild at the scapegoat when the recorded path is longer than the
alpha-balance depth of the (already updated) `max_size`. -/
def SgTree.privBalancingInsert (t : SgTree) (key val : Nat) :
    SgTree × Option Nat × Option Nat :=
  let r := t.privInsert key val
  let t1 := r.1
  let path := r.2.2.2
  let t2 :=
    if t1.alphaBalanceDepth t1.maxSize < path.length then
      match t1.findScapegoat path with
      | some sg => t1.rebuild sg
      | none => t1
    else t1
  (t2, r.2.1, r.2.2.1.nodeIdx)

/-- Mirror of `SgTree::insert`. -/
def SgTree.insert (t : SgTree) (key val : Nat) : SgTree × Option Nat :=
  let r := t.privBalancingInsert key val
  (r.1, r.2.1)

/-- Mirror of `SgTree::try_insert`: replace an existing slot or safely
fill a new one, failing with `StackCapacityExceeded` when full. -/
def SgTree.tryInsert (t : SgTree) (key val : Nat) :
    SgTree × Except SgError (Option Nat) :=
  if t.containsKey key || decide (t.len < t.capacity) then
    let r := t.insert key val
    (r.1, Except.ok r.2)
  else
    (t, Except.error SgError.stackCapacityExceeded)

/-- Mirror of `SgTree::update_min_idx`: fuelled leftmost descent. -/
def updateMinAux (a : Arena) : Nat → Nat → Nat
  | 0, curr => curr
  | fuel+1, curr =>
    match a.node? curr with
    | none => curr
    | some n =>
      match n.left with
      | some lt => updateMinAux a fuel lt
      | none => curr

/-- Mirror of `SgTree::update_min_idx`. -/
def SgTree.updateMinIdx (t : SgTree) : SgTree :=
  match t.optRootIdx with
  | some rootIdx => { t with minIdx := updateMinAux t.arena (t.arena.vec.length + 1) rootIdx }
  | none => { t with minIdx := 0 }

/-- Mirror of `SgTree::update_max_idx`: fuelled rightmost descent. -/
def updateMaxAux (a : Arena) : Nat → Nat → Nat
  | 0, curr => curr
  | fuel+1, curr =>
    match a.node? curr with
    | none => curr
    | some n =>
      match n.right with
      | some gt => updateMaxAux a fuel gt
      | none => curr

/-- Mirror of `SgTree::update_max_idx`. -/
def SgTree.updateMaxIdx (t : SgTree) : SgTree :=
  match t.optRootIdx with
  | some rootIdx => { t with maxIdx := updateMaxAux t.arena (t.arena.vec.length + 1) rootIdx }
  | none => { t with maxIdx := 0 }

/-- Fuelled minimum-search loop inside the two-children case of
`SgTree::priv_remove`.  This reproduces the source faithfully,
including its commented "LOGIC BUG": on a left descent the code sets
`min_idx = lt_idx` and only then `min_parent_idx = min_idx`, so the
recorded parent is the new minimum itself rather than its actual
parent.  Returns the (possibly updated) arena, the found minimum index
and the updated `node_to_remove_right_idx` local. -/
def removeMinAux (a : Arena) (nodeIdx : Nat) (ntrRight : Option Nat) :
    Nat → Nat → Nat → Arena × Nat × Option Nat
  | 0, minIdx, _ => (a, minIdx, ntrRight)
  | fuel+1, minIdx, minParentIdx =>
    match a.node? minIdx with
    | none => (a, minIdx, ntrRight)
    | some minNode =>
      match minNode.left with
      | some ltIdx => removeMinAux a nodeIdx ntrRight fuel ltIdx ltIdx
      | none =>
        let unlinkNewChild := minNode.right
        if minParentIdx = nodeIdx then (a, minIdx, unlinkNewChild)
        else (a.setLeft minParentIdx unlinkNewChild, minIdx, ntrRight)

/-- Mirror of `SgTree::priv_remove`: unlink the located node (with the
zero-copy two-children relink), update parent or root, free the arena
slot, decrement the size and refresh the min/max caches. -/
def SgTree.privRemove (t : SgTree) (ngh : NodeGetHelper) :
    SgTree × Option (Nat × Nat) :=
  match ngh.nodeIdx with
  | none => (t, none)
  | some nodeIdx =>
    match t.arena.node? nodeIdx with
    | none => (t, none)
    | some nodeToRemove =>
      let ntrLeft := nodeToRemove.left
      let res :=
        match ntrLeft, nodeToRemove.right with
        | none, none => (t.arena, (none : Option Nat))
        | some leftIdx, none => (t.arena, some leftIdx)
        | none, some rightIdx => (t.arena, some rightIdx)
        | some _, some rightIdx =>
          let r := removeMinAux t.arena nodeIdx nodeToRemove.right
            (t.arena.vec.length + 1) rightIdx nodeIdx
          let a2 := (r.1.setRight r.2.1 r.2.2).setLeft r.2.1 ntrLeft
          (a2, some r.2.1)
      let a3 := match ngh.parentIdx with
        | some parentIdx =>
          if ngh.isRightChild then res.1.setRight parentIdx res.2
          else res.1.setLeft parentIdx res.2
        | none => res.1
      let optRoot' := match ngh.parentIdx with
        | some _ => t.optRootIdx
        | none => res.2
      let a4 := (a3.removeNode nodeIdx).1
      let t1 := { t with arena := a4, optRootIdx := optRoot',
                         currSize := t.currSize - 1 }
      let t2 := if nodeIdx = t.minIdx then t1.updateMinIdx
                else if nodeIdx = t.maxIdx then t1.updateMaxIdx
                else t1
      (t2, some (nodeToRemove.key, nodeToRemove.val))

/-- Mirror of `SgTree::priv_remove_by_key`. -/
def SgTree.privRemoveByKey (t : SgTree) (key : Nat) : SgTree × Option (Nat × Nat) :=
  t.privRemove (t.privGet key)

/-- Mirror of `SgTree::remove_entry`: remove by key, then perform the
deletion-triggered whole-tree rebuild when `max_size > 2 * curr_size`
(and the root still exists), resetting `max_size` to `curr_size`. -/
def SgTree.removeEntry (t : SgTree) (key : Nat) : SgTree × Option (Nat × Nat) :=
  let r := t.privRemoveByKey key
  match r.2 with
  | some kv =>
    let t1 := r.1
    let t2 :=
      if 2 * t1.currSize < t1.maxSize then
        match t1.optRootIdx with
        | some rootIdx =>
          let t3 := t1.rebuild rootIdx
          { t3 with maxSize := t3.currSize }
        | none => t1
      else t1
    (t2, some kv)
  | none => (r.1, none)

/-- Mirror of `SgTree::remove`. -/
def SgTree.remove (t : SgTree) (key : Nat) : SgTree × Option Nat :=
  let r := t.removeEntry key
  (r.1, r.2.map Prod.snd)

/-- Mirror of `SgTree::priv_remove_by_idx` (default features): re-find
the node's parent by key traversal, then remove.  Note: no
deletion-triggered rebuild happens on this path. -/
def SgTree.privRemoveByIdx (t : SgTree) (idx : Nat) : SgTree × Option (Nat × Nat) :=
  if t.arena.isOccupied idx then
    let ngh := t.privGet (t.arena.getNode idx).key
    t.privRemove ngh
  else (t, none)

/-- Mirror of `SgTree::pop_first`. -/
def SgTree.popFirst (t : SgTree) : SgTree × Option (Nat × Nat) :=
  t.privRemoveByIdx t.minIdx

/-- Mirror of `SgTree::pop_last`. -/
def SgTree.popLast (t : SgTree) : SgTree × Option (Nat × Nat) :=
  t.privRemoveByIdx t.maxIdx

/-- Fuelled leftmost-descent of `iter.rs` (`Iter::new` and the inner
loop of `Iter::next`): push every visited index, stopping after the
node with no left child.  The stack is kept head-is-top. -/
def iterDescend (a : Arena) : Nat → Nat → List Nat → List Nat
  | 0, _, st => st
  | fuel+1, curr, st =>
    match a.node? curr with
    | none => st
    | some n =>
      match n.left with
      | some lt => iterDescend a fuel lt (curr :: st)
      | none => curr :: st

/-- Mirror of `Iter::new`: initial ancestor stack. -/
def SgTree.iterInit (t : SgTree) : List Nat :=
  match t.optRootIdx with
  | some rootIdx => iterDescend t.arena (t.arena.vec.length + 1) rootIdx []
  | none => []

/-- Mirror of `Iter::next`: pop, descend into the popped node's right
subtree, and yield the popped key/value. -/
def SgTree.iterNext (t : SgTree) (st : List Nat) :
    Option ((Nat × Nat) × List Nat) :=
  match st with
  | [] => none
  | popIdx :: rest =>
    match t.arena.node? popIdx with
    | none => none
    | some n =>
      let st' := match n.right with
        | some gt => iterDescend t.arena (t.arena.vec.length + 1) gt rest
        | none => rest
      some ((n.key, n.val), st')

/-- First `count` keys yielded by the reference iterator. -/
def SgTree.iterTakeKeys (t : SgTree) : Nat → List Nat → List Nat
  | 0, _ => []
  | count+1, st =>
    match t.iterNext st with
    | none => []
    | some r => r.1.1 :: t.iterTakeKeys count r.2

/-- Fuelled in-order traversal of the arena structure (the reference
semantics of an in-order walk, used to state traversal claims). -/
def inorderKVF (a : Arena) : Nat → Option Nat → List (Nat × Nat)
  | 0, _ => []
  | _+1, none => []
  | fuel+1, some i =>
    match a.node? i with
    | none => []
    | some n => inorderKVF a fuel n.left ++ [(n.key, n.val)] ++ inorderKVF a fuel n.right

/-- In-order key/value list of a tree (fuel suffices on well-formed
states, whose depth is below the slot count). -/
def SgTree.inorderKV (t : SgTree) : List (Nat × Nat) :=
  inorderKVF t.arena (t.arena.vec.length + 1) t.optRootIdx

/-- Fuel-truncated longest descent (counted in nodes): a lower bound on
the length of the longest root-to-node path. -/
def depthNodesF (a : Arena) : Nat → Option Nat → Nat
  | 0, _ => 0
  | _+1, none => 0
  | fuel+1, some i =>
    match a.node? i with
    | none => 0
    | some n => 1 + max (depthNodesF a fuel n.left) (depthNodesF a fuel n.right)

/-- Mirror of `tree/node.rs` `NodeSwapHistHelper`: the original-index to
current-index map, kept in insertion order (new entries appended at the
end, as the Rust `ArrayVec` push does). -/
structure NodeSwapHistHelper where
  history : List (Nat × Nat)
deriving DecidableEq, Repr

/-- Mirror of `NodeSwapHistHelper::add`: update every entry whose
current index is one of the swapped positions, then append identity
mappings for positions not yet known. -/
def NodeSwapHistHelper.addSwap (h : NodeSwapHistHelper) (pos1 pos2 : Nat) :
    NodeSwapHistHelper :=
  let updated := h.history.map (fun e =>
    if e.2 = pos1 then (e.1, pos2)
    else if e.2 = pos2 then (e.1, pos1)
    else e)
  let known1 := h.history.any (fun e => e.2 = pos1)
  let known2 := h.history.any (fun e => e.2 = pos2)
  ⟨updated ++ (if known1 then [] else [(pos1, pos2)])
           ++ (if known2 then [] else [(pos2, pos1)])⟩

/-- Mirror of `NodeSwapHistHelper::curr_idx`: first matching entry, or
the index itself. -/
def NodeSwapHistHelper.currIdx (h : NodeSwapHistHelper) (origPos : Nat) : Nat :=
  match h.history.find? (fun e => e.1 = origPos) with
  | some e => e.2
  | none => origPos

/-- Swap two slots of the arena vector (mirror of `slice::swap`; out of
bounds would panic in Rust and leaves the list unchanged here). -/
def listSwap (l : List (Option Node)) (i j : Nat) : List (Option Node) :=
  match l.get? i, l.get? j with
  | some x, some y => (l.set i y).set j x
  | _, _ => l

/-- First pass of `Arena::sort`: walk the metadata in target order,
swapping each node into its sorted position, logging the swap and
rewriting any free-list entry that occupied the target slot. -/
def arenaSortLoop :
    Arena → NodeSwapHistHelper → Nat → List NodeGetHelper → Arena × NodeSwapHistHelper
  | a, h, _, [] => (a, h)
  | a, h, sortedIdx, ngh :: rest =>
    let currIdx := h.currIdx (ngh.nodeIdx.getD 0)
    if currIdx ≠ sortedIdx then
      let a1 := { a with vec := listSwap a.vec currIdx sortedIdx }
      let h1 := h.addSwap currIdx sortedIdx
      let fl2 := a1.freeList.map (fun i => if i = sortedIdx then currIdx else i)
      let a2 := { a1 with freeList := fl2 }
      arenaSortLoop a2 h1 (sortedIdx + 1) rest
    else
      arenaSortLoop a h (sortedIdx + 1) rest

/-- Second pass of `Arena::sort`: rewrite every parent's edge to the
child's post-permutation index. -/
def arenaSortRelink : Arena → NodeSwapHistHelper → List NodeGetHelper → Arena
  | a, _, [] => a
  | a, h, ngh :: rest =>
    match ngh.parentIdx with
    | some parentIdx =>
      let currParent := h.currIdx parentIdx
      let currChild := h.currIdx (ngh.nodeIdx.getD 0)
      let a1 := if ngh.isRightChild then a.setRight currParent (some currChild)
                else a.setLeft currParent (some currChild)
      arenaSortRelink a1 h rest
    | none => arenaSortRelink a h rest

/-- Mirror of `Arena::sort`: permute slots into metadata order, relink
all parent-child edges, and report the root's new position. -/
def Arena.sortFull (a : Arena) (rootIdx : Nat) (meta : List NodeGetHelper) :
    Arena × Nat :=
  let p := arenaSortLoop a ⟨[]⟩ 0 meta
  let a2 := arenaSortRelink p.1 p.2 meta
  (a2, p.2.currIdx rootIdx)

/-- Mirror of the metadata construction in `SgTree::sort_arena`: one
`NodeGetHelper` per occupied slot (obtained by key lookup), sorted in
ascending stored-key order. -/
def SgTree.sortMetadata (t : SgTree) : List NodeGetHelper :=
  let unsorted := (t.arena.vec.filterMap id).map (fun n => t.privGet n.key)
  List.insertionSort (fun g1 g2 => keyLe t.arena (g1.nodeIdx.getD 0) (g2.nodeIdx.getD 0)) unsorted

/-- Mirror of `SgTree::sort_arena`: sort the arena so that slot order
matches key order, then refresh the root and the min/max caches. -/
def SgTree.sortArena (t : SgTree) : SgTree :=
  match t.optRootIdx with
  | none => t
  | some rootIdx =>
    let meta := t.sortMetadata
    let r := t.arena.sortFull rootIdx meta
    let t1 := { t with arena := r.1, optRootIdx := some r.2 }
    (t1.updateMaxIdx).updateMinIdx

/-!
Concrete example states used by the claim theorems below.  Each is
built through the public operation sequence shown in its doc comment.
-/

/-- The tree obtained from `new` (capacity 10) by inserting
`(2,20), (1,10), (4,40), (3,30)`.  Key 2 sits at the root with two
children, and the minimum of its right subtree (key 3) is one left
step below the right child (key 4). -/
def exTreeFour : SgTree :=
  let t1 := ((SgTree.new 10).insert 2 20).1
  let t2 := (t1.insert 1 10).1
  let t3 := (t2.insert 4 40).1
  (t3.insert 3 30).1

/-- Result of `remove_entry(&2)` on `exTreeFour`: the two-children
removal path with a non-trivial minimum descent. -/
def exRemoveBugRes : SgTree × Option (Nat × Nat) :=
  exTreeFour.removeEntry 2

/-- The tree obtained from `new` (capacity 10) by inserting
`(1,10), (2,20), (3,30)` (a right chain, no rebuild triggered). -/
def exChain3 : SgTree :=
  let t1 := ((SgTree.new 10).insert 1 10).1
  let t2 := (t1.insert 2 20).1
  (t2.insert 3 30).1

/-- A raw five-node right chain `1 → 2 → 3 → 4 → 5` (keys `k` with
values `10·k` at slots `k − 1`), with `curr_size = max_size = 5` and
the default alpha.  Key 4 is present and has a child. -/
def exChain5 : SgTree where
  arena := ⟨10,
    [some ⟨1, 10, none, some 1⟩, some ⟨2, 20, none, some 2⟩,
     some ⟨3, 30, none, some 3⟩, some ⟨4, 40, none, some 4⟩,
     some ⟨5, 50, none, none⟩], []⟩
  optRootIdx := some 0
  maxIdx := 4
  minIdx := 0
  currSize := 5
  alphaNum := 2
  alphaDenom := 3
  maxSize := 5
  rebalCnt := 0

/-- Result of inserting then removing a single key: `new(10)`,
`insert(1,10)`, `remove_entry(&1)`. -/
def exEmptyingRemove : SgTree × Option (Nat × Nat) :=
  (((SgTree.new 10).insert 1 10).1).removeEntry 1

/-- CLAIM C1.  The two-children removal does return the stored value,
but the re-link described by the claim does not happen: after removing
key 2 from `exTreeFour`, the successor's former parent (key 4, slot 2)
still has the successor (key 3, slot 3) as its left child while the
successor simultaneously has slot 2 as its right child, so 3 and 4 form
a cycle and the in-order traversal is not the original one with key 2
deleted.  This evaluates the code at the failing input of the known
removal logic bug (the source comments the `min_parent_idx` update
order as "LOGIC BUG!"). -/
theorem c1_remove_two_children_relink_violated :
    exRemoveBugRes.2 = some (2, 20) ∧
    exRemoveBugRes.1.optRootIdx = some 3 ∧
    (exRemoveBugRes.1.arena.getNode 3).right = some 2 ∧
    (exRemoveBugRes.1.arena.getNode 2).left = some 3 ∧
    exRemoveBugRes.1.inorderKV ≠ [(1, 10), (3, 30), (4, 40)] := by
  decide

/-- Strict ascent of a list of keys (executable form of "yields keys in
strictly ascending order"). -/
def strictAscending : List Nat → Bool
  | [] => true
  | [_] => true
  | x :: y :: rest => x < y && strictAscending (y :: rest)

/-- CLAIM C2.  After the public operation sequence `insert(2,20)`,
`insert(1,10)`, `insert(4,40)`, `insert(3,30)`, `remove(&2)` (all within
capacity 10), the reference iterator yields keys `1, 3, 1, …` — not
strictly ascending.  This evaluates the code at a failing input: the
claimed universal BST-order invariant is broken by the removal logic
bug. -/
theorem c2_iter_not_ascending_after_remove :
    exRemoveBugRes.1.iterTakeKeys 3 exRemoveBugRes.1.iterInit = [1, 3, 1] ∧
    strictAscending (exRemoveBugRes.1.iterTakeKeys 3 exRemoveBugRes.1.iterInit) = false := by
  decide

/-- CLAIM C6.  After the same failing operation sequence the claimed
bound is `⌊log_{3/2}(high_water)⌋ + 1 = 4`, yet the corrupted structure
contains arbitrarily long root-to-node descents: with fuel 12 the
longest descent already counts 12 nodes.  This evaluates the code at a
failing input of the height-bound claim. -/
theorem c6_depth_bound_violated_after_remove :
    exRemoveBugRes.1.alphaBalanceDepth exRemoveBugRes.1.maxSize + 1 = 4 ∧
    12 ≤ depthNodesF exRemoveBugRes.1.arena 12 exRemoveBugRes.1.optRootIdx := by
  decide

/-- CLAIM C3 (counterexample).  `insert(1,10)` then `remove_entry(&1)`
is a removal path that leaves `high_water = 1 > 2·size = 0`: the
deletion-triggered rebuild is skipped because the tree became empty, so
`size ≤ high_water ≤ 2·size` does not hold after this public
operation. -/
theorem c3_counterexample_emptying_remove :
    exEmptyingRemove.2 = some (1, 10) ∧
    exEmptyingRemove.1.maxSize = 1 ∧
    exEmptyingRemove.1.currSize = 0 ∧
    ¬ exEmptyingRemove.1.maxSize ≤ 2 * exEmptyingRemove.1.currSize := by
  decide

/-- CLAIM C4 (counterexample).  Replacement inserts can rebalance:
inserting `(3,99)` into the chain `1,2,3` (key 3 present) increments
`rebal_cnt` from 0 to 1, and on the five-node chain `exChain5` (key 4
present) the replacement `insert(4,99)` additionally rewires child
links (slot 1 loses its right child), refuting both the
"no rebalance (rebal_cnt does not increase)" and the "no node's child
links change" parts of the claim. -/
theorem c4_counterexample_replacement_rebalances :
    exChain3.rebalCnt = 0 ∧
    (exChain3.insert 3 99).1.rebalCnt = 1 ∧
    (exChain3.insert 3 99).2 = some 30 ∧
    (exChain5.insert 4 99).2 = some 40 ∧
    (exChain5.arena.getNode 1).right = some 2 ∧
    ((exChain5.insert 4 99).1.arena.getNode 1).right = none := by
  decide

/-!
Faithfulness lemmas: the integer-level comparisons used in the
definitions denote the intended exact rational comparisons.
-/

/-- The cross-multiplied comparison `ratScaleLe` coincides with the
rational comparison `q * n ≤ p * m` from the source. -/
theorem ratScaleLe_iff (q p : Rat) (n m : Nat) :
    ratScaleLe q n p m ↔ q * (n : Rat) ≤ p * (m : Rat) := by
  have hqden : (0:Rat) < (q.den : Rat) := by exact_mod_cast q.den_pos
  have hpden : (0:Rat) < (p.den : Rat) := by exact_mod_cast p.den_pos
  have hq : q * (q.den : Rat) = (q.num : Rat) := by
    nth_rewrite 1 [← Rat.num_div_den q]
    exact div_mul_cancel₀ _ (ne_of_gt hqden)
  have hp : p * (p.den : Rat) = (p.num : Rat) := by
    nth_rewrite 1 [← Rat.num_div_den p]
    exact div_mul_cancel₀ _ (ne_of_gt hpden)
  have hpos : (0:Rat) < (q.den : Rat) * (p.den : Rat) := mul_pos hqden hpden
  have e1 : (q * (n : Rat)) * ((q.den : Rat) * (p.den : Rat)) =
      (q * (q.den : Rat)) * (n : Rat) * (p.den : Rat) := by ring
  have e2 : (p * (m : Rat)) * ((q.den : Rat) * (p.den : Rat)) =
      (p * (p.den : Rat)) * (m : Rat) * (q.den : Rat) := by ring
  constructor
  · intro h
    have h' : (q.num : Rat) * (n : Rat) * (p.den : Rat) ≤
        (p.num : Rat) * (m : Rat) * (q.den : Rat) := by exact_mod_cast h
    rw [← hq, ← hp] at h'
    have h2 : (q * (n : Rat)) * ((q.den : Rat) * (p.den : Rat)) ≤
        (p * (m : Rat)) * ((q.den : Rat) * (p.den : Rat)) := by
      rw [e1, e2]; exact h'
    exact le_of_mul_le_mul_right h2 hpos
  · intro h
    have h2 := mul_le_mul_of_nonneg_right h (le_of_lt hpos)
    rw [e1, e2, hq, hp] at h2
    exact_mod_cast h2

/-- The integer range check inside `setRebalParam` coincides with the
exact rational range check `0.5 ≤ num/den < 1` (with the Lean
convention `x / 0 = 0`, under which a zero denominator is rejected just
as the `f32` division producing an infinity or NaN is). -/
theorem setRebalCond_iff (num den : Rat) :
    ((num.den * den.num : Int) ^ 2 ≤ 2 * (num.num * den.den) * (num.den * den.num) ∧
      num.num * den.den * (num.den * den.num) < (num.den * den.num : Int) ^ 2) ↔
    ((1 : Rat)/2 ≤ num / den ∧ num / den < 1) := by
  by_cases hd : den = 0
  · have hdn : den.num = 0 := Rat.num_eq_zero.mpr hd
    rw [hdn, hd]
    norm_num
  · have hdn : den.num ≠ 0 := Rat.num_ne_zero.mpr hd
    have hnden : (0:Rat) < (num.den : Rat) := by exact_mod_cast num.den_pos
    have hdden : (0:Rat) < (den.den : Rat) := by exact_mod_cast den.den_pos
    have h1 : num * (num.den : Rat) = (num.num : Rat) := by
      nth_rewrite 1 [← Rat.num_div_den num]
      exact div_mul_cancel₀ _ (ne_of_gt hnden)
    have h2 : den * (den.den : Rat) = (den.num : Rat) := by
      nth_rewrite 1 [← Rat.num_div_den den]
      exact div_mul_cancel₀ _ (ne_of_gt hdden)
    have hB : ((num.den * den.num : Int) : Rat) ≠ 0 := by
      have hnd : (num.den : Int) ≠ 0 := by exact_mod_cast num.den_pos.ne'
      exact_mod_cast mul_ne_zero hnd hdn
    have key : num / den =
        ((num.num * den.den : Int) : Rat) / ((num.den * den.num : Int) : Rat) := by
      rw [div_eq_div_iff hd hB]
      push_cast
      calc num * ((num.den : Rat) * (den.num : Rat))
          = (num * (num.den : Rat)) * (den.num : Rat) := by ring
        _ = (num.num : Rat) * (den.num : Rat) := by rw [h1]
        _ = (num.num : Rat) * (den * (den.den : Rat)) := by rw [h2]
        _ = (num.num : Rat) * (den.den : Rat) * den := by ring
    have hY2 : (0:Rat) < ((num.den * den.num : Int) : Rat) ^ 2 := by positivity
    have hXY : ((num.num * den.den : Int) : Rat) / ((num.den * den.num : Int) : Rat) =
        (((num.num * den.den : Int) : Rat) * ((num.den * den.num : Int) : Rat)) /
          ((num.den * den.num : Int) : Rat) ^ 2 := by
      field_simp
      ring
    rw [key, hXY, le_div_iff₀ hY2, div_lt_one hY2]
    constructor
    · rintro ⟨c1, c2⟩
      have c1' : ((num.den * den.num : Int) : Rat) ^ 2 ≤
          2 * ((num.num * den.den : Int) : Rat) * ((num.den * den.num : Int) : Rat) := by
        exact_mod_cast c1
      have c2' : ((num.num * den.den : Int) : Rat) * ((num.den * den.num : Int) : Rat) <
          ((num.den * den.num : Int) : Rat) ^ 2 := by exact_mod_cast c2
      exact ⟨by linarith, c2'⟩
    · rintro ⟨c1, c2⟩
      have c1' : ((num.den * den.num : Int) : Rat) ^ 2 ≤
          2 * ((num.num * den.den : Int) : Rat) * ((num.den * den.num : Int) : Rat) := by
        linarith
      exact ⟨by exact_mod_cast c1', by exact_mod_cast c2⟩

/-- CLAIM C8.  `set_rebal_param(num, denom)` returns `Ok` and stores the
parameters exactly when `0.5 ≤ num/denom < 1` (exact rational
semantics); otherwise it returns `RebalanceFactorOutOfRange` and leaves
the whole tree (alpha included) unchanged. -/
theorem c8_set_rebal_param_range (t : SgTree) (num den : Rat) :
    (((1:Rat)/2 ≤ num / den ∧ num / den < 1) →
      t.setRebalParam num den =
        ({ t with alphaNum := num, alphaDenom := den }, Except.ok ())) ∧
    (¬ ((1:Rat)/2 ≤ num / den ∧ num / den < 1) →
      t.setRebalParam num den = (t, Except.error SgError.rebalanceFactorOutOfRange)) := by
  unfold SgTree.setRebalParam
  constructor
  · intro h
    rw [if_pos ((setRebalCond_iff num den).mpr h)]
  · intro h
    rw [if_neg (fun hc => h ((setRebalCond_iff num den).mp hc))]

/-- Witness for C8 at the spec's S5 scenario: `(3, 4)` is accepted and
stored, `(1, 3)` is rejected with the tree unchanged. -/
theorem c8_set_rebal_param_range_witness :
    (SgTree.new 5).setRebalParam 3 4 =
      ({ SgTree.new 5 with alphaNum := 3, alphaDenom := 4 }, Except.ok ()) ∧
    (SgTree.new 5).setRebalParam 1 3 =
      (SgTree.new 5, Except.error SgError.rebalanceFactorOutOfRange) := by
  constructor
  · exact (c8_set_rebal_param_range (SgTree.new 5) 3 4).1 (by norm_num)
  · exact (c8_set_rebal_param_range (SgTree.new 5) 1 3).2 (by norm_num)

/-- CLAIM C10.  `clear` on an empty tree changes nothing (custom alpha
included, since the whole state is untouched); on a non-empty tree it
resets every field to the freshly-constructed state — same capacity,
default alpha `2/3`, empty arena — except `rebal_cnt`, which keeps its
pre-clear value. -/
theorem c10_clear_resets_except_rebal_cnt (t : SgTree) :
    (t.optRootIdx = none → t.clear = t) ∧
    (t.optRootIdx.isSome = true →
      t.clear = { SgTree.new t.arena.cap with rebalCnt := t.rebalCnt }) := by
  unfold SgTree.clear SgTree.isEmpty
  constructor
  · intro h
    rw [h]
    rfl
  · intro h
    cases ho : t.optRootIdx with
    | none => rw [ho] at h; simp at h
    | some r => simp [ho]

/-- A non-empty tree with a custom alpha: `new(7)`,
`set_rebal_param(3,4)`, `insert(1,10)`. -/
def exCustomAlpha : SgTree :=
  ((((SgTree.new 7).setRebalParam 3 4).1).insert 1 10).1

/-- Witness for C10: clearing the custom-alpha non-empty tree yields
the fresh state with `rebal_cnt` preserved, and clearing a fresh empty
tree is the identity. -/
theorem c10_clear_resets_except_rebal_cnt_witness :
    exCustomAlpha.clear =
      { SgTree.new exCustomAlpha.arena.cap with rebalCnt := exCustomAlpha.rebalCnt } ∧
    (SgTree.new 7).clear = SgTree.new 7 := by
  constructor
  · exact (c10_clear_resets_except_rebal_cnt exCustomAlpha).2 (by decide)
  · exact (c10_clear_resets_except_rebal_cnt (SgTree.new 7)).1 rfl

/-!
Field-preservation lemmas: which tree fields each operation leaves
untouched.
-/

theorem updateMinIdx_fields (t : SgTree) :
    (t.updateMinIdx).currSize = t.currSize ∧ (t.updateMinIdx).maxSize = t.maxSize ∧
    (t.updateMinIdx).rebalCnt = t.rebalCnt ∧ (t.updateMinIdx).optRootIdx = t.optRootIdx ∧
    (t.updateMinIdx).arena = t.arena := by
  unfold SgTree.updateMinIdx
  cases t.optRootIdx <;> simp

theorem updateMaxIdx_fields (t : SgTree) :
    (t.updateMaxIdx).currSize = t.currSize ∧ (t.updateMaxIdx).maxSize = t.maxSize ∧
    (t.updateMaxIdx).rebalCnt = t.rebalCnt ∧ (t.updateMaxIdx).optRootIdx = t.optRootIdx ∧
    (t.updateMaxIdx).arena = t.arena := by
  unfold SgTree.updateMaxIdx
  cases t.optRootIdx <;> simp

theorem privRemove_fields (t : SgTree) (ngh : NodeGetHelper) :
    (t.privRemove ngh).1.maxSize = t.maxSize ∧
    (t.privRemove ngh).1.rebalCnt = t.rebalCnt ∧
    ((t.privRemove ngh).2.isSome = true → (t.privRemove ngh).1.currSize = t.currSize - 1) ∧
    ((t.privRemove ngh).2 = none → (t.privRemove ngh).1 = t) := by
  unfold SgTree.privRemove
  cases hn : ngh.nodeIdx with
  | none => simp [hn]
  | some nodeIdx =>
    simp only [hn]
    cases ho : t.arena.node? nodeIdx with
    | none => simp [ho]
    | some nodeToRemove =>
      simp only [ho]
      split
      · exact ⟨(updateMinIdx_fields _).2.1, (updateMinIdx_fields _).2.2.1,
          fun _ => by rw [(updateMinIdx_fields _).1], by simp⟩
      · split
        · exact ⟨(updateMaxIdx_fields _).2.1, (updateMaxIdx_fields _).2.2.1,
            fun _ => by rw [(updateMaxIdx_fields _).1], by simp⟩
        · exact ⟨rfl, rfl, fun _ => rfl, by simp⟩

theorem rebalanceFromSorted_fields (t : SgTree) (i : Nat) (s : List Nat) :
    (t.rebalanceFromSorted i s).currSize = t.currSize ∧
    (t.rebalanceFromSorted i s).maxSize = t.maxSize ∧
    (t.rebalanceFromSorted i s).rebalCnt = t.rebalCnt ∧
    (t.rebalanceFromSorted i s).minIdx = t.minIdx ∧
    (t.rebalanceFromSorted i s).maxIdx = t.maxIdx := by
  unfold SgTree.rebalanceFromSorted
  split
  · exact ⟨rfl, rfl, rfl, rfl, rfl⟩
  · cases hr : t.optRootIdx with
    | none => simp [hr]
    | some rootIdx =>
      simp only [hr]
      split
      · exact ⟨rfl, rfl, rfl, rfl, rfl⟩
      · cases hp : (t.privGet (t.arena.getNode i).key).parentIdx <;>
          simp [hp]

theorem rebalanceFromSorted_root_isSome (t : SgTree) (i : Nat) (s : List Nat)
    (h : t.optRootIdx.isSome = true) :
    (t.rebalanceFromSorted i s).optRootIdx.isSome = true := by
  unfold SgTree.rebalanceFromSorted
  split
  · exact h
  · cases hr : t.optRootIdx with
    | none => rw [hr] at h; simp at h
    | some rootIdx =>
      simp only [hr]
      split
      · simp
      · cases hp : (t.privGet (t.arena.getNode i).key).parentIdx <;>
          simp [hp, hr]

theorem rebuild_fields (t : SgTree) (i : Nat) :
    (t.rebuild i).currSize = t.currSize ∧
    (t.rebuild i).maxSize = t.maxSize ∧
    (t.rebuild i).rebalCnt = t.rebalCnt + 1 ∧
    (t.rebuild i).minIdx = t.minIdx ∧
    (t.rebuild i).maxIdx = t.maxIdx := by
  unfold SgTree.rebuild
  refine ⟨(rebalanceFromSorted_fields t i _).1, (rebalanceFromSorted_fields t i _).2.1,
    ?_, (rebalanceFromSorted_fields t i _).2.2.2.1, (rebalanceFromSorted_fields t i _).2.2.2.2⟩
  exact congrArg (· + 1) (rebalanceFromSorted_fields t i _).2.2.1

theorem rebuild_root_isSome (t : SgTree) (i : Nat)
    (h : t.optRootIdx.isSome = true) :
    (t.rebuild i).optRootIdx.isSome = true := by
  unfold SgTree.rebuild
  exact rebalanceFromSorted_root_isSome t i _ h

theorem privRemoveByIdx_fields (t : SgTree) (idx : Nat) :
    (t.privRemoveByIdx idx).1.maxSize = t.maxSize ∧
    (t.privRemoveByIdx idx).1.rebalCnt = t.rebalCnt := by
  unfold SgTree.privRemoveByIdx
  split
  · exact ⟨(privRemove_fields t _).1, (privRemove_fields t _).2.1⟩
  · exact ⟨rfl, rfl⟩

/-- CLAIM C3 (amended).  A successful `remove_entry` whose result tree
is still non-empty re-establishes `size ≤ high_water ≤ 2·size` (given
`size ≤ high_water` beforehand): the rebuild-and-reset fires exactly
when `high_water > 2·size`.  In contrast `pop_first` and `pop_last`
(and hence the consuming iterator, which removes through the same
`priv_remove_by_idx` path) never touch `high_water` or `rebal_cnt`. -/
theorem c3_amended_high_water_after_removal (t : SgTree) (key : Nat) :
    (t.currSize ≤ t.maxSize →
      (t.removeEntry key).2.isSome = true →
      (t.removeEntry key).1.optRootIdx.isSome = true →
      ((t.removeEntry key).1.currSize ≤ (t.removeEntry key).1.maxSize ∧
        (t.removeEntry key).1.maxSize ≤ 2 * (t.removeEntry key).1.currSize)) ∧
    (t.popFirst.1.maxSize = t.maxSize ∧ t.popFirst.1.rebalCnt = t.rebalCnt) ∧
    (t.popLast.1.maxSize = t.maxSize ∧ t.popLast.1.rebalCnt = t.rebalCnt) := by
  refine ⟨?_, privRemoveByIdx_fields t t.minIdx, privRemoveByIdx_fields t t.maxIdx⟩
  intro hsz hrem hroot
  unfold SgTree.removeEntry at hrem hroot ⊢
  unfold SgTree.privRemoveByKey at hrem hroot ⊢
  dsimp only at hrem hroot ⊢
  cases hres : (t.privRemove (t.privGet key)).2 with
  | none => rw [hres] at hrem; simp at hrem
  | some kv =>
    simp only [hres] at hroot ⊢
    have hmax : (t.privRemove (t.privGet key)).1.maxSize = t.maxSize :=
      (privRemove_fields t _).1
    have hcur : (t.privRemove (t.privGet key)).1.currSize = t.currSize - 1 :=
      (privRemove_fields t _).2.2.1 (by rw [hres]; rfl)
    cases hr : (t.privRemove (t.privGet key)).1.optRootIdx with
    | none =>
      simp only [hr, ite_self] at hroot
      simp at hroot
    | some rootIdx =>
      simp only [hr]
      split
      · dsimp only
        omega
      · rename_i hng
        have h1 := le_of_not_lt hng
        rw [hcur, hmax] at h1 ⊢
        omega

/-- Witness for the amended C3: removing key 2 from the chain `1,2,3`
succeeds, leaves the tree non-empty, and the high-water invariant
holds afterwards. -/
theorem c3_amended_high_water_after_removal_witness :
    (exChain3.removeEntry 2).1.currSize ≤ (exChain3.removeEntry 2).1.maxSize ∧
    (exChain3.removeEntry 2).1.maxSize ≤ 2 * (exChain3.removeEntry 2).1.currSize :=
  (c3_amended_high_water_after_removal exChain3 2).1 (by decide) (by decide) (by decide)

/-!
Slot key/value contents and their preservation through link rewiring.
-/

/-- The key/value pair stored at a slot (ignoring the child links). -/
def Arena.kvAt (a : Arena) (i : Nat) : Option (Nat × Nat) :=
  (a.node? i).map (fun n => (n.key, n.val))

theorem Arena.node?_modifyNode_ne (a : Arena) (i : Nat) (f : Node → Node)
    (j : Nat) (h : j ≠ i) :
    (a.modifyNode i f).node? j = a.node? j := by
  unfold Arena.modifyNode
  cases hi : a.vec.get? i with
  | none => rfl
  | some o =>
    cases o with
    | none => rfl
    | some n =>
      unfold Arena.node?
      simp only [List.get?_eq_getElem?, List.getElem?_set, if_neg (Ne.symm h)]

theorem Arena.node?_modifyNode_self (a : Arena) (i : Nat) (f : Node → Node) :
    (a.modifyNode i f).node? i = (a.node? i).map f := by
  unfold Arena.modifyNode
  cases hi : a.vec.get? i with
  | none => unfold Arena.node?; rw [hi]; rfl
  | some o =>
    cases o with
    | none => unfold Arena.node?; rw [hi]; rfl
    | some n =>
      have hlen : i < a.vec.length := by
        by_contra hc
        rw [List.get?_eq_none.mpr (le_of_not_lt hc)] at hi
        cases hi
      have hi' : a.vec[i]? = some (some n) := by
        rw [← List.get?_eq_getElem?]; exact hi
      unfold Arena.node?
      simp [List.get?_eq_getElem?, List.getElem?_set, hlen, hi']

theorem Arena.kvAt_setLeft (a : Arena) (i : Nat) (x : Option Nat) (j : Nat) :
    (a.setLeft i x).kvAt j = a.kvAt j := by
  unfold Arena.setLeft Arena.kvAt
  by_cases hj : j = i
  · subst hj
    rw [Arena.node?_modifyNode_self]
    cases a.node? j <;> rfl
  · rw [Arena.node?_modifyNode_ne _ _ _ _ hj]

theorem Arena.kvAt_setRight (a : Arena) (i : Nat) (x : Option Nat) (j : Nat) :
    (a.setRight i x).kvAt j = a.kvAt j := by
  unfold Arena.setRight Arena.kvAt
  by_cases hj : j = i
  · subst hj
    rw [Arena.node?_modifyNode_self]
    cases a.node? j <;> rfl
  · rw [Arena.node?_modifyNode_ne _ _ _ _ hj]

theorem rebalLoop_kvAt (sorted : List Nat) (a : Arena) (fuel : Nat)
    (wl : List (Nat × NodeRebuildHelper)) (j : Nat) :
    (rebalLoop sorted a fuel wl).kvAt j = a.kvAt j := by
  induction fuel generalizing a wl with
  | zero => rfl
  | succ n ih =>
    cases wl with
    | nil => rfl
    | cons hd tl =>
      unfold rebalLoop
      dsimp only
      split <;> split <;>
        simp [ih, Arena.kvAt_setLeft, Arena.kvAt_setRight]

theorem rebalanceFromSorted_kvAt (t : SgTree) (i : Nat) (s : List Nat) (j : Nat) :
    (t.rebalanceFromSorted i s).arena.kvAt j = t.arena.kvAt j := by
  unfold SgTree.rebalanceFromSorted
  split
  · rfl
  · cases hr : t.optRootIdx with
    | none => simp [hr, rebalLoop_kvAt]
    | some rootIdx =>
      simp only [hr]
      split
      · simp [rebalLoop_kvAt]
      · cases hp : (t.privGet (t.arena.getNode i).key).parentIdx with
        | none => simp [hp, rebalLoop_kvAt]
        | some parentIdx =>
          simp only [hp]
          split <;>
            simp [rebalLoop_kvAt, Arena.kvAt_setLeft, Arena.kvAt_setRight]

theorem rebuild_kvAt (t : SgTree) (i : Nat) (j : Nat) :
    (t.rebuild i).arena.kvAt j = t.arena.kvAt j := by
  unfold SgTree.rebuild
  exact rebalanceFromSorted_kvAt t i _ j

/-!
Replacement insert: when the key is already present, the descent of
`priv_insert` follows the same comparisons as `priv_get`, overwrites
the found node's key and value in place, and reports no parent (so no
size bump and no new link).
-/

theorem privGetAux_found_occupied (a : Arena) (key : Nat) :
    ∀ fuel curr p b i, (privGetAux a key fuel curr p b).nodeIdx = some i →
      ∃ node, a.node? i = some node ∧ node.key = key := by
  intro fuel
  induction fuel with
  | zero => intro curr p b i h; simp [privGetAux] at h
  | succ n ih =>
    intro curr p b i h
    rw [privGetAux] at h
    cases ho : a.node? curr with
    | none => simp only [ho] at h; simp at h
    | some node =>
      simp only [ho] at h
      by_cases hlt : key < node.key
      · rw [if_pos hlt] at h
        cases hl : node.left with
        | some lt => rw [hl] at h; exact ih lt (some curr) false i h
        | none => rw [hl] at h; simp at h
      · rw [if_neg hlt] at h
        by_cases heq : key = node.key
        · rw [if_pos heq] at h
          simp only [NodeGetHelper.nodeIdx, Option.some.injEq] at h
          subst h
          exact ⟨node, ho, heq.symm⟩
        · rw [if_neg heq] at h
          cases hr : node.right with
          | some gt => rw [hr] at h; exact ih gt (some curr) true i h
          | none => rw [hr] at h; simp at h

theorem privInsertGo_found (t : SgTree) (key val : Nat) :
    ∀ fuel curr path p b i,
    (privGetAux t.arena key fuel curr p b).nodeIdx = some i →
    ∃ path2,
      privInsertGo t key val fuel curr path =
        ({ t with arena := t.arena.modifyNode i (fun n => { n with key := key, val := val }) },
         some (t.arena.getNode i).val, ⟨some i, none, false⟩, path2) := by
  intro fuel
  induction fuel with
  | zero => intro curr path p b i h; simp [privGetAux] at h
  | succ n ih =>
    intro curr path p b i h
    rw [privGetAux] at h
    rw [privInsertGo]
    cases ho : t.arena.node? curr with
    | none => simp only [ho] at h; simp at h
    | some node =>
      simp only [ho] at h ⊢
      by_cases hlt : key < node.key
      · rw [if_pos hlt] at h ⊢
        cases hl : node.left with
        | some lt =>
          rw [hl] at h
          exact ih lt (path ++ [curr]) (some curr) false i h
        | none => rw [hl] at h; simp at h
      · rw [if_neg hlt] at h ⊢
        by_cases heq : key = node.key
        · rw [if_pos heq] at h ⊢
          simp only [NodeGetHelper.nodeIdx, Option.some.injEq] at h
          subst h
          refine ⟨path ++ [curr], ?_⟩
          have hval : (t.arena.getNode curr).val = node.val := by
            unfold Arena.getNode
            rw [ho]
            rfl
          rw [hval]
        · rw [if_neg heq] at h ⊢
          cases hr : node.right with
          | some gt =>
            rw [hr] at h
            exact ih gt (path ++ [curr]) (some curr) true i h
          | none => rw [hr] at h; simp at h

theorem privInsert_found (t : SgTree) (key val i : Nat)
    (h : (t.privGet key).nodeIdx = some i) :
    ∃ path2,
      t.privInsert key val =
        ({ t with arena := t.arena.modifyNode i (fun n => { n with key := key, val := val }) },
         some (t.arena.getNode i).val, ⟨some i, none, false⟩, path2) := by
  unfold SgTree.privGet at h
  cases hr : t.optRootIdx with
  | none => rw [hr] at h; simp at h
  | some rootIdx =>
    rw [hr] at h
    obtain ⟨p2, hgo⟩ :=
      privInsertGo_found t key val (t.arena.vec.length + 1) rootIdx [] none false i h
    refine ⟨p2, ?_⟩
    unfold SgTree.privInsert
    rw [hr]
    dsimp only
    rw [hgo]
    dsimp only
    rw [hr]

/-- Shared replacement-insert specification: inserting over a present
key returns the previously stored value, keeps `len`, stores `(k, v)`
at the found slot, and leaves every other slot's key/value pair
unchanged (even though a rebuild may rewire links). -/
theorem insert_replacement_spec (t : SgTree) (key val i : Nat)
    (h : (t.privGet key).nodeIdx = some i) :
    (t.insert key val).2 = some (t.arena.getNode i).val ∧
    (t.insert key val).1.currSize = t.currSize ∧
    (t.insert key val).1.maxSize = t.maxSize ∧
    (t.insert key val).1.arena.kvAt i = some (key, val) ∧
    (∀ j, j ≠ i → (t.insert key val).1.arena.kvAt j = t.arena.kvAt j) := by
  obtain ⟨node, hocc, hkey⟩ :=
    (by
      unfold SgTree.privGet at h
      cases hr : t.optRootIdx with
      | none => rw [hr] at h; simp at h
      | some rootIdx =>
        rw [hr] at h
        exact privGetAux_found_occupied t.arena key (t.arena.vec.length + 1) rootIdx
          none false i h :
      ∃ node, t.arena.node? i = some node ∧ node.key = key)
  obtain ⟨p2, hins⟩ := privInsert_found t key val i h
  unfold SgTree.insert SgTree.privBalancingInsert
  rw [hins]
  dsimp only
  have hkv1 : (t.arena.modifyNode i (fun n => { n with key := key, val := val })).kvAt i
      = some (key, val) := by
    unfold Arena.kvAt
    rw [Arena.node?_modifyNode_self, hocc]
    rfl
  have hkvj : ∀ j, j ≠ i →
      (t.arena.modifyNode i (fun n => { n with key := key, val := val })).kvAt j
        = t.arena.kvAt j := by
    intro j hj
    unfold Arena.kvAt
    rw [Arena.node?_modifyNode_ne _ _ _ _ hj]
  split
  · refine ⟨rfl, ?_, ?_, ?_, ?_⟩
    · split
      · exact (rebuild_fields _ _).1
      · rfl
    · split
      · exact (rebuild_fields _ _).2.1
      · rfl
    · split
      · rw [rebuild_kvAt]; exact hkv1
      · exact hkv1
    · intro j hj
      split
      · rw [rebuild_kvAt]; exact hkvj j hj
      · exact hkvj j hj
  · exact ⟨rfl, rfl, rfl, hkv1, hkvj⟩

/-- CLAIM C4 (amended).  For every tree and every key `k` found at
arena index `i`, `insert(k, v2)` returns `Some` of the previously
stored value, leaves `len` (and `high_water`) unchanged, stores
`(k, v2)` in the found slot, and leaves the key/value pair of every
other slot unchanged.  (The original claim's "no rebalance" part is
dropped: the rebalance check still runs, as the counterexample
shows.) -/
theorem c4_amended_replacement_insert (t : SgTree) (key val i : Nat)
    (h : (t.privGet key).nodeIdx = some i) :
    (t.insert key val).2 = some (t.arena.getNode i).val ∧
    (t.insert key val).1.currSize = t.currSize ∧
    (t.insert key val).1.arena.kvAt i = some (key, val) ∧
    (∀ j, j ≠ i → (t.insert key val).1.arena.kvAt j = t.arena.kvAt j) := by
  obtain ⟨h1, h2, h3, h4, h5⟩ := insert_replacement_spec t key val i h
  exact ⟨h1, h2, h4, h5⟩

/-- Witness for the amended C4 on the chain `1,2,3` (key 3 stored at
slot 2 with value 30): replacement returns the old value, keeps the
size, stores the new pair, and leaves slot 0 untouched. -/
theorem c4_amended_replacement_insert_witness :
    (exChain3.insert 3 99).2 = some (exChain3.arena.getNode 2).val ∧
    (exChain3.insert 3 99).1.currSize = exChain3.currSize ∧
    (exChain3.insert 3 99).1.arena.kvAt 2 = some (3, 99) ∧
    (exChain3.insert 3 99).1.arena.kvAt 0 = exChain3.arena.kvAt 0 := by
  obtain ⟨h1, h2, h3, h4⟩ := c4_amended_replacement_insert exChain3 3 99 2 (by decide)
  exact ⟨h1, h2, h3, h4 0 (by decide)⟩

/-- CLAIM C5.  At full capacity, `try_insert` of an absent key fails
with `StackCapacityExceeded` and leaves the tree unchanged; of a
present key it succeeds with `Ok(Some(old))` and performs the normal
replacement; and a non-full tree never yields this error. -/
theorem c5_try_insert_at_capacity (t : SgTree) (k v : Nat) :
    (t.currSize = t.arena.cap → t.containsKey k = false →
      t.tryInsert k v = (t, Except.error SgError.stackCapacityExceeded)) ∧
    (t.currSize < t.arena.cap → ∀ e, (t.tryInsert k v).2 ≠ Except.error e) ∧
    (∀ i, (t.privGet k).nodeIdx = some i →
      (t.tryInsert k v).2 = Except.ok (some (t.arena.getNode i).val) ∧
      (t.tryInsert k v).1.currSize = t.currSize ∧
      (t.tryInsert k v).1.arena.kvAt i = some (k, v)) := by
  refine ⟨?_, ?_, ?_⟩
  · intro hfull hcont
    unfold SgTree.tryInsert
    rw [hcont]
    simp [SgTree.len, SgTree.capacity, hfull]
  · intro hlt e
    unfold SgTree.tryInsert
    have hd : decide (t.len < t.capacity) = true := by
      simp [SgTree.len, SgTree.capacity, hlt]
    rw [hd]
    simp
  · intro i h
    have hc : t.containsKey k = true := by
      unfold SgTree.containsKey
      rw [h]
      rfl
    obtain ⟨h1, h2, h3, h4, h5⟩ := insert_replacement_spec t k v i h
    unfold SgTree.tryInsert
    rw [hc]
    simp only [Bool.true_or, if_pos]
    exact ⟨by rw [← h1], h2, h4⟩

/-- The tree at full capacity 3, built by inserting
`(2,20), (1,10), (3,30)`. -/
def exFullTree : SgTree :=
  let t1 := ((SgTree.new 3).insert 2 20).1
  let t2 := (t1.insert 1 10).1
  (t2.insert 3 30).1

/-- Witness for C5: on the full tree, `try_insert(4,40)` fails with
`StackCapacityExceeded` leaving the tree unchanged, while
`try_insert(2,99)` replaces in place (key 2 lives at slot 0). -/
theorem c5_try_insert_at_capacity_witness :
    exFullTree.tryInsert 4 40 = (exFullTree, Except.error SgError.stackCapacityExceeded) ∧
    (exFullTree.tryInsert 2 99).2 = Except.ok (some (exFullTree.arena.getNode 0).val) ∧
    (exFullTree.tryInsert 2 99).1.currSize = exFullTree.currSize ∧
    (exFullTree.tryInsert 2 99).1.arena.kvAt 0 = some (2, 99) := by
  refine ⟨(c5_try_insert_at_capacity exFullTree 4 40).1 (by decide) (by decide), ?_⟩
  obtain ⟨h1, h2, h3⟩ := (c5_try_insert_at_capacity exFullTree 2 99).2.2 0 (by decide)
  exact ⟨h1, h2, h3⟩

/-!
Extracted tree views: an inductive binary tree of arena indices, read
off the arena by fuelled extraction.  Well-formed states are those
whose root extracts successfully with strictly sorted keys.
-/

/-- Inductive view of the pointer structure: a binary tree of arena
indices. -/
inductive BT where
  | leaf : BT
  | node (l : BT) (idx : Nat) (r : BT) : BT
deriving DecidableEq, Repr

/-- In-order list of arena indices of a view. -/
def BT.inorder : BT → List Nat
  | .leaf => []
  | .node l i r => l.inorder ++ i :: r.inorder

/-- Number of nodes of a view. -/
def BT.count : BT → Nat
  | .leaf => 0
  | .node l _ r => l.count + r.count + 1

/-- Fuelled extraction of the tree of arena indices reachable from an
optional root.  Returns `none` when a slot is unoccupied or the
structure is deeper than the fuel (both impossible on well-formed
states with fuel above the slot count). -/
def extractF (a : Arena) : Nat → Option Nat → Option BT
  | _, none => some BT.leaf
  | 0, some _ => none
  | fuel+1, some i =>
    match a.node? i with
    | none => none
    | some n =>
      match extractF a fuel n.left, extractF a fuel n.right with
      | some l, some r => some (BT.node l i r)
      | _, _ => none

theorem extractF_mono (a : Arena) :
    ∀ fuel fuel' o bt, fuel ≤ fuel' → extractF a fuel o = some bt →
      extractF a fuel' o = some bt := by
  intro fuel
  induction fuel with
  | zero =>
    intro fuel' o bt _ h
    cases o with
    | none => cases fuel' <;> exact h
    | some i => simp [extractF] at h
  | succ m ih =>
    intro fuel' o bt hle h
    cases o with
    | none => cases fuel' <;> exact h
    | some i =>
      cases fuel' with
      | zero => omega
      | succ m' =>
        rw [extractF] at h ⊢
        split at h
        · simp at h
        · rename_i n ho
          split at h
          · rename_i lbt rbt hl hr
            rw [ih m' n.left lbt (by omega) hl, ih m' n.right rbt (by omega) hr]
            exact h
          · simp at h

/-- Keys along a list of arena indices. -/
def keysOf (a : Arena) (l : List Nat) : List Nat :=
  l.map (fun i => (a.getNode i).key)

/-- Key/value pairs along a list of arena indices. -/
def kvList (a : Arena) (l : List Nat) : List (Nat × Nat) :=
  l.map (fun i => ((a.getNode i).key, (a.getNode i).val))

/-- Well-formedness of a tree state relative to an extracted view: the
root extracts within the slot-count fuel and in-order keys are strictly
ascending (the BST global invariant). -/
def WF (t : SgTree) (bt : BT) : Prop :=
  extractF t.arena (t.arena.vec.length + 1) t.optRootIdx = some bt ∧
  List.Chain' (· < ·) (keysOf t.arena bt.inorder)

/-- Introduction form for a successful one-step extraction. -/
theorem extractF_node (a : Arena) (m i : Nat) (n : Node) (lbt rbt : BT)
    (ho : a.node? i = some n) (hl : extractF a m n.left = some lbt)
    (hr : extractF a m n.right = some rbt) :
    extractF a (m+1) (some i) = some (BT.node lbt i rbt) := by
  rw [extractF]
  simp only [ho]
  rw [hl, hr]

theorem extractF_congr (a a' : Arena) :
    ∀ fuel o bt, extractF a fuel o = some bt →
      (∀ j ∈ bt.inorder, a'.node? j = a.node? j) →
      extractF a' fuel o = some bt := by
  intro fuel
  induction fuel with
  | zero =>
    intro o bt h hagree
    cases o with
    | none => exact h
    | some i => simp [extractF] at h
  | succ m ih =>
    intro o bt h hagree
    cases o with
    | none => exact h
    | some i =>
      rw [extractF] at h ⊢
      split at h
      · simp at h
      · rename_i n ho
        split at h
        · rename_i lbt rbt hl hr
          injection h with h
          subst h
          have hmem : i ∈ (BT.node lbt i rbt).inorder := by
            simp [BT.inorder]
          have hagl : ∀ j ∈ lbt.inorder, a'.node? j = a.node? j := by
            intro j hj
            exact hagree j (by simp [BT.inorder, hj])
          have hagr : ∀ j ∈ rbt.inorder, a'.node? j = a.node? j := by
            intro j hj
            exact hagree j (by simp [BT.inorder, hj])
          have hno : a'.node? i = some n := by rw [hagree i hmem, ho]
          exact extractF_node a' m i n lbt rbt hno
            (ih n.left lbt hl hagl) (ih n.right rbt hr hagr)
        · simp at h

theorem inorderKVF_extract (a : Arena) :
    ∀ fuel o bt, extractF a fuel o = some bt →
      inorderKVF a fuel o = kvList a bt.inorder := by
  intro fuel
  induction fuel with
  | zero =>
    intro o bt h
    cases o with
    | none =>
      injection h with h
      subst h
      rfl
    | some i => simp [extractF] at h
  | succ m ih =>
    intro o bt h
    cases o with
    | none =>
      injection h with h
      subst h
      rfl
    | some i =>
      rw [extractF] at h
      rw [inorderKVF]
      split at h
      · simp at h
      · rename_i n ho
        split at h
        · rename_i lbt rbt hl hr
          injection h with h
          subst h
          rw [ih n.left lbt hl, ih n.right rbt hr]
          have hkv : (n.key, n.val) = ((a.getNode i).key, (a.getNode i).val) := by
            unfold Arena.getNode
            rw [ho]
            rfl
          simp [BT.inorder, kvList, hkv]
        · simp at h

/-- The subtree of a view rooted at a given arena index (leftmost
occurrence first; unique when the index lists are duplicate-free). -/
def BT.subtreeAt : BT → Nat → Option BT
  | .leaf, _ => none
  | .node l i r, idx =>
    if i = idx then some (BT.node l i r)
    else
      match l.subtreeAt idx with
      | some s => some s
      | none => r.subtreeAt idx

theorem BT.subtreeAt_isSome_of_mem :
    ∀ (bt : BT) (idx : Nat), idx ∈ bt.inorder → (bt.subtreeAt idx).isSome = true := by
  intro bt
  induction bt with
  | leaf => intro idx h; simp [BT.inorder] at h
  | node l i r ihl ihr =>
    intro idx h
    rw [BT.subtreeAt]
    by_cases hi : i = idx
    · rw [if_pos hi]; rfl
    · rw [if_neg hi]
      simp only [BT.inorder, List.mem_append, List.mem_cons] at h
      rcases h with hml | heq | hmr
      · have := ihl idx hml
        cases hs : l.subtreeAt idx with
        | none => rw [hs] at this; simp at this
        | some s => rfl
      · exact absurd heq.symm hi
      · cases hs : l.subtreeAt idx with
        | none => exact ihr idx hmr
        | some s => rfl

theorem BT.subtreeAt_root :
    ∀ (bt : BT) (idx : Nat) (sub : BT), bt.subtreeAt idx = some sub →
      ∃ sl sr, sub = BT.node sl idx sr := by
  intro bt
  induction bt with
  | leaf => intro idx sub h; simp [BT.subtreeAt] at h
  | node l i r ihl ihr =>
    intro idx sub h
    rw [BT.subtreeAt] at h
    by_cases hi : i = idx
    · rw [if_pos hi] at h
      injection h with h
      subst hi
      exact ⟨l, r, h.symm⟩
    · rw [if_neg hi] at h
      cases hs : l.subtreeAt idx with
      | none => rw [hs] at h; exact ihr idx sub h
      | some s =>
        rw [hs] at h
        injection h with h
        subst h
        exact ihl idx s hs

theorem BT.subtreeAt_inorder_subset :
    ∀ (bt : BT) (idx : Nat) (sub : BT), bt.subtreeAt idx = some sub →
      ∀ j ∈ sub.inorder, j ∈ bt.inorder := by
  intro bt
  induction bt with
  | leaf => intro idx sub h; simp [BT.subtreeAt] at h
  | node l i r ihl ihr =>
    intro idx sub h j hj
    rw [BT.subtreeAt] at h
    by_cases hi : i = idx
    · rw [if_pos hi] at h
      injection h with h
      rw [← h] at hj
      exact hj
    · rw [if_neg hi] at h
      cases hs : l.subtreeAt idx with
      | none =>
        rw [hs] at h
        have := ihr idx sub h j hj
        simp [BT.inorder, this]
      | some s =>
        rw [hs] at h
        injection h with h
        subst h
        have := ihl idx s hs j hj
        simp [BT.inorder, this]

theorem extractF_subtreeAt (a : Arena) :
    ∀ fuel o bt idx sub, extractF a fuel o = some bt →
      bt.subtreeAt idx = some sub →
      extractF a fuel (some idx) = some sub := by
  intro fuel
  induction fuel with
  | zero =>
    intro o bt idx sub h hs
    cases o with
    | none =>
      injection h with h
      subst h
      simp [BT.subtreeAt] at hs
    | some i => simp [extractF] at h
  | succ m ih =>
    intro o bt idx sub h hs
    cases o with
    | none =>
      injection h with h
      subst h
      simp [BT.subtreeAt] at hs
    | some i =>
      rw [extractF] at h
      split at h
      · simp at h
      · rename_i n ho
        split at h
        · rename_i lbt rbt hl hr
          injection h with h
          subst h
          rw [BT.subtreeAt] at hs
          by_cases hi : i = idx
          · rw [if_pos hi] at hs
            injection hs with hs
            subst hi
            rw [← hs]
            exact extractF_node a m i n lbt rbt ho hl hr
          · rw [if_neg hi] at hs
            cases hsl : lbt.subtreeAt idx with
            | none =>
              rw [hsl] at hs
              exact extractF_mono a m (m+1) (some idx) sub (Nat.le_succ m)
                (ih n.right rbt idx sub hr hs)
            | some s =>
              rw [hsl] at hs
              injection hs with hs
              subst hs
              exact extractF_mono a m (m+1) (some idx) _ (Nat.le_succ m)
                (ih n.left lbt idx _ hl hsl)
        · simp at h

/-!
Flatten correctness: the DFS worklist collects exactly the nodes of
the subtree, and the sort step turns them into the subtree's in-order
index list.
-/

/-- Worklist invariant: index `i` is an occupied node whose two child
trees extract to the given pair. -/
def extracts (a : Arena) (F : Nat) (i : Nat) (p : BT × BT) : Prop :=
  ∃ n, a.node? i = some n ∧ extractF a F n.left = some p.1 ∧
    extractF a F n.right = some p.2

theorem extracts_of_extract_some (a : Arena) (F : Nat) (j : Nat) (bt : BT)
    (h : extractF a F (some j) = some bt) :
    ∃ pl pr, bt = BT.node pl j pr ∧ extracts a F j (pl, pr) := by
  cases F with
  | zero => simp [extractF] at h
  | succ m =>
    rw [extractF] at h
    split at h
    · simp at h
    · rename_i n ho
      split at h
      · rename_i lbt rbt hl hr
        injection h with h
        subst h
        exact ⟨lbt, rbt, rfl, n, ho,
          extractF_mono a m (m+1) _ _ (Nat.le_succ m) hl,
          extractF_mono a m (m+1) _ _ (Nat.le_succ m) hr⟩
      · simp at h

theorem node?_lt_length (a : Arena) (i : Nat) (n : Node)
    (h : a.node? i = some n) : i < a.vec.length := by
  unfold Arena.node? at h
  by_contra hc
  rw [List.get?_eq_none.mpr (le_of_not_lt hc)] at h
  cases h

theorem extractF_mem_occupied (a : Arena) :
    ∀ fuel o bt, extractF a fuel o = some bt →
      ∀ i ∈ bt.inorder, ∃ n, a.node? i = some n := by
  intro fuel
  induction fuel with
  | zero =>
    intro o bt h i hi
    cases o with
    | none =>
      injection h with h
      subst h
      simp [BT.inorder] at hi
    | some j => simp [extractF] at h
  | succ m ih =>
    intro o bt h i hi
    cases o with
    | none =>
      injection h with h
      subst h
      simp [BT.inorder] at hi
    | some j =>
      rw [extractF] at h
      split at h
      · simp at h
      · rename_i n ho
        split at h
        · rename_i lbt rbt hl hr
          injection h with h
          subst h
          simp only [BT.inorder, List.mem_append, List.mem_cons] at hi
          rcases hi with hl2 | heq | hr2
          · exact ih n.left lbt hl i hl2
          · exact ⟨n, heq ▸ ho⟩
          · exact ih n.right rbt hr i hr2
        · simp at h

/-- Extraction of an absent child is the empty view, at any fuel. -/
theorem extractF_none_eq (a : Arena) (F : Nat) : extractF a F none = some BT.leaf := by
  cases F <;> rfl

/-- One worklist step of the flatten loop, leafless node. -/
theorem flattenAux_step_nn (a : Arena) (fuel i : Nat) (wl acc : List Nat) (n : Node)
    (ho : a.node? i = some n) (hnl : n.left = none) (hnr : n.right = none) :
    flattenAux a (fuel+1) (i :: wl) acc = flattenAux a fuel wl acc := by
  rw [flattenAux]
  simp only [ho, hnl, hnr]

/-- One worklist step of the flatten loop, left child only. -/
theorem flattenAux_step_sn (a : Arena) (fuel i li : Nat) (wl acc : List Nat) (n : Node)
    (ho : a.node? i = some n) (hnl : n.left = some li) (hnr : n.right = none) :
    flattenAux a (fuel+1) (i :: wl) acc = flattenAux a fuel (li :: wl) (acc ++ [li]) := by
  rw [flattenAux]
  simp only [ho, hnl, hnr]

/-- One worklist step of the flatten loop, right child only. -/
theorem flattenAux_step_ns (a : Arena) (fuel i ri : Nat) (wl acc : List Nat) (n : Node)
    (ho : a.node? i = some n) (hnl : n.left = none) (hnr : n.right = some ri) :
    flattenAux a (fuel+1) (i :: wl) acc = flattenAux a fuel (ri :: wl) (acc ++ [ri]) := by
  rw [flattenAux]
  simp only [ho, hnl, hnr]

/-- One worklist step of the flatten loop, two children. -/
theorem flattenAux_step_ss (a : Arena) (fuel i li ri : Nat) (wl acc : List Nat) (n : Node)
    (ho : a.node? i = some n) (hnl : n.left = some li) (hnr : n.right = some ri) :
    flattenAux a (fuel+1) (i :: wl) acc =
      flattenAux a fuel (ri :: li :: wl) (acc ++ [li] ++ [ri]) := by
  rw [flattenAux]
  simp only [ho, hnl, hnr]

/-- The flatten worklist loop emits, after the accumulated prefix, a
permutation of the in-order contents of all child pairs of the pending
worklist entries, provided the fuel covers their total node count. -/
theorem flattenAux_perm (a : Arena) (F : Nat) :
    ∀ fuel wl ps acc,
      List.Forall₂ (extracts a F) wl ps →
      (ps.map (fun p => p.1.count + p.2.count + 1)).sum ≤ fuel →
      List.Perm (flattenAux a fuel wl acc)
        (acc ++ (ps.map (fun p => p.1.inorder ++ p.2.inorder)).flatten) := by
  intro fuel
  induction fuel with
  | zero =>
    intro wl ps acc hf hm
    cases ps with
    | nil =>
      cases hf
      simp [flattenAux]
    | cons p ps' =>
      simp only [List.map_cons, List.sum_cons] at hm
      omega
  | succ m ih =>
    intro wl ps acc hf hm
    cases hf with
    | nil => simp [flattenAux]
    | cons hext hf' =>
      rename_i i p wl' ps'
      obtain ⟨p1, p2⟩ := p
      obtain ⟨n, ho, hl, hr⟩ := hext
      simp only [List.map_cons, List.sum_cons] at hm
      cases hnl : n.left with
      | none =>
        rw [hnl, extractF_none_eq] at hl
        injection hl with hl
        subst hl
        cases hnr : n.right with
        | none =>
          rw [hnr, extractF_none_eq] at hr
          injection hr with hr
          subst hr
          rw [flattenAux_step_nn a m i wl' acc n ho hnl hnr]
          have hperm := ih wl' ps' acc hf' (by simp only [BT.count] at hm; omega)
          simpa [BT.inorder, List.flatten_cons] using hperm
        | some ri =>
          rw [hnr] at hr
          obtain ⟨ql, qr, hp2, heir⟩ := extracts_of_extract_some a F ri p2 hr
          subst hp2
          rw [flattenAux_step_ns a m i ri wl' acc n ho hnl hnr]
          have hperm := ih (ri :: wl') ((ql, qr) :: ps') (acc ++ [ri])
            (List.Forall₂.cons heir hf')
            (by simp only [List.map_cons, List.sum_cons, BT.count] at hm ⊢; omega)
          refine hperm.trans ?_
          simp only [List.map_cons, List.flatten_cons, BT.inorder, List.nil_append]
          rw [← Multiset.coe_eq_coe]
          simp only [← Multiset.coe_add, ← Multiset.cons_coe, ← Multiset.singleton_add]
          abel
      | some li =>
        rw [hnl] at hl
        obtain ⟨pl, pr, hp1, heil⟩ := extracts_of_extract_some a F li p1 hl
        subst hp1
        cases hnr : n.right with
        | none =>
          rw [hnr, extractF_none_eq] at hr
          injection hr with hr
          subst hr
          rw [flattenAux_step_sn a m i li wl' acc n ho hnl hnr]
          have hperm := ih (li :: wl') ((pl, pr) :: ps') (acc ++ [li])
            (List.Forall₂.cons heil hf')
            (by simp only [List.map_cons, List.sum_cons, BT.count] at hm ⊢; omega)
          refine hperm.trans ?_
          simp only [List.map_cons, List.flatten_cons, BT.inorder, List.append_nil]
          rw [← Multiset.coe_eq_coe]
          simp only [← Multiset.coe_add, ← Multiset.cons_coe, ← Multiset.singleton_add]
          abel
        | some ri =>
          rw [hnr] at hr
          obtain ⟨ql, qr, hp2, heir⟩ := extracts_of_extract_some a F ri p2 hr
          subst hp2
          rw [flattenAux_step_ss a m i li ri wl' acc n ho hnl hnr]
          have hperm := ih (ri :: li :: wl') ((ql, qr) :: (pl, pr) :: ps')
            (acc ++ [li] ++ [ri])
            (List.Forall₂.cons heir (List.Forall₂.cons heil hf'))
            (by simp only [List.map_cons, List.sum_cons, BT.count] at hm ⊢; omega)
          refine hperm.trans ?_
          simp only [List.map_cons, List.flatten_cons, BT.inorder]
          rw [← Multiset.coe_eq_coe]
          simp only [← Multiset.coe_add, ← Multiset.cons_coe, ← Multiset.singleton_add]
          abel

/-- A view's node count is the length of its in-order list. -/
theorem BT.count_inorder : ∀ (bt : BT), bt.count = bt.inorder.length := by
  intro bt
  induction bt with
  | leaf => rfl
  | node l i r ihl ihr =>
    simp only [BT.count, BT.inorder, List.length_append, List.length_cons, ihl, ihr]
    omega

/-- The in-order list of a located subtree is an in-order-preserving
sublist of the whole view's in-order list. -/
theorem BT.subtreeAt_inorder_sublist :
    ∀ (bt : BT) (idx : Nat) (sub : BT), bt.subtreeAt idx = some sub →
      List.Sublist sub.inorder bt.inorder := by
  intro bt
  induction bt with
  | leaf => intro idx sub h; simp [BT.subtreeAt] at h
  | node l i r ihl ihr =>
    intro idx sub h
    rw [BT.subtreeAt] at h
    by_cases hi : i = idx
    · rw [if_pos hi] at h
      injection h with h
      rw [← h]
    · rw [if_neg hi] at h
      cases hs : l.subtreeAt idx with
      | none =>
        rw [hs] at h
        refine (ihr idx sub h).trans ?_
        refine (List.sublist_cons_self i r.inorder).trans ?_
        exact List.sublist_append_right l.inorder (i :: r.inorder)
      | some s =>
        rw [hs] at h
        injection h with h
        subst h
        refine (ihl idx s hs).trans ?_
        exact (List.sublist_append_left l.inorder (i :: r.inorder))

/-- Two permuted lists with equal, duplicate-free images under a map
are equal. -/
theorem eq_of_perm_of_map_eq (f : Nat → Nat) :
    ∀ (l1 l2 : List Nat), List.Perm l1 l2 → l1.map f = l2.map f →
      (l1.map f).Nodup → l1 = l2 := by
  intro l1
  induction l1 with
  | nil =>
    intro l2 hp _ _
    exact (List.Perm.eq_nil hp.symm).symm
  | cons a t ih =>
    intro l2 hp hm hnd
    cases l2 with
    | nil => exact absurd (List.Perm.eq_nil hp) (by simp)
    | cons b t2 =>
      simp only [List.map_cons] at hm
      injection hm with hfab hmt
      by_cases hab : a = b
      · subst hab
        rw [ih t2 hp.cons_inv hmt
          (by simp only [List.map_cons, List.nodup_cons] at hnd; exact hnd.2)]
      · exfalso
        have hmem : a ∈ b :: t2 := hp.subset (List.mem_cons_self a t)
        have hat2 : a ∈ t2 := by
          cases List.mem_cons.mp hmem with
          | inl h => exact absurd h hab
          | inr h => exact h
        have hfa : f a ∈ t2.map f := List.mem_map_of_mem f hat2
        rw [← hmt] at hfa
        simp only [List.map_cons, List.nodup_cons] at hnd
        exact hnd.1 hfa

instance (a : Arena) : IsTotal Nat (keyLe a) :=
  ⟨fun _ _ => Nat.le_total _ _⟩

instance (a : Arena) : IsTrans Nat (keyLe a) :=
  ⟨fun _ _ _ h1 h2 => Nat.le_trans h1 h2⟩

/-- On a well-formed tree, flattening a reachable subtree returns
exactly that subtree's in-order arena-index list: the DFS collects a
permutation of it and the key sort restores in-order order, keys being
strictly ascending hence distinct. -/
theorem flattenSubtree_eq (t : SgTree) (bt sub : BT) (idx : Nat)
    (hwf : WF t bt) (hsub : bt.subtreeAt idx = some sub) :
    t.flattenSubtree idx = sub.inorder := by
  obtain ⟨hext, hchain⟩ := hwf
  have hsubext : extractF t.arena (t.arena.vec.length + 1) (some idx) = some sub :=
    extractF_subtreeAt t.arena (t.arena.vec.length + 1) t.optRootIdx bt idx sub hext hsub
  obtain ⟨sl, sr, hsubeq, hei⟩ :=
    extracts_of_extract_some t.arena (t.arena.vec.length + 1) idx sub hsubext
  have hpairwise : (keysOf t.arena bt.inorder).Pairwise (· < ·) :=
    List.chain'_iff_pairwise.mp hchain
  have hsublist : List.Sublist sub.inorder bt.inorder :=
    BT.subtreeAt_inorder_sublist bt idx sub hsub
  have hsubpair : (keysOf t.arena sub.inorder).Pairwise (· < ·) :=
    List.Pairwise.sublist (List.Sublist.map _ hsublist) hpairwise
  have hknodup : (keysOf t.arena sub.inorder).Nodup :=
    List.Pairwise.imp (fun h => Nat.ne_of_lt h) hsubpair
  have hnodup : sub.inorder.Nodup := List.Nodup.of_map _ hknodup
  have hsubset : sub.inorder ⊆ List.range t.arena.vec.length := by
    intro j hj
    obtain ⟨n, hn⟩ :=
      extractF_mem_occupied t.arena (t.arena.vec.length + 1) (some idx) sub hsubext j hj
    exact List.mem_range.mpr (node?_lt_length t.arena j n hn)
  have hcount : sub.count ≤ t.arena.vec.length := by
    rw [BT.count_inorder]
    have hle := List.Subperm.length_le (List.subperm_of_subset hnodup hsubset)
    simpa using hle
  have hmeasure :
      ([((sl, sr) : BT × BT)].map (fun p => p.1.count + p.2.count + 1)).sum ≤
        t.arena.vec.length + 1 := by
    simp only [List.map_cons, List.map_nil, List.sum_cons, List.sum_nil]
    have hc : sub.count = sl.count + sr.count + 1 := by rw [hsubeq]; rfl
    omega
  have hcoll := flattenAux_perm t.arena (t.arena.vec.length + 1) (t.arena.vec.length + 1)
    [idx] [(sl, sr)] [idx] (List.Forall₂.cons hei List.Forall₂.nil) hmeasure
  have hcoll2 :
      List.Perm (flattenAux t.arena (t.arena.vec.length + 1) [idx] [idx]) sub.inorder := by
    refine hcoll.trans ?_
    rw [hsubeq]
    simp only [List.map_cons, List.map_nil, List.flatten_cons, List.flatten_nil,
      List.append_nil, BT.inorder]
    rw [← Multiset.coe_eq_coe]
    simp only [← Multiset.coe_add, ← Multiset.cons_coe, ← Multiset.singleton_add]
    abel
  have hpermsort :
      List.Perm (List.insertionSort (keyLe t.arena)
        (flattenAux t.arena (t.arena.vec.length + 1) [idx] [idx])) sub.inorder :=
    (List.perm_insertionSort _ _).trans hcoll2
  have hsorted : List.Sorted (keyLe t.arena) (List.insertionSort (keyLe t.arena)
      (flattenAux t.arena (t.arena.vec.length + 1) [idx] [idx])) :=
    List.sorted_insertionSort _ _
  have hmapsorted1 :
      (keysOf t.arena (List.insertionSort (keyLe t.arena)
        (flattenAux t.arena (t.arena.vec.length + 1) [idx] [idx]))).Pairwise (· ≤ ·) :=
    List.Pairwise.map _ (fun _ _ h => h) hsorted
  have hmapsorted2 : (keysOf t.arena sub.inorder).Pairwise (· ≤ ·) :=
    List.Pairwise.imp (fun h => Nat.le_of_lt h) hsubpair
  have hmapeq :
      keysOf t.arena (List.insertionSort (keyLe t.arena)
        (flattenAux t.arena (t.arena.vec.length + 1) [idx] [idx])) =
        keysOf t.arena sub.inorder :=
    List.eq_of_perm_of_sorted (hpermsort.map _) hmapsorted1 hmapsorted2
  have hfinal :
      List.insertionSort (keyLe t.arena)
        (flattenAux t.arena (t.arena.vec.length + 1) [idx] [idx]) = sub.inorder :=
    eq_of_perm_of_map_eq (fun i => (t.arena.getNode i).key) _ _ hpermsort hmapeq
      (by
        rw [show (List.map (fun i => (t.arena.getNode i).key)
            (List.insertionSort (keyLe t.arena)
              (flattenAux t.arena (t.arena.vec.length + 1) [idx] [idx]))) =
            keysOf t.arena sub.inorder from hmapeq]
        exact hknodup)
  exact hfinal

/-!
Reshape correctness: the rebalance worklist loop equals a recursive
in-place writer over the sorted range, and that writer's result
extracts to the balanced view the specification describes (the middle
of the sorted slice becomes the subtree root; the halves are rebuilt
recursively over the same arena slots).
-/

theorem NodeRebuildHelper.ofRange_lowIdx (lo hi : Nat) :
    (NodeRebuildHelper.ofRange lo hi).lowIdx = lo := rfl

theorem NodeRebuildHelper.ofRange_highIdx (lo hi : Nat) :
    (NodeRebuildHelper.ofRange lo hi).highIdx = hi := rfl

theorem NodeRebuildHelper.ofRange_midIdx (lo hi : Nat) :
    (NodeRebuildHelper.ofRange lo hi).midIdx = lo + (hi - lo) / 2 := rfl

/-- Recursive form of the writes the rebalance worklist loop performs
for one `(position, range)` task: write the middle node's links, then
the right half, then the left half (the loop's stack order). -/
def taskWrite (sorted : List Nat) : Arena → Nat → Nat → Nat → Arena
  | a, 0, _, _ => a
  | a, fuel+1, lo, hi =>
    let mid := lo + (hi - lo) / 2
    let pi := sorted.getD mid 0
    let a1 := (a.setLeft pi none).setRight pi none
    let a2 := if lo < mid then
        a1.setLeft pi (some (sorted.getD (lo + (mid - 1 - lo) / 2) 0))
      else a1
    let a3 := if mid < hi then
        a2.setRight pi (some (sorted.getD (mid + 1 + (hi - (mid + 1)) / 2) 0))
      else a2
    let a4 := if mid < hi then taskWrite sorted a3 fuel (mid + 1) hi else a3
    if lo < mid then taskWrite sorted a4 fuel lo (mid - 1) else a4

/-- The balanced view the specification prescribes for a sorted slice:
the middle element becomes the root and the halves are arranged
recursively over their own slots. -/
def balBTF (sorted : List Nat) : Nat → Nat → Nat → BT
  | 0, _, _ => BT.leaf
  | fuel+1, lo, hi =>
    BT.node
      (if lo < lo + (hi - lo) / 2 then balBTF sorted fuel lo (lo + (hi - lo) / 2 - 1)
       else BT.leaf)
      (sorted.getD (lo + (hi - lo) / 2) 0)
      (if lo + (hi - lo) / 2 < hi then balBTF sorted fuel (lo + (hi - lo) / 2 + 1) hi
       else BT.leaf)

theorem Arena.node?_setLeft_ne (a : Arena) (i : Nat) (x : Option Nat) (j : Nat)
    (h : j ≠ i) : (a.setLeft i x).node? j = a.node? j :=
  Arena.node?_modifyNode_ne a i _ j h

theorem Arena.node?_setRight_ne (a : Arena) (i : Nat) (x : Option Nat) (j : Nat)
    (h : j ≠ i) : (a.setRight i x).node? j = a.node? j :=
  Arena.node?_modifyNode_ne a i _ j h

theorem Arena.node?_setLeft_self (a : Arena) (i : Nat) (x : Option Nat) (n : Node)
    (h : a.node? i = some n) :
    (a.setLeft i x).node? i = some { n with left := x } := by
  unfold Arena.setLeft
  rw [Arena.node?_modifyNode_self, h]
  rfl

theorem Arena.node?_setRight_self (a : Arena) (i : Nat) (x : Option Nat) (n : Node)
    (h : a.node? i = some n) :
    (a.setRight i x).node? i = some { n with right := x } := by
  unfold Arena.setRight
  rw [Arena.node?_modifyNode_self, h]
  rfl

theorem Arena.length_modifyNode (a : Arena) (i : Nat) (f : Node → Node) :
    (a.modifyNode i f).vec.length = a.vec.length := by
  unfold Arena.modifyNode
  split
  · simp
  · rfl

theorem Arena.length_setLeft (a : Arena) (i : Nat) (x : Option Nat) :
    (a.setLeft i x).vec.length = a.vec.length :=
  Arena.length_modifyNode a i _

theorem Arena.length_setRight (a : Arena) (i : Nat) (x : Option Nat) :
    (a.setRight i x).vec.length = a.vec.length :=
  Arena.length_modifyNode a i _

theorem Arena.isOccupied_eq_kvAt_isSome (a : Arena) (j : Nat) :
    a.isOccupied j = (a.kvAt j).isSome := by
  unfold Arena.isOccupied Arena.kvAt
  cases a.node? j <;> rfl

theorem Arena.getNode_kv_of_kvAt_eq (a a' : Arena) (j : Nat)
    (h : a'.kvAt j = a.kvAt j) :
    (a'.getNode j).key = (a.getNode j).key ∧ (a'.getNode j).val = (a.getNode j).val := by
  unfold Arena.kvAt at h
  unfold Arena.getNode
  cases h1 : a'.node? j <;> cases h2 : a.node? j <;> rw [h1, h2] at h
  · exact ⟨rfl, rfl⟩
  · cases h
  · cases h
  · rename_i n' n
    injection h with h
    injection h with hk hv
    simp [hk, hv]

theorem rebalLoop_nil (sorted : List Nat) (a : Arena) (fuel : Nat) :
    rebalLoop sorted a fuel [] = a := by
  cases fuel <;> rfl

theorem taskWrite_kvAt (sorted : List Nat) :
    ∀ fuel lo hi a j, (taskWrite sorted a fuel lo hi).kvAt j = a.kvAt j := by
  intro fuel
  induction fuel with
  | zero => intro lo hi a j; rfl
  | succ m ih =>
    intro lo hi a j
    rw [taskWrite]
    by_cases hlm : lo < lo + (hi - lo) / 2 <;> by_cases hmh : lo + (hi - lo) / 2 < hi <;>
      simp [hlm, hmh, ih, Arena.kvAt_setLeft, Arena.kvAt_setRight]

theorem taskWrite_length (sorted : List Nat) :
    ∀ fuel lo hi a, (taskWrite sorted a fuel lo hi).vec.length = a.vec.length := by
  intro fuel
  induction fuel with
  | zero => intro lo hi a; rfl
  | succ m ih =>
    intro lo hi a
    rw [taskWrite]
    by_cases hlm : lo < lo + (hi - lo) / 2 <;> by_cases hmh : lo + (hi - lo) / 2 < hi <;>
      simp [hlm, hmh, ih, Arena.length_setLeft, Arena.length_setRight]

theorem taskWrite_frame (sorted : List Nat) :
    ∀ fuel lo hi a j, (∀ p, lo ≤ p → p ≤ hi → sorted.getD p 0 ≠ j) → lo ≤ hi →
      (taskWrite sorted a fuel lo hi).node? j = a.node? j := by
  intro fuel
  induction fuel with
  | zero => intro lo hi a j _ _; rfl
  | succ m ih =>
    intro lo hi a j hout hlh
    have hmem : lo ≤ lo + (hi - lo) / 2 ∧ lo + (hi - lo) / 2 ≤ hi := by omega
    have hpij : sorted.getD (lo + (hi - lo) / 2) 0 ≠ j := hout _ hmem.1 hmem.2
    rw [taskWrite]
    by_cases hlm : lo < lo + (hi - lo) / 2 <;> by_cases hmh : lo + (hi - lo) / 2 < hi <;>
      simp only [hlm, hmh, if_true, if_false, ite_true, ite_false] <;>
      repeat
        first
        | rw [ih lo (lo + (hi - lo) / 2 - 1) _ j
            (fun p h1 h2 => hout p (by omega) (by omega)) (by omega)]
        | rw [ih (lo + (hi - lo) / 2 + 1) hi _ j
            (fun p h1 h2 => hout p (by omega) (by omega)) (by omega)]
        | rw [Arena.node?_setRight_ne _ _ _ _ (Ne.symm hpij)]
        | rw [Arena.node?_setLeft_ne _ _ _ _ (Ne.symm hpij)]

/-- The writer's result does not depend on the fuel, once the fuel
covers the range size. -/
theorem taskWrite_irrel (sorted : List Nat) :
    ∀ f1 f2 lo hi a, lo ≤ hi → hi + 1 - lo ≤ f1 → hi + 1 - lo ≤ f2 →
      taskWrite sorted a f1 lo hi = taskWrite sorted a f2 lo hi := by
  intro f1
  induction f1 using Nat.strong_induction_on with
  | _ f1 ih =>
    intro f2 lo hi a hlh h1 h2
    obtain ⟨m1, rfl⟩ : ∃ m, f1 = m + 1 := ⟨f1 - 1, by omega⟩
    obtain ⟨m2, rfl⟩ : ∃ m, f2 = m + 1 := ⟨f2 - 1, by omega⟩
    rw [taskWrite, taskWrite]
    by_cases hlm : lo < lo + (hi - lo) / 2 <;> by_cases hmh : lo + (hi - lo) / 2 < hi <;>
      simp only [hlm, hmh, if_true, if_false, ite_true, ite_false]
    · rw [ih m1 (by omega) m2 (lo + (hi - lo) / 2 + 1) hi _ (by omega) (by omega) (by omega)]
      exact ih m1 (by omega) m2 lo (lo + (hi - lo) / 2 - 1) _ (by omega) (by omega) (by omega)
    · exact ih m1 (by omega) m2 lo (lo + (hi - lo) / 2 - 1) _ (by omega) (by omega) (by omega)
    · exact ih m1 (by omega) m2 (lo + (hi - lo) / 2 + 1) hi _ (by omega) (by omega) (by omega)

/-- Decomposition of the worklist loop: a `(middle, range)` task at the
head of the stack is processed exactly as the recursive writer, after
which the loop continues on the rest of the stack with the remaining
fuel. -/
theorem rebalLoop_taskWrite (sorted : List Nat) :
    ∀ fuel lo hi a wl, lo ≤ hi → hi + 1 - lo ≤ fuel →
      rebalLoop sorted a fuel ((lo + (hi - lo) / 2, NodeRebuildHelper.ofRange lo hi) :: wl) =
        rebalLoop sorted (taskWrite sorted a fuel lo hi) (fuel - (hi + 1 - lo)) wl := by
  intro fuel
  induction fuel using Nat.strong_induction_on with
  | _ fuel ih =>
    intro lo hi a wl hlh hsz
    obtain ⟨m, rfl⟩ : ∃ k, fuel = k + 1 := ⟨fuel - 1, by omega⟩
    rw [rebalLoop, taskWrite]
    simp only [NodeRebuildHelper.ofRange_lowIdx, NodeRebuildHelper.ofRange_highIdx,
      NodeRebuildHelper.ofRange_midIdx]
    by_cases hlm : lo < lo + (hi - lo) / 2 <;> by_cases hmh : lo + (hi - lo) / 2 < hi <;>
      simp only [hlm, hmh, if_true, if_false, ite_true, ite_false]
    · rw [ih m (by omega) (lo + (hi - lo) / 2 + 1) hi _ _ (by omega) (by omega)]
      rw [ih (m - (hi + 1 - (lo + (hi - lo) / 2 + 1))) (by omega) lo (lo + (hi - lo) / 2 - 1)
        _ _ (by omega) (by omega)]
      rw [taskWrite_irrel sorted (m - (hi + 1 - (lo + (hi - lo) / 2 + 1))) m
        lo (lo + (hi - lo) / 2 - 1) _ (by omega) (by omega) (by omega)]
      have hf : m - (hi + 1 - (lo + (hi - lo) / 2 + 1)) - (lo + (hi - lo) / 2 - 1 + 1 - lo) =
          m + 1 - (hi + 1 - lo) := by omega
      rw [hf]
    · rw [ih m (by omega) lo (lo + (hi - lo) / 2 - 1) _ _ (by omega) (by omega)]
      have hf : m - (lo + (hi - lo) / 2 - 1 + 1 - lo) = m + 1 - (hi + 1 - lo) := by omega
      rw [hf]
    · rw [ih m (by omega) (lo + (hi - lo) / 2 + 1) hi _ _ (by omega) (by omega)]
      have hf : m - (hi + 1 - (lo + (hi - lo) / 2 + 1)) = m + 1 - (hi + 1 - lo) := by omega
      rw [hf]
    · have hf : m + 1 - (hi + 1 - lo) = m := by omega
      rw [hf]

theorem range'_split (s m n : Nat) :
    List.range' s (m + n) = List.range' s m ++ List.range' (s + m) n := by
  have h := List.range'_append s m n 1
  rw [Nat.one_mul, Nat.add_comm n m] at h
  rw [← h]

theorem range'_cons_step (s n : Nat) :
    List.range' s (n + 1) = s :: List.range' (s + 1) n := rfl

theorem getD_inj_of_nodup (l : List Nat) (h : l.Nodup) (p q : Nat)
    (hp : p < l.length) (hq : q < l.length) (he : l.getD p 0 = l.getD q 0) : p = q := by
  rw [List.getD_eq_getElem l 0 hp, List.getD_eq_getElem l 0 hq] at he
  exact (List.Nodup.getElem_inj_iff h).mp he

/-- In-order contents of the balanced view of a slice: exactly the
slice itself, in slice order. -/
theorem balBTF_inorder (sorted : List Nat) :
    ∀ G lo hi, lo ≤ hi → hi + 1 - lo ≤ G →
      (balBTF sorted G lo hi).inorder =
        (List.range' lo (hi + 1 - lo)).map (fun p => sorted.getD p 0) := by
  intro G
  induction G with
  | zero => intro lo hi h1 h2; omega
  | succ m ih =>
    intro lo hi h1 h2
    rw [balBTF]
    set mid := lo + (hi - lo) / 2 with hmid
    by_cases hlm : lo < mid <;> by_cases hmh : mid < hi <;>
      simp only [hlm, hmh, if_true, if_false, ite_true, ite_false, BT.inorder]
    · rw [ih lo (mid - 1) (by omega) (by omega), ih (mid + 1) hi (by omega) (by omega)]
      rw [show hi + 1 - lo = (mid - lo) + ((hi - mid - 1) + 1 + 1) from by omega]
      rw [range'_split, range'_cons_step, show lo + (mid - lo) = mid from by omega]
      rw [show (hi - mid - 1) + 1 = hi - mid from by omega]
      rw [show mid - 1 + 1 - lo = mid - lo from by omega]
      rw [show hi + 1 - (mid + 1) = hi - mid from by omega]
      simp [List.map_append]
    · rw [ih lo (mid - 1) (by omega) (by omega)]
      rw [show hi + 1 - lo = (mid - lo) + 1 from by omega]
      rw [range'_split, range'_cons_step, show lo + (mid - lo) = mid from by omega]
      rw [show mid - 1 + 1 - lo = mid - lo from by omega]
      have hmh' : mid = hi := by omega
      simp [List.map_append, hmh']
    · rw [ih (mid + 1) hi (by omega) (by omega)]
      have hlm' : mid = lo := by omega
      rw [show hi + 1 - lo = (hi - lo) + 1 from by omega]
      rw [range'_cons_step]
      rw [show hi + 1 - (mid + 1) = hi - mid from by omega]
      simp [hlm']
    · have h3 : mid = lo ∧ mid = hi := by omega
      rw [show hi + 1 - lo = 1 from by omega]
      simp [h3.1]

/-- Membership in the balanced view's in-order list comes from a slice
position. -/
theorem balBTF_mem (sorted : List Nat) (G lo hi j : Nat) (h1 : lo ≤ hi)
    (h2 : hi + 1 - lo ≤ G) (hj : j ∈ (balBTF sorted G lo hi).inorder) :
    ∃ p, lo ≤ p ∧ p ≤ hi ∧ j = sorted.getD p 0 := by
  rw [balBTF_inorder sorted G lo hi h1 h2] at hj
  obtain ⟨p, hp, hpe⟩ := List.mem_map.mp hj
  rw [List.mem_range'_1] at hp
  exact ⟨p, hp.1, by omega, hpe.symm⟩

theorem occupied_of_kvAt_eq (a b : Arena) (j : Nat) (h : b.kvAt j = a.kvAt j)
    (ho : (a.node? j).isSome = true) : (b.node? j).isSome = true := by
  have h1 := Arena.isOccupied_eq_kvAt_isSome b j
  have h2 := Arena.isOccupied_eq_kvAt_isSome a j
  unfold Arena.isOccupied at h1 h2
  rw [h1, h, ← h2]
  exact ho

theorem write_node_two (a : Arena) (pi : Nat) (n : Node) (lc rc : Option Nat)
    (hn : a.node? pi = some n) :
    ((((a.setLeft pi none).setRight pi none).setLeft pi lc).setRight pi rc).node? pi =
      some ⟨n.key, n.val, lc, rc⟩ :=
  Arena.node?_setRight_self _ pi _ _ (Arena.node?_setLeft_self _ pi _ _
    (Arena.node?_setRight_self _ pi _ _ (Arena.node?_setLeft_self a pi _ _ hn)))

theorem write_node_left (a : Arena) (pi : Nat) (n : Node) (lc : Option Nat)
    (hn : a.node? pi = some n) :
    (((a.setLeft pi none).setRight pi none).setLeft pi lc).node? pi =
      some ⟨n.key, n.val, lc, none⟩ :=
  Arena.node?_setLeft_self _ pi _ _
    (Arena.node?_setRight_self _ pi _ _ (Arena.node?_setLeft_self a pi _ _ hn))

theorem write_node_right (a : Arena) (pi : Nat) (n : Node) (rc : Option Nat)
    (hn : a.node? pi = some n) :
    (((a.setLeft pi none).setRight pi none).setRight pi rc).node? pi =
      some ⟨n.key, n.val, none, rc⟩ :=
  Arena.node?_setRight_self _ pi _ _
    (Arena.node?_setRight_self _ pi _ _ (Arena.node?_setLeft_self a pi _ _ hn))

theorem write_node_none (a : Arena) (pi : Nat) (n : Node)
    (hn : a.node? pi = some n) :
    ((a.setLeft pi none).setRight pi none).node? pi = some ⟨n.key, n.val, none, none⟩ :=
  Arena.node?_setRight_self _ pi _ _ (Arena.node?_setLeft_self a pi _ _ hn)

/-- Running the writer over a duplicate-free sorted range (whose slots
are all occupied) produces, at the middle slot, exactly the balanced
view of the slice. -/
theorem extract_taskWrite (sorted : List Nat) (hnd : sorted.Nodup) :
    ∀ G fuel lo hi a, lo ≤ hi → hi + 1 - lo ≤ G → hi + 1 - lo ≤ fuel →
      hi < sorted.length →
      (∀ p, p < sorted.length → (a.node? (sorted.getD p 0)).isSome = true) →
      extractF (taskWrite sorted a fuel lo hi) G
          (some (sorted.getD (lo + (hi - lo) / 2) 0)) =
        some (balBTF sorted G lo hi) := by
  intro G
  induction G with
  | zero => intro fuel lo hi a h1 h2 h3 h4 h5; omega
  | succ g ih =>
    intro fuel lo hi a hlh hG hfuel hhi hocc
    obtain ⟨f, rfl⟩ : ∃ k, fuel = k + 1 := ⟨fuel - 1, by omega⟩
    have hinj : ∀ p q, p < sorted.length → q < sorted.length →
        sorted.getD p 0 = sorted.getD q 0 → p = q := fun p q hp hq he =>
      getD_inj_of_nodup sorted hnd p q hp hq he
    rw [taskWrite, balBTF]
    set mid := lo + (hi - lo) / 2 with hmid
    obtain ⟨n, hn⟩ := Option.isSome_iff_exists.mp (hocc mid (by omega))
    set pi := sorted.getD mid 0 with hpi
    by_cases hlm : lo < mid <;> by_cases hmh : mid < hi <;>
      simp only [hlm, hmh, if_true, if_false, ite_true, ite_false]
    · -- two half ranges
      have hoccA3 : ∀ p, p < sorted.length →
          (((((a.setLeft pi none).setRight pi none).setLeft pi
              (some (sorted.getD (lo + (mid - 1 - lo) / 2) 0))).setRight pi
              (some (sorted.getD (mid + 1 + (hi - (mid + 1)) / 2) 0))).node?
            (sorted.getD p 0)).isSome = true := by
        intro p hp
        refine occupied_of_kvAt_eq a _ _ ?_ (hocc p hp)
        simp [Arena.kvAt_setLeft, Arena.kvAt_setRight]
      have hoccA4 : ∀ p, p < sorted.length →
          ((taskWrite sorted
              ((((a.setLeft pi none).setRight pi none).setLeft pi
                (some (sorted.getD (lo + (mid - 1 - lo) / 2) 0))).setRight pi
                (some (sorted.getD (mid + 1 + (hi - (mid + 1)) / 2) 0)))
              f (mid + 1) hi).node? (sorted.getD p 0)).isSome = true := by
        intro p hp
        refine occupied_of_kvAt_eq a _ _ ?_ (hocc p hp)
        rw [taskWrite_kvAt]
        simp [Arena.kvAt_setLeft, Arena.kvAt_setRight]
      have hleft := ih f lo (mid - 1)
        (taskWrite sorted
          ((((a.setLeft pi none).setRight pi none).setLeft pi
            (some (sorted.getD (lo + (mid - 1 - lo) / 2) 0))).setRight pi
            (some (sorted.getD (mid + 1 + (hi - (mid + 1)) / 2) 0)))
          f (mid + 1) hi)
        (by omega) (by omega) (by omega) (by omega) hoccA4
      have hright0 := ih f (mid + 1) hi
        ((((a.setLeft pi none).setRight pi none).setLeft pi
          (some (sorted.getD (lo + (mid - 1 - lo) / 2) 0))).setRight pi
          (some (sorted.getD (mid + 1 + (hi - (mid + 1)) / 2) 0)))
        (by omega) (by omega) (by omega) hhi hoccA3
      have hright := extractF_congr _ _ g _ _ hright0 (by
        intro j hj
        obtain ⟨q, hq1, hq2, rfl⟩ := balBTF_mem sorted g (mid + 1) hi j
          (by omega) (by omega) hj
        refine taskWrite_frame sorted f lo (mid - 1) _ _ ?_ (by omega)
        intro p hp1 hp2 he
        have := hinj p q (by omega) (by omega) he
        omega)
      have hnodefin : (taskWrite sorted
          (taskWrite sorted
            ((((a.setLeft pi none).setRight pi none).setLeft pi
              (some (sorted.getD (lo + (mid - 1 - lo) / 2) 0))).setRight pi
              (some (sorted.getD (mid + 1 + (hi - (mid + 1)) / 2) 0)))
            f (mid + 1) hi)
          f lo (mid - 1)).node? pi =
          some ⟨n.key, n.val, some (sorted.getD (lo + (mid - 1 - lo) / 2) 0),
            some (sorted.getD (mid + 1 + (hi - (mid + 1)) / 2) 0)⟩ := by
        rw [taskWrite_frame sorted f lo (mid - 1) _ pi (by
            intro p hp1 hp2 he
            rw [hpi] at he
            have := hinj p mid (by omega) (by omega) he
            omega) (by omega)]
        rw [taskWrite_frame sorted f (mid + 1) hi _ pi (by
            intro p hp1 hp2 he
            rw [hpi] at he
            have := hinj p mid (by omega) (by omega) he
            omega) (by omega)]
        exact write_node_two a pi n _ _ hn
      exact extractF_node _ g pi _ _ _ hnodefin hleft hright
    · -- left half only
      have hoccA2 : ∀ p, p < sorted.length →
          ((((a.setLeft pi none).setRight pi none).setLeft pi
              (some (sorted.getD (lo + (mid - 1 - lo) / 2) 0))).node?
            (sorted.getD p 0)).isSome = true := by
        intro p hp
        refine occupied_of_kvAt_eq a _ _ ?_ (hocc p hp)
        simp [Arena.kvAt_setLeft, Arena.kvAt_setRight]
      have hleft := ih f lo (mid - 1)
        (((a.setLeft pi none).setRight pi none).setLeft pi
          (some (sorted.getD (lo + (mid - 1 - lo) / 2) 0)))
        (by omega) (by omega) (by omega) (by omega) hoccA2
      have hnodefin : (taskWrite sorted
          (((a.setLeft pi none).setRight pi none).setLeft pi
            (some (sorted.getD (lo + (mid - 1 - lo) / 2) 0)))
          f lo (mid - 1)).node? pi =
          some ⟨n.key, n.val, some (sorted.getD (lo + (mid - 1 - lo) / 2) 0), none⟩ := by
        rw [taskWrite_frame sorted f lo (mid - 1) _ pi (by
            intro p hp1 hp2 he
            rw [hpi] at he
            have := hinj p mid (by omega) (by omega) he
            omega) (by omega)]
        exact write_node_left a pi n _ hn
      exact extractF_node _ g pi _ _ _ hnodefin hleft (extractF_none_eq _ g)
    · -- right half only
      have hoccA2 : ∀ p, p < sorted.length →
          ((((a.setLeft pi none).setRight pi none).setRight pi
              (some (sorted.getD (mid + 1 + (hi - (mid + 1)) / 2) 0))).node?
            (sorted.getD p 0)).isSome = true := by
        intro p hp
        refine occupied_of_kvAt_eq a _ _ ?_ (hocc p hp)
        simp [Arena.kvAt_setLeft, Arena.kvAt_setRight]
      have hright := ih f (mid + 1) hi
        (((a.setLeft pi none).setRight pi none).setRight pi
          (some (sorted.getD (mid + 1 + (hi - (mid + 1)) / 2) 0)))
        (by omega) (by omega) (by omega) hhi hoccA2
      have hnodefin : (taskWrite sorted
          (((a.setLeft pi none).setRight pi none).setRight pi
            (some (sorted.getD (mid + 1 + (hi - (mid + 1)) / 2) 0)))
          f (mid + 1) hi).node? pi =
          some ⟨n.key, n.val, none, some (sorted.getD (mid + 1 + (hi - (mid + 1)) / 2) 0)⟩ := by
        rw [taskWrite_frame sorted f (mid + 1) hi _ pi (by
            intro p hp1 hp2 he
            rw [hpi] at he
            have := hinj p mid (by omega) (by omega) he
            omega) (by omega)]
        exact write_node_right a pi n _ hn
      exact extractF_node _ g pi _ _ _ hnodefin (extractF_none_eq _ g) hright
    · -- single node
      exact extractF_node _ g pi _ _ _ (write_node_none a pi n hn)
        (extractF_none_eq _ g) (extractF_none_eq _ g)

/-!
Grafting a rebuilt subtree back: locating the old subtree root's
parent edge, rewriting that one link, and extracting the whole tree
again.
-/

/-- Root arena index of a view. -/
def BT.rootIdx? : BT → Option Nat
  | .leaf => none
  | .node _ i _ => some i

/-- Parent of a node in a view, together with the side (`true` for a
right child). -/
def BT.parentEdge : BT → Nat → Option (Nat × Bool)
  | .leaf, _ => none
  | .node l i r, idx =>
    if l.rootIdx? = some idx then some (i, false)
    else if r.rootIdx? = some idx then some (i, true)
    else match l.subtreeAt idx with
      | some _ => l.parentEdge idx
      | none => r.parentEdge idx

/-- Replace the subtree rooted at an index by another view. -/
def BT.graft : BT → Nat → BT → BT
  | .leaf, _, _ => .leaf
  | .node l i r, idx, nu =>
    if i = idx then nu
    else match l.subtreeAt idx with
      | some _ => .node (l.graft idx nu) i r
      | none => .node l i (r.graft idx nu)

theorem BT.mem_of_subtreeAt (bt sub : BT) (idx : Nat)
    (h : bt.subtreeAt idx = some sub) : idx ∈ bt.inorder := by
  obtain ⟨sl, sr, hs⟩ := BT.subtreeAt_root bt idx sub h
  refine BT.subtreeAt_inorder_subset bt idx sub h idx ?_
  rw [hs]
  simp [BT.inorder]

theorem BT.subtreeAt_eq_none_of_not_mem (bt : BT) (idx : Nat)
    (h : idx ∉ bt.inorder) : bt.subtreeAt idx = none := by
  cases hs : bt.subtreeAt idx with
  | none => rfl
  | some s => exact absurd (BT.mem_of_subtreeAt bt s idx hs) h

theorem BT.nodup_parts (l : BT) (i : Nat) (r : BT)
    (h : (BT.node l i r).inorder.Nodup) :
    l.inorder.Nodup ∧ r.inorder.Nodup ∧ i ∉ l.inorder ∧ i ∉ r.inorder ∧
      ∀ j, j ∈ l.inorder → j ∉ r.inorder := by
  simp only [BT.inorder] at h
  rw [List.nodup_append] at h
  obtain ⟨h1, h2, h3⟩ := h
  rw [List.nodup_cons] at h2
  refine ⟨h1, h2.2, fun hi => h3 hi (List.mem_cons_self i _), h2.1,
    fun j hj hjr => h3 hj (List.mem_cons_of_mem i hjr)⟩

theorem BT.parentEdge_mem :
    ∀ (bt : BT) (idx pp : Nat) (s : Bool),
      bt.parentEdge idx = some (pp, s) → pp ∈ bt.inorder := by
  intro bt
  induction bt with
  | leaf => intro idx pp s h; simp [BT.parentEdge] at h
  | node l i r ihl ihr =>
    intro idx pp s h
    rw [BT.parentEdge] at h
    by_cases h1 : l.rootIdx? = some idx
    · rw [if_pos h1] at h
      simp only [Option.some.injEq, Prod.mk.injEq] at h
      simp [BT.inorder, ← h.1]
    · rw [if_neg h1] at h
      by_cases h2 : r.rootIdx? = some idx
      · rw [if_pos h2] at h
        simp only [Option.some.injEq, Prod.mk.injEq] at h
        simp [BT.inorder, ← h.1]
      · rw [if_neg h2] at h
        cases hs : l.subtreeAt idx with
        | some u =>
          rw [hs] at h
          have := ihl idx pp s h
          simp [BT.inorder, this]
        | none =>
          rw [hs] at h
          have := ihr idx pp s h
          simp [BT.inorder, this]

theorem BT.parentEdge_isSome_of_mem :
    ∀ (bt : BT) (idx : Nat), bt.inorder.Nodup → idx ∈ bt.inorder →
      bt.rootIdx? ≠ some idx → (bt.parentEdge idx).isSome = true := by
  intro bt
  induction bt with
  | leaf => intro idx _ h _; simp [BT.inorder] at h
  | node l i r ihl ihr =>
    intro idx hnd hmem hroot
    have hi : i ≠ idx := fun he => hroot (by simp [BT.rootIdx?, he])
    rw [BT.parentEdge]
    by_cases h1 : l.rootIdx? = some idx
    · rw [if_pos h1]; rfl
    · rw [if_neg h1]
      by_cases h2 : r.rootIdx? = some idx
      · rw [if_pos h2]; rfl
      · rw [if_neg h2]
        obtain ⟨hl, hr, _, _, hdisj⟩ := BT.nodup_parts l i r hnd
        simp only [BT.inorder, List.mem_append, List.mem_cons] at hmem
        rcases hmem with hml | heq | hmr
        · obtain ⟨u, hu⟩ := Option.isSome_iff_exists.mp
            (BT.subtreeAt_isSome_of_mem l idx hml)
          simp only [hu]
          exact ihl idx hl hml h1
        · exact absurd heq.symm hi
        · have hnone : l.subtreeAt idx = none :=
            BT.subtreeAt_eq_none_of_not_mem l idx (fun hml => hdisj idx hml hmr)
          simp only [hnone]
          exact ihr idx hr hmr h2

theorem BT.graft_inorder :
    ∀ (bt sub nu : BT) (idx : Nat), bt.inorder.Nodup →
      bt.subtreeAt idx = some sub → nu.inorder = sub.inorder →
      (bt.graft idx nu).inorder = bt.inorder := by
  intro bt
  induction bt with
  | leaf => intro sub nu idx _ h _; simp [BT.subtreeAt] at h
  | node l i r ihl ihr =>
    intro sub nu idx hnd hsub hnu
    rw [BT.graft]
    rw [BT.subtreeAt] at hsub
    by_cases hi : i = idx
    · rw [if_pos hi]
      rw [if_pos hi] at hsub
      injection hsub with hsub
      rw [hnu, hsub]
    · rw [if_neg hi]
      rw [if_neg hi] at hsub
      obtain ⟨hl, hr, _, _, hdisj⟩ := BT.nodup_parts l i r hnd
      cases hs : l.subtreeAt idx with
      | some s =>
        rw [hs] at hsub
        injection hsub with hsub
        subst hsub
        simp only [hs, BT.inorder]
        rw [ihl s nu idx hl hs hnu]
      | none =>
        rw [hs] at hsub
        simp only [hs, BT.inorder]
        rw [ihr sub nu idx hr hsub hnu]

theorem BT.rootIdx?_mem (c : BT) (j : Nat) (h : c.rootIdx? = some j) :
    j ∈ c.inorder := by
  cases c with
  | leaf => simp [BT.rootIdx?] at h
  | node x y z =>
    simp only [BT.rootIdx?] at h
    injection h with h
    simp [BT.inorder, ← h]

theorem BT.subtreeAt_self_of_root (c : BT) (idx : Nat) (h : c.rootIdx? = some idx) :
    c.subtreeAt idx = some c := by
  cases c with
  | leaf => simp [BT.rootIdx?] at h
  | node x y z =>
    simp only [BT.rootIdx?] at h
    injection h with h
    rw [BT.subtreeAt, if_pos h]

theorem BT.graft_self_of_root (c : BT) (idx : Nat) (nu : BT) (h : c.rootIdx? = some idx) :
    c.graft idx nu = nu := by
  cases c with
  | leaf => simp [BT.rootIdx?] at h
  | node x y z =>
    simp only [BT.rootIdx?] at h
    injection h with h
    rw [BT.graft, if_pos h]

/-- Extraction after a graft: if the new arena agrees with the old one
outside the replaced subtree's slots and its parent, the parent's
rewritten edge points at a new view's root, and that view extracts in
the new arena, then the whole tree extracts to the grafted view. -/
theorem extract_graft (a b : Arena) (idx : Nat) (sub nu : BT) (nuRoot : Nat)
    (hnuin : nu.inorder = sub.inorder)
    (hnuext : ∀ g, nu.count ≤ g → extractF b g (some nuRoot) = some nu) :
    ∀ G bt o pp side, extractF a G o = some bt → bt.count ≤ G → bt.inorder.Nodup →
      bt.subtreeAt idx = some sub → bt.rootIdx? ≠ some idx →
      bt.parentEdge idx = some (pp, side) →
      (∀ j ∈ bt.inorder, j ∉ sub.inorder → j ≠ pp → b.node? j = a.node? j) →
      (∀ np, a.node? pp = some np →
        b.node? pp = some (if side then { np with right := some nuRoot }
                           else { np with left := some nuRoot })) →
      extractF b G o = some (bt.graft idx nu) := by
  intro G
  induction G with
  | zero =>
    intro bt o pp side hext hcount hnd hsub hroot hpe hframe hppb
    cases o with
    | none =>
      injection hext with hext
      subst hext
      simp [BT.subtreeAt] at hsub
    | some i => simp [extractF] at hext
  | succ g ih =>
    intro bt o pp side hext hcount hnd hsub hroot hpe hframe hppb
    cases o with
    | none =>
      injection hext with hext
      subst hext
      simp [BT.subtreeAt] at hsub
    | some i =>
      rw [extractF] at hext
      split at hext
      · simp at hext
      · rename_i nn hni
        split at hext
        · rename_i lbt rbt hl hr
          injection hext with hext
          subst hext
          have hi : i ≠ idx := fun he => hroot (by simp [BT.rootIdx?, he])
          obtain ⟨hndl, hndr, hil, hir, hdisj⟩ := BT.nodup_parts lbt i rbt hnd
          rw [BT.subtreeAt, if_neg hi] at hsub
          rw [BT.parentEdge] at hpe
          rw [BT.graft, if_neg hi]
          simp only [BT.count] at hcount
          by_cases hrl : lbt.rootIdx? = some idx
          · rw [if_pos hrl] at hpe
            simp only [Option.some.injEq, Prod.mk.injEq] at hpe
            obtain ⟨hppi, hsidef⟩ := hpe
            subst hppi
            subst hsidef
            have hsubl : lbt.subtreeAt idx = some lbt :=
              BT.subtreeAt_self_of_root lbt idx hrl
            rw [hsubl] at hsub
            injection hsub with hsub
            simp only [hsubl]
            rw [BT.graft_self_of_root lbt idx nu hrl]
            have hnodeb : b.node? i = some { nn with left := some nuRoot } := by
              have h0 := hppb nn hni
              simpa using h0
            have hnucount : nu.count ≤ g := by
              rw [BT.count_inorder, hnuin, ← BT.count_inorder, ← hsub]
              omega
            have hright := extractF_congr a b g nn.right rbt hr (by
              intro j hj
              refine hframe j (by simp [BT.inorder, hj]) ?_ ?_
              · rw [← hsub]
                exact fun hjl => hdisj j hjl hj
              · intro he
                rw [he] at hj
                exact hir hj)
            exact extractF_node b g i _ nu rbt hnodeb (hnuext g hnucount) hright
          · rw [if_neg hrl] at hpe
            by_cases hrr : rbt.rootIdx? = some idx
            · rw [if_pos hrr] at hpe
              simp only [Option.some.injEq, Prod.mk.injEq] at hpe
              obtain ⟨hppi, hsidet⟩ := hpe
              subst hppi
              subst hsidet
              have hidxr : idx ∈ rbt.inorder := BT.rootIdx?_mem rbt idx hrr
              have hlnone : lbt.subtreeAt idx = none :=
                BT.subtreeAt_eq_none_of_not_mem lbt idx (fun hml => hdisj idx hml hidxr)
              rw [hlnone] at hsub
              have hsubr : rbt.subtreeAt idx = some rbt :=
                BT.subtreeAt_self_of_root rbt idx hrr
              rw [hsubr] at hsub
              injection hsub with hsub
              simp only [hlnone]
              rw [BT.graft_self_of_root rbt idx nu hrr]
              have hnodeb : b.node? i = some { nn with right := some nuRoot } := by
                have h0 := hppb nn hni
                simpa using h0
              have hnucount : nu.count ≤ g := by
                rw [BT.count_inorder, hnuin, ← BT.count_inorder, ← hsub]
                omega
              have hleft := extractF_congr a b g nn.left lbt hl (by
                intro j hj
                refine hframe j (by simp [BT.inorder]; exact Or.inl hj) ?_ ?_
                · rw [← hsub]
                  exact hdisj j hj
                · intro he
                  rw [he] at hj
                  exact hil hj)
              exact extractF_node b g i _ lbt nu hnodeb hleft (hnuext g hnucount)
            · rw [if_neg hrr] at hpe
              cases hsl : lbt.subtreeAt idx with
              | some s =>
                rw [hsl] at hsub hpe
                injection hsub with hsub
                rw [hsub] at hsl
                have hppl : pp ∈ lbt.inorder := BT.parentEdge_mem lbt idx pp side hpe
                have hsubl2 : ∀ j ∈ sub.inorder, j ∈ lbt.inorder :=
                  BT.subtreeAt_inorder_subset lbt idx sub hsl
                have hippne : i ≠ pp := fun he => hil (by rw [he]; exact hppl)
                have hnodeb : b.node? i = some nn := by
                  rw [hframe i (by simp [BT.inorder]) (fun hin => hil (hsubl2 i hin)) hippne,
                    hni]
                have hleft := ih lbt nn.left pp side hl (by omega) hndl hsl hrl hpe
                  (fun j hj hjs hjp =>
                    hframe j (by simp [BT.inorder]; exact Or.inl hj) hjs hjp)
                  hppb
                have hright := extractF_congr a b g nn.right rbt hr (by
                  intro j hj
                  refine hframe j (by simp [BT.inorder, hj]) ?_ ?_
                  · exact fun hjs => hdisj j (hsubl2 j hjs) hj
                  · intro he
                    rw [he] at hj
                    exact hdisj pp hppl hj)
                simp only [hsl]
                exact extractF_node b g i nn _ rbt hnodeb hleft hright
              | none =>
                rw [hsl] at hsub hpe
                have hppr : pp ∈ rbt.inorder := BT.parentEdge_mem rbt idx pp side hpe
                have hsubr2 : ∀ j ∈ sub.inorder, j ∈ rbt.inorder :=
                  BT.subtreeAt_inorder_subset rbt idx sub hsub
                have hippne : i ≠ pp := fun he => hir (by rw [he]; exact hppr)
                have hnodeb : b.node? i = some nn := by
                  rw [hframe i (by simp [BT.inorder]) (fun hin => hir (hsubr2 i hin)) hippne,
                    hni]
                have hright := ih rbt nn.right pp side hr (by omega) hndr hsub hrr hpe
                  (fun j hj hjs hjp => hframe j (by simp [BT.inorder, hj]) hjs hjp)
                  hppb
                have hleft := extractF_congr a b g nn.left lbt hl (by
                  intro j hj
                  refine hframe j (by simp [BT.inorder]; exact Or.inl hj) ?_ ?_
                  · exact fun hjs => hdisj j hj (hsubr2 j hjs)
                  · intro he
                    rw [he] at hj
                    exact hdisj pp hj hppr)
                simp only [hsl]
                exact extractF_node b g i nn lbt _ hnodeb hleft hright
        · simp at hext

theorem balBTF_irrel (sorted : List Nat) :
    ∀ f1 f2 lo hi, lo ≤ hi → hi + 1 - lo ≤ f1 → hi + 1 - lo ≤ f2 →
      balBTF sorted f1 lo hi = balBTF sorted f2 lo hi := by
  intro f1
  induction f1 using Nat.strong_induction_on with
  | _ f1 ih =>
    intro f2 lo hi hlh h1 h2
    obtain ⟨m1, rfl⟩ : ∃ m, f1 = m + 1 := ⟨f1 - 1, by omega⟩
    obtain ⟨m2, rfl⟩ : ∃ m, f2 = m + 1 := ⟨f2 - 1, by omega⟩
    rw [balBTF, balBTF]
    by_cases hlm : lo < lo + (hi - lo) / 2 <;> by_cases hmh : lo + (hi - lo) / 2 < hi <;>
      simp only [hlm, hmh, if_true, if_false, ite_true, ite_false]
    · rw [ih m1 (by omega) m2 lo (lo + (hi - lo) / 2 - 1) (by omega) (by omega) (by omega),
        ih m1 (by omega) m2 (lo + (hi - lo) / 2 + 1) hi (by omega) (by omega) (by omega)]
    · rw [ih m1 (by omega) m2 lo (lo + (hi - lo) / 2 - 1) (by omega) (by omega) (by omega)]
    · rw [ih m1 (by omega) m2 (lo + (hi - lo) / 2 + 1) hi (by omega) (by omega) (by omega)]

theorem BT.eq_leaf_of_inorder_nil (bt : BT) (h : bt.inorder = []) : bt = BT.leaf := by
  cases bt with
  | leaf => rfl
  | node l i r => simp [BT.inorder] at h

theorem BT.parentEdge_eq_none_of_not_mem :
    ∀ (bt : BT) (idx : Nat), idx ∉ bt.inorder → bt.parentEdge idx = none := by
  intro bt
  induction bt with
  | leaf => intro idx _; rfl
  | node l i r ihl ihr =>
    intro idx h
    simp only [BT.inorder, List.mem_append, List.mem_cons] at h
    push_neg at h
    obtain ⟨hl, hi, hr⟩ := h
    rw [BT.parentEdge]
    rw [if_neg (fun hc => hl (BT.rootIdx?_mem l idx hc))]
    rw [if_neg (fun hc => hr (BT.rootIdx?_mem r idx hc))]
    rw [BT.subtreeAt_eq_none_of_not_mem l idx hl]
    exact ihr idx hr

theorem BT.parentEdge_root_none (bt : BT) (j : Nat) (hnd : bt.inorder.Nodup)
    (h : bt.rootIdx? = some j) : bt.parentEdge j = none := by
  cases bt with
  | leaf => rfl
  | node l i r =>
    simp only [BT.rootIdx?] at h
    injection h with h
    subst h
    obtain ⟨_, _, hil, hir, _⟩ := BT.nodup_parts l i r hnd
    rw [BT.parentEdge]
    rw [if_neg (fun hc => hil (BT.rootIdx?_mem l i hc))]
    rw [if_neg (fun hc => hir (BT.rootIdx?_mem r i hc))]
    rw [BT.subtreeAt_eq_none_of_not_mem l i hil]
    exact BT.parentEdge_eq_none_of_not_mem r i hir

theorem BT.parentEdge_not_mem_subtree :
    ∀ (bt : BT) (idx : Nat) (sub : BT) (pp : Nat) (side : Bool),
      bt.inorder.Nodup → bt.subtreeAt idx = some sub →
      bt.parentEdge idx = some (pp, side) → pp ∉ sub.inorder := by
  intro bt
  induction bt with
  | leaf => intro idx sub pp side _ h _; simp [BT.subtreeAt] at h
  | node l i r ihl ihr =>
    intro idx sub pp side hnd hsub hpe
    obtain ⟨hndl, hndr, hil, hir, hdisj⟩ := BT.nodup_parts l i r hnd
    rw [BT.parentEdge] at hpe
    by_cases hrl : l.rootIdx? = some idx
    · rw [if_pos hrl] at hpe
      simp only [Option.some.injEq, Prod.mk.injEq] at hpe
      have hidxl : idx ∈ l.inorder := BT.rootIdx?_mem l idx hrl
      have hsubl : (BT.node l i r).subtreeAt idx = some l := by
        rw [BT.subtreeAt]
        by_cases hi : i = idx
        · exact absurd (by rw [hi]; exact hidxl) hil
        · rw [if_neg hi, BT.subtreeAt_self_of_root l idx hrl]
      rw [hsubl] at hsub
      injection hsub with hsub
      rw [← hsub, ← hpe.1]
      exact hil
    · rw [if_neg hrl] at hpe
      by_cases hrr : r.rootIdx? = some idx
      · rw [if_pos hrr] at hpe
        simp only [Option.some.injEq, Prod.mk.injEq] at hpe
        have hidxr : idx ∈ r.inorder := BT.rootIdx?_mem r idx hrr
        have hsubr : (BT.node l i r).subtreeAt idx = some r := by
          rw [BT.subtreeAt]
          by_cases hi : i = idx
          · exact absurd (by rw [hi]; exact hidxr) hir
          · rw [if_neg hi,
              BT.subtreeAt_eq_none_of_not_mem l idx (fun hml => hdisj idx hml hidxr)]
            exact BT.subtreeAt_self_of_root r idx hrr
        rw [hsubr] at hsub
        injection hsub with hsub
        rw [← hsub, ← hpe.1]
        exact hir
      · rw [if_neg hrr] at hpe
        rw [BT.subtreeAt] at hsub
        by_cases hi : i = idx
        · exfalso
          subst hi
          rw [BT.subtreeAt_eq_none_of_not_mem l i hil] at hpe
          rw [BT.parentEdge_eq_none_of_not_mem r i hir] at hpe
          cases hpe
        · rw [if_neg hi] at hsub
          cases hs : l.subtreeAt idx with
          | some s =>
            rw [hs] at hsub hpe
            injection hsub with hsub
            rw [hsub] at hs
            exact ihl idx sub pp side hndl hs hpe
          | none =>
            rw [hs] at hsub hpe
            exact ihr idx sub pp side hndr hsub hpe

theorem BT.subtreeAt_root_mem (l : BT) (i : Nat) (r : BT) (idx : Nat) (sub : BT)
    (hnd : (BT.node l i r).inorder.Nodup)
    (hsub : (BT.node l i r).subtreeAt idx = some sub)
    (hmem : i ∈ sub.inorder) : idx = i := by
  rw [BT.subtreeAt] at hsub
  by_cases hi : i = idx
  · exact hi.symm
  · exfalso
    rw [if_neg hi] at hsub
    obtain ⟨hndl, hndr, hil, hir, _⟩ := BT.nodup_parts l i r hnd
    cases hs : l.subtreeAt idx with
    | some s =>
      rw [hs] at hsub
      injection hsub with hsub
      rw [hsub] at hs
      exact hil (BT.subtreeAt_inorder_subset l idx sub hs i hmem)
    | none =>
      rw [hs] at hsub
      exact hir (BT.subtreeAt_inorder_subset r idx sub hsub i hmem)

theorem extractF_root (a : Arena) (G : Nat) (o : Option Nat) (l : BT) (j : Nat) (r : BT)
    (h : extractF a G o = some (BT.node l j r)) : o = some j := by
  cases o with
  | none => cases G <;> simp [extractF] at h
  | some i =>
    cases G with
    | zero => simp [extractF] at h
    | succ m =>
      rw [extractF] at h
      split at h
      · simp at h
      · split at h
        · injection h with h
          injection h with h1 h2 h3
          rw [h2]
        · simp at h

theorem extract_count_le (a : Arena) (G : Nat) (o : Option Nat) (bt : BT)
    (hext : extractF a G o = some bt) (hnd : bt.inorder.Nodup) :
    bt.count ≤ a.vec.length := by
  rw [BT.count_inorder]
  have hsubset : bt.inorder ⊆ List.range a.vec.length := by
    intro j hj
    obtain ⟨n, hn⟩ := extractF_mem_occupied a G o bt hext j hj
    exact List.mem_range.mpr (node?_lt_length a j n hn)
  have hle := List.Subperm.length_le (List.subperm_of_subset hnd hsubset)
  simpa using hle

theorem WF_nodup (t : SgTree) (bt : BT) (hwf : WF t bt) : bt.inorder.Nodup := by
  have hpair := List.chain'_iff_pairwise.mp hwf.2
  have hknd : (keysOf t.arena bt.inorder).Nodup :=
    List.Pairwise.imp (fun h => Nat.ne_of_lt h) hpair
  exact List.Nodup.of_map _ hknd

theorem map_getD_range_eq_self :
    ∀ (l : List Nat), (List.range l.length).map (fun p => l.getD p 0) = l := by
  intro l
  induction l with
  | nil => rfl
  | cons x xs ih =>
    rw [List.length_cons, List.range_succ_eq_map, List.map_cons, List.map_map]
    have hcomp : ((fun p => (x :: xs).getD p 0) ∘ Nat.succ) = fun p => xs.getD p 0 := rfl
    rw [hcomp]
    rw [ih]
    rfl

theorem map_getD_range'_eq_self (l : List Nat) :
    (List.range' 0 l.length).map (fun p => l.getD p 0) = l := by
  rw [← List.range_eq_range']
  exact map_getD_range_eq_self l

theorem kvList_congr (a b : Arena) (l : List Nat)
    (h : ∀ j, b.kvAt j = a.kvAt j) : kvList b l = kvList a l := by
  unfold kvList
  refine List.map_congr_left ?_
  intro j _
  obtain ⟨hk, hv⟩ := Arena.getNode_kv_of_kvAt_eq a b j (h j)
  rw [hk, hv]

theorem keys_pairwise_parts (a : Arena) (l : BT) (i : Nat) (r : BT)
    (h : (keysOf a (BT.node l i r).inorder).Pairwise (· < ·)) :
    (keysOf a l.inorder).Pairwise (· < ·) ∧ (keysOf a r.inorder).Pairwise (· < ·) ∧
      (∀ j ∈ l.inorder, (a.getNode j).key < (a.getNode i).key) ∧
      (∀ j ∈ r.inorder, (a.getNode i).key < (a.getNode j).key) := by
  unfold keysOf at h ⊢
  simp only [BT.inorder, List.map_append, List.map_cons] at h
  rw [List.pairwise_append] at h
  obtain ⟨h1, h2, h3⟩ := h
  rw [List.pairwise_cons] at h2
  refine ⟨h1, h2.2, ?_, ?_⟩
  · intro j hj
    exact h3 _ (List.mem_map_of_mem _ hj) _ (List.mem_cons_self _ _)
  · intro j hj
    exact h2.1 _ (List.mem_map_of_mem _ hj)

/-- The sorted descent of `priv_get` on a search-ordered view finds the
target index and reports its parent edge (or the accumulators when the
target is the root it started from). -/
theorem privGetAux_correct (a : Arena) (idx : Nat) :
    ∀ G bt i, extractF a G (some i) = some bt →
      (keysOf a bt.inorder).Pairwise (· < ·) → idx ∈ bt.inorder →
      ∀ fuel, bt.count ≤ fuel → ∀ pacc bacc,
        privGetAux a (a.getNode idx).key fuel i pacc bacc =
          (match bt.parentEdge idx with
           | some pe => ⟨some idx, some pe.1, pe.2⟩
           | none => ⟨some idx, pacc, bacc⟩) := by
  intro G
  induction G with
  | zero => intro bt i hext _ _ _ _ _ _; simp [extractF] at hext
  | succ g ih =>
    intro bt i hext hsort hmem fuel hcount pacc bacc
    rw [extractF] at hext
    split at hext
    · simp at hext
    · rename_i nn hni
      split at hext
      · rename_i lbt rbt hl hr
        injection hext with hext
        subst hext
        obtain ⟨hsortl, hsortr, hkl, hkr⟩ := keys_pairwise_parts a lbt i rbt hsort
        have hnd : (BT.node lbt i rbt).inorder.Nodup :=
          List.Nodup.of_map _ (List.Pairwise.imp (fun h => Nat.ne_of_lt h) hsort)
        obtain ⟨hndl, hndr, hil, hir, hdisj⟩ := BT.nodup_parts lbt i rbt hnd
        have hkey_i : (a.getNode i).key = nn.key := by
          unfold Arena.getNode
          rw [hni]
          rfl
        simp only [BT.count] at hcount
        obtain ⟨f, rfl⟩ : ∃ k, fuel = k + 1 := ⟨fuel - 1, by omega⟩
        rw [privGetAux]
        simp only [hni]
        simp only [BT.inorder, List.mem_append, List.mem_cons] at hmem
        rcases hmem with hml | heq | hmr
        · have hlt : (a.getNode idx).key < nn.key := by
            rw [← hkey_i]
            exact hkl idx hml
          rw [if_pos hlt]
          obtain ⟨x, y, z, rfl⟩ : ∃ x y z, lbt = BT.node x y z := by
            cases hlb : lbt with
            | leaf => rw [hlb] at hml; simp [BT.inorder] at hml
            | node x y z => exact ⟨x, y, z, rfl⟩
          have hleft : nn.left = some y := extractF_root a g nn.left x y z hl
          rw [hleft] at hl
          simp only [hleft]
          rw [ih (BT.node x y z) y hl hsortl hml f
            (by simp only [BT.count] at hcount ⊢; omega) (some i) false]
          by_cases hrly : y = idx
          · have h1 : (BT.node (BT.node x y z) i rbt).parentEdge idx = some (i, false) := by
              rw [BT.parentEdge, if_pos (by rw [BT.rootIdx?, hrly])]
            have h2 : (BT.node x y z).parentEdge idx = none :=
              BT.parentEdge_root_none _ idx hndl (by rw [BT.rootIdx?, hrly])
            simp only [h1, h2]
          · have hrootl : (BT.node x y z).rootIdx? ≠ some idx := by
              rw [BT.rootIdx?]
              intro hc
              injection hc with hc
              exact hrly hc
            have hrootr : rbt.rootIdx? ≠ some idx := fun hc =>
              hdisj idx hml (BT.rootIdx?_mem rbt idx hc)
            obtain ⟨u, hu⟩ := Option.isSome_iff_exists.mp
              (BT.subtreeAt_isSome_of_mem (BT.node x y z) idx hml)
            have h1 : (BT.node (BT.node x y z) i rbt).parentEdge idx =
                (BT.node x y z).parentEdge idx := by
              rw [BT.parentEdge, if_neg hrootl, if_neg hrootr]
              simp only [hu]
            obtain ⟨pe, hpe⟩ := Option.isSome_iff_exists.mp
              (BT.parentEdge_isSome_of_mem (BT.node x y z) idx hndl hml hrootl)
            simp only [h1, hpe]
        · have hEq : (a.getNode idx).key = nn.key := by rw [heq, hkey_i]
          have hnlt : ¬ ((a.getNode idx).key < nn.key) := by
            rw [hEq]
            exact lt_irrefl _
          rw [if_neg hnlt, if_pos hEq]
          have h1 : (BT.node lbt i rbt).parentEdge idx = none := by
            rw [heq]
            exact BT.parentEdge_root_none _ i hnd (by rw [BT.rootIdx?])
          simp only [h1]
          rw [heq]
        · have hgt : nn.key < (a.getNode idx).key := by
            rw [← hkey_i]
            exact hkr idx hmr
          have hnlt : ¬ ((a.getNode idx).key < nn.key) := by omega
          have hne : ¬ ((a.getNode idx).key = nn.key) := by omega
          rw [if_neg hnlt, if_neg hne]
          obtain ⟨x, y, z, rfl⟩ : ∃ x y z, rbt = BT.node x y z := by
            cases hrb : rbt with
            | leaf => rw [hrb] at hmr; simp [BT.inorder] at hmr
            | node x y z => exact ⟨x, y, z, rfl⟩
          have hright : nn.right = some y := extractF_root a g nn.right x y z hr
          rw [hright] at hr
          simp only [hright]
          rw [ih (BT.node x y z) y hr hsortr hmr f
            (by simp only [BT.count] at hcount ⊢; omega) (some i) true]
          by_cases hrly : y = idx
          · have hrootl : lbt.rootIdx? ≠ some idx := fun hc =>
              hdisj idx (BT.rootIdx?_mem lbt idx hc) hmr
            have h1 : (BT.node lbt i (BT.node x y z)).parentEdge idx = some (i, true) := by
              rw [BT.parentEdge, if_neg hrootl, if_pos (by rw [BT.rootIdx?, hrly])]
            have h2 : (BT.node x y z).parentEdge idx = none :=
              BT.parentEdge_root_none _ idx hndr (by rw [BT.rootIdx?, hrly])
            simp only [h1, h2]
          · have hrootr : (BT.node x y z).rootIdx? ≠ some idx := by
              rw [BT.rootIdx?]
              intro hc
              injection hc with hc
              exact hrly hc
            have hrootl : lbt.rootIdx? ≠ some idx := fun hc =>
              hdisj idx (BT.rootIdx?_mem lbt idx hc) hmr
            have hlnone : lbt.subtreeAt idx = none :=
              BT.subtreeAt_eq_none_of_not_mem lbt idx (fun hml => hdisj idx hml hmr)
            have h1 : (BT.node lbt i (BT.node x y z)).parentEdge idx =
                (BT.node x y z).parentEdge idx := by
              rw [BT.parentEdge, if_neg hrootl, if_neg hrootr]
              simp only [hlnone]
            obtain ⟨pe, hpe⟩ := Option.isSome_iff_exists.mp
              (BT.parentEdge_isSome_of_mem (BT.node x y z) idx hndr hmr hrootr)
            simp only [h1, hpe]
      · simp at hext

theorem privGet_correct (t : SgTree) (bt : BT) (idx : Nat)
    (hwf : WF t bt) (hmem : idx ∈ bt.inorder) :
    t.privGet ((t.arena.getNode idx).key) =
      (match bt.parentEdge idx with
       | some pe => ⟨some idx, some pe.1, pe.2⟩
       | none => ⟨some idx, none, false⟩) := by
  have hnd : bt.inorder.Nodup := WF_nodup t bt hwf
  obtain ⟨hext, hchain⟩ := hwf
  cases hro : t.optRootIdx with
  | none =>
    rw [hro, extractF_none_eq] at hext
    injection hext with hext
    rw [← hext] at hmem
    simp [BT.inorder] at hmem
  | some rootIdx =>
    rw [hro] at hext
    rw [SgTree.privGet]
    simp only [hro]
    exact privGetAux_correct t.arena idx (t.arena.vec.length + 1) bt rootIdx hext
      (List.chain'_iff_pairwise.mp hchain) hmem (t.arena.vec.length + 1)
      (Nat.le_succ_of_le (extract_count_le t.arena _ _ bt hext hnd))
      none false


/-- C7: for a well-formed tree and a reachable subtree root, `rebuild`
preserves the whole tree's in-order key/value traversal and its
length, and the rebuilt subtree (rooted at the middle slot of the
key-sorted node list) extracts to the specification's balanced view:
the middle element at the root and the halves arranged recursively
over the same arena slots. -/
theorem c7_rebuild_preserves_and_balances (t : SgTree) (bt sub : BT) (idx : Nat)
    (hwf : WF t bt) (hsub : bt.subtreeAt idx = some sub) :
    (t.rebuild idx).len = t.len ∧
    (t.rebuild idx).inorderKV = t.inorderKV ∧
    extractF (t.rebuild idx).arena (t.arena.vec.length + 1)
        (some ((t.flattenSubtree idx).getD (((t.flattenSubtree idx).length - 1) / 2) 0)) =
      some (balBTF (t.flattenSubtree idx) (t.arena.vec.length + 1) 0
        ((t.flattenSubtree idx).length - 1)) := by
  have hlen_pres : (t.rebuild idx).len = t.len := (rebuild_fields t idx).1
  have hsorted : t.flattenSubtree idx = sub.inorder := flattenSubtree_eq t bt sub idx hwf hsub
  have hnd_bt : bt.inorder.Nodup := WF_nodup t bt hwf
  obtain ⟨hext, hchain⟩ := hwf
  have hnd_sub : sub.inorder.Nodup :=
    List.Nodup.sublist (BT.subtreeAt_inorder_sublist bt idx sub hsub) hnd_bt
  have hsubext : extractF t.arena (t.arena.vec.length + 1) (some idx) = some sub :=
    extractF_subtreeAt t.arena _ t.optRootIdx bt idx sub hext hsub
  obtain ⟨sl, sr, hsubeq, hei⟩ := extracts_of_extract_some t.arena _ idx sub hsubext
  have hmem_idx : idx ∈ bt.inorder := BT.mem_of_subtreeAt bt sub idx hsub
  have hocc : ∀ p, p < sub.inorder.length →
      (t.arena.node? (sub.inorder.getD p 0)).isSome = true := by
    intro p hp
    have hmem : sub.inorder.getD p 0 ∈ sub.inorder := by
      rw [List.getD_eq_getElem _ _ hp]
      exact List.getElem_mem hp
    obtain ⟨n, hn⟩ := extractF_mem_occupied t.arena _ _ sub hsubext _ hmem
    rw [hn]
    rfl
  have hcnt_sub : sub.count ≤ t.arena.vec.length :=
    extract_count_le t.arena _ _ sub hsubext hnd_sub
  have hlen_inorder : sub.inorder.length = sub.count := (BT.count_inorder sub).symm
  have harena : (t.rebuild idx).arena = (t.rebalanceFromSorted idx sub.inorder).arena := by
    rw [← hsorted]
    rfl
  have hroot' : (t.rebuild idx).optRootIdx =
      (t.rebalanceFromSorted idx sub.inorder).optRootIdx := by
    rw [← hsorted]
    rfl
  have hmain : (t.rebalanceFromSorted idx sub.inorder).inorderKV = t.inorderKV ∧
      extractF (t.rebalanceFromSorted idx sub.inorder).arena (t.arena.vec.length + 1)
        (some (sub.inorder.getD ((sub.inorder.length - 1) / 2) 0)) =
      some (balBTF sub.inorder (t.arena.vec.length + 1) 0 (sub.inorder.length - 1)) := by
    by_cases hlen1 : sub.inorder.length ≤ 1
    · have hXt : t.rebalanceFromSorted idx sub.inorder = t := by
        rw [SgTree.rebalanceFromSorted, if_pos hlen1]
      have hsl0 : sl.inorder = [] ∧ sr.inorder = [] := by
        rw [hsubeq] at hlen1
        simp only [BT.inorder, List.length_append, List.length_cons] at hlen1
        exact ⟨List.eq_nil_of_length_eq_zero (by omega),
          List.eq_nil_of_length_eq_zero (by omega)⟩
      have hsubval : sub = BT.node BT.leaf idx BT.leaf := by
        rw [hsubeq, BT.eq_leaf_of_inorder_nil sl hsl0.1, BT.eq_leaf_of_inorder_nil sr hsl0.2]
      have hson : sub.inorder = [idx] := by
        rw [hsubval]
        rfl
      refine ⟨by rw [hXt], ?_⟩
      rw [hXt, hson]
      have h00 : (([idx] : List Nat).length - 1) / 2 = 0 := by norm_num
      have h01 : ([idx] : List Nat).length - 1 = 0 := by norm_num
      rw [h00, h01]
      rw [show ([idx] : List Nat).getD 0 0 = idx from rfl]
      have hbal : balBTF [idx] (t.arena.vec.length + 1) 0 0 =
          BT.node BT.leaf idx BT.leaf := by
        rw [balBTF]
        norm_num
      rw [hbal, ← hsubval]
      exact hsubext
    · cases hro : t.optRootIdx with
      | none =>
        exfalso
        rw [hro, extractF_none_eq] at hext
        injection hext with hext
        rw [← hext] at hsub
        simp [BT.subtreeAt] at hsub
      | some rootIdx =>
        rw [hro] at hext
        obtain ⟨bl, br, hbteq, hbei⟩ := extracts_of_extract_some t.arena _ rootIdx bt hext
        have hcnt_bt : bt.count ≤ t.arena.vec.length :=
          extract_count_le t.arena _ _ bt hext hnd_bt
        have hrootbt : bt.rootIdx? = some rootIdx := by
          rw [hbteq]
          rfl
        have hD : ∀ a0 : Arena,
            rebalLoop sub.inorder a0 (sub.inorder.length + 1)
              [((sub.inorder.length - 1) / 2,
                NodeRebuildHelper.ofRange 0 (sub.inorder.length - 1))] =
            taskWrite sub.inorder a0 (sub.inorder.length + 1) 0 (sub.inorder.length - 1) := by
          intro a0
          rw [show (sub.inorder.length - 1) / 2 = 0 + (sub.inorder.length - 1 - 0) / 2 from
            by omega]
          rw [rebalLoop_taskWrite sub.inorder (sub.inorder.length + 1) 0
            (sub.inorder.length - 1) a0 [] (by omega) (by omega)]
          exact rebalLoop_nil _ _ _
        have hnuin : (balBTF sub.inorder (t.arena.vec.length + 1) 0
            (sub.inorder.length - 1)).inorder = sub.inorder := by
          rw [balBTF_inorder sub.inorder (t.arena.vec.length + 1) 0
            (sub.inorder.length - 1) (by omega) (by omega)]
          rw [show sub.inorder.length - 1 + 1 - 0 = sub.inorder.length from by omega]
          exact map_getD_range'_eq_self sub.inorder
        have hnucnt : (balBTF sub.inorder (t.arena.vec.length + 1) 0
            (sub.inorder.length - 1)).count = sub.inorder.length := by
          rw [BT.count_inorder, hnuin]
        by_cases hin : rootIdx ∈ sub.inorder
        · have hsubbt : sub = bt := by
            have hidxroot : idx = rootIdx :=
              BT.subtreeAt_root_mem bl rootIdx br idx sub
                (by rw [← hbteq]; exact hnd_bt) (by rw [← hbteq]; exact hsub) hin
            have h1 : bt.subtreeAt rootIdx = some bt :=
              BT.subtreeAt_self_of_root bt rootIdx hrootbt
            rw [hidxroot] at hsub
            rw [h1] at hsub
            injection hsub with hsub
            exact hsub.symm
          have hXa : (t.rebalanceFromSorted idx sub.inorder).arena =
              taskWrite sub.inorder t.arena (sub.inorder.length + 1) 0
                (sub.inorder.length - 1) := by
            rw [SgTree.rebalanceFromSorted, if_neg hlen1]
            simp only [hro, if_pos hin]
            exact hD t.arena
          have hXr : (t.rebalanceFromSorted idx sub.inorder).optRootIdx =
              some (sub.inorder.getD ((sub.inorder.length - 1) / 2) 0) := by
            rw [SgTree.rebalanceFromSorted, if_neg hlen1]
            simp only [hro, if_pos hin]
          have hTW := extract_taskWrite sub.inorder hnd_sub (t.arena.vec.length + 1)
            (sub.inorder.length + 1) 0 (sub.inorder.length - 1) t.arena
            (by omega) (by omega) (by omega) (by omega) hocc
          rw [show 0 + (sub.inorder.length - 1 - 0) / 2 = (sub.inorder.length - 1) / 2 from
            by omega] at hTW
          refine ⟨?_, ?_⟩
          · rw [SgTree.inorderKV, SgTree.inorderKV, hXa, hXr]
            rw [taskWrite_length]
            rw [hro]
            rw [inorderKVF_extract _ _ _ _ hTW]
            rw [inorderKVF_extract t.arena _ _ bt hext]
            rw [hnuin]
            rw [← hsubbt]
            exact kvList_congr t.arena _ sub.inorder (fun j => by rw [taskWrite_kvAt])
          · rw [hXa]
            exact hTW
        · have hidxne : idx ≠ rootIdx := by
            intro he
            apply hin
            have h1 : bt.subtreeAt rootIdx = some bt :=
              BT.subtreeAt_self_of_root bt rootIdx hrootbt
            rw [he] at hsub
            rw [h1] at hsub
            injection hsub with hsub
            rw [← hsub, hbteq]
            simp [BT.inorder]
          have hrootne : bt.rootIdx? ≠ some idx := by
            rw [hrootbt]
            intro hc
            injection hc with hc
            exact hidxne hc.symm
          obtain ⟨pe, hpe0⟩ := Option.isSome_iff_exists.mp
            (BT.parentEdge_isSome_of_mem bt idx hnd_bt hmem_idx hrootne)
          obtain ⟨pp, side⟩ := pe
          have hpg := privGet_correct t bt idx ⟨by rw [hro]; exact hext, hchain⟩ hmem_idx
          rw [hpe0] at hpg
          have hppmem : pp ∈ bt.inorder := BT.parentEdge_mem bt idx pp side hpe0
          have hppnotsub : pp ∉ sub.inorder :=
            BT.parentEdge_not_mem_subtree bt idx sub pp side hnd_bt hsub hpe0
          have hslots_pp : ∀ p, 0 ≤ p → p ≤ sub.inorder.length - 1 →
              sub.inorder.getD p 0 ≠ pp := by
            intro p hp1 hp2 he
            apply hppnotsub
            rw [← he]
            rw [List.getD_eq_getElem _ _ (by omega)]
            exact List.getElem_mem (by omega)
          cases side with
          | false =>
            have hXa : (t.rebalanceFromSorted idx sub.inorder).arena =
                taskWrite sub.inorder
                  (t.arena.setLeft pp
                    (some (sub.inorder.getD ((sub.inorder.length - 1) / 2) 0)))
                  (sub.inorder.length + 1) 0 (sub.inorder.length - 1) := by
              rw [SgTree.rebalanceFromSorted, if_neg hlen1]
              simp only [hro, if_neg hin, hpg]
              exact hD _
            have hXr : (t.rebalanceFromSorted idx sub.inorder).optRootIdx =
                some rootIdx := by
              rw [SgTree.rebalanceFromSorted, if_neg hlen1]
              simp only [hro, if_neg hin, hpg]
            have hocc1 : ∀ p, p < sub.inorder.length →
                (((t.arena.setLeft pp
                    (some (sub.inorder.getD ((sub.inorder.length - 1) / 2) 0))).node?
                  (sub.inorder.getD p 0)).isSome = true) := by
              intro p hp
              refine occupied_of_kvAt_eq t.arena _ _ ?_ (hocc p hp)
              rw [Arena.kvAt_setLeft]
            have hnuext : ∀ g, (balBTF sub.inorder (t.arena.vec.length + 1) 0
                  (sub.inorder.length - 1)).count ≤ g →
                extractF (taskWrite sub.inorder
                    (t.arena.setLeft pp
                      (some (sub.inorder.getD ((sub.inorder.length - 1) / 2) 0)))
                    (sub.inorder.length + 1) 0 (sub.inorder.length - 1)) g
                  (some (sub.inorder.getD ((sub.inorder.length - 1) / 2) 0)) =
                some (balBTF sub.inorder (t.arena.vec.length + 1) 0
                  (sub.inorder.length - 1)) := by
              intro g hg
              rw [hnucnt] at hg
              have h1 := extract_taskWrite sub.inorder hnd_sub g
                (sub.inorder.length + 1) 0 (sub.inorder.length - 1)
                (t.arena.setLeft pp
                  (some (sub.inorder.getD ((sub.inorder.length - 1) / 2) 0)))
                (by omega) (by omega) (by omega) (by omega) hocc1
              rw [show 0 + (sub.inorder.length - 1 - 0) / 2 =
                (sub.inorder.length - 1) / 2 from by omega] at h1
              rw [balBTF_irrel sub.inorder g (t.arena.vec.length + 1) 0
                (sub.inorder.length - 1) (by omega) (by omega) (by omega)] at h1
              exact h1
            have hframe : ∀ j ∈ bt.inorder, j ∉ sub.inorder → j ≠ pp →
                (taskWrite sub.inorder
                  (t.arena.setLeft pp
                    (some (sub.inorder.getD ((sub.inorder.length - 1) / 2) 0)))
                  (sub.inorder.length + 1) 0 (sub.inorder.length - 1)).node? j =
                t.arena.node? j := by
              intro j hj hjs hjp
              have hslots : ∀ p, 0 ≤ p → p ≤ sub.inorder.length - 1 →
                  sub.inorder.getD p 0 ≠ j := by
                intro p hp1 hp2 he
                apply hjs
                rw [← he]
                rw [List.getD_eq_getElem _ _ (by omega)]
                exact List.getElem_mem (by omega)
              rw [taskWrite_frame sub.inorder (sub.inorder.length + 1) 0
                (sub.inorder.length - 1) _ j hslots (by omega)]
              exact Arena.node?_setLeft_ne t.arena pp _ j hjp
            have hppb : ∀ np, t.arena.node? pp = some np →
                (taskWrite sub.inorder
                  (t.arena.setLeft pp
                    (some (sub.inorder.getD ((sub.inorder.length - 1) / 2) 0)))
                  (sub.inorder.length + 1) 0 (sub.inorder.length - 1)).node? pp =
                some { np with left := some (sub.inorder.getD ((sub.inorder.length - 1) / 2) 0) } := by
              intro np hnp
              rw [taskWrite_frame sub.inorder (sub.inorder.length + 1) 0
                (sub.inorder.length - 1) _ pp hslots_pp (by omega)]
              exact Arena.node?_setLeft_self t.arena pp _ np hnp
            have hG := extract_graft t.arena _ idx sub
              (balBTF sub.inorder (t.arena.vec.length + 1) 0 (sub.inorder.length - 1))
              (sub.inorder.getD ((sub.inorder.length - 1) / 2) 0) hnuin hnuext
              (t.arena.vec.length + 1) bt (some rootIdx) pp false hext
              (Nat.le_succ_of_le hcnt_bt) hnd_bt hsub hrootne hpe0 hframe hppb
            refine ⟨?_, ?_⟩
            · rw [SgTree.inorderKV, SgTree.inorderKV, hXa, hXr]
              rw [taskWrite_length, Arena.length_setLeft]
              rw [hro]
              rw [inorderKVF_extract _ _ _ _ hG]
              rw [inorderKVF_extract t.arena _ _ bt hext]
              rw [BT.graft_inorder bt sub _ idx hnd_bt hsub hnuin]
              exact kvList_congr t.arena _ bt.inorder
                (fun j => by rw [taskWrite_kvAt, Arena.kvAt_setLeft])
            · rw [hXa]
              exact hnuext (t.arena.vec.length + 1) (by rw [hnucnt]; omega)
          | true =>
            have hXa : (t.rebalanceFromSorted idx sub.inorder).arena =
                taskWrite sub.inorder
                  (t.arena.setRight pp
                    (some (sub.inorder.getD ((sub.inorder.length - 1) / 2) 0)))
                  (sub.inorder.length + 1) 0 (sub.inorder.length - 1) := by
              rw [SgTree.rebalanceFromSorted, if_neg hlen1]
              simp only [hro, if_neg hin, hpg]
              exact hD _
            have hXr : (t.rebalanceFromSorted idx sub.inorder).optRootIdx =
                some rootIdx := by
              rw [SgTree.rebalanceFromSorted, if_neg hlen1]
              simp only [hro, if_neg hin, hpg]
            have hocc1 : ∀ p, p < sub.inorder.length →
                (((t.arena.setRight pp
                    (some (sub.inorder.getD ((sub.inorder.length - 1) / 2) 0))).node?
                  (sub.inorder.getD p 0)).isSome = true) := by
              intro p hp
              refine occupied_of_kvAt_eq t.arena _ _ ?_ (hocc p hp)
              rw [Arena.kvAt_setRight]
            have hnuext : ∀ g, (balBTF sub.inorder (t.arena.vec.length + 1) 0
                  (sub.inorder.length - 1)).count ≤ g →
                extractF (taskWrite sub.inorder
                    (t.arena.setRight pp
                      (some (sub.inorder.getD ((sub.inorder.length - 1) / 2) 0)))
                    (sub.inorder.length + 1) 0 (sub.inorder.length - 1)) g
                  (some (sub.inorder.getD ((sub.inorder.length - 1) / 2) 0)) =
                some (balBTF sub.inorder (t.arena.vec.length + 1) 0
                  (sub.inorder.length - 1)) := by
              intro g hg
              rw [hnucnt] at hg
              have h1 := extract_taskWrite sub.inorder hnd_sub g
                (sub.inorder.length + 1) 0 (sub.inorder.length - 1)
                (t.arena.setRight pp
                  (some (sub.inorder.getD ((sub.inorder.length - 1) / 2) 0)))
                (by omega) (by omega) (by omega) (by omega) hocc1
              rw [show 0 + (sub.inorder.length - 1 - 0) / 2 =
                (sub.inorder.length - 1) / 2 from by omega] at h1
              rw [balBTF_irrel sub.inorder g (t.arena.vec.length + 1) 0
                (sub.inorder.length - 1) (by omega) (by omega) (by omega)] at h1
              exact h1
            have hframe : ∀ j ∈ bt.inorder, j ∉ sub.inorder → j ≠ pp →
                (taskWrite sub.inorder
                  (t.arena.setRight pp
                    (some (sub.inorder.getD ((sub.inorder.length - 1) / 2) 0)))
                  (sub.inorder.length + 1) 0 (sub.inorder.length - 1)).node? j =
                t.arena.node? j := by
              intro j hj hjs hjp
              have hslots : ∀ p, 0 ≤ p → p ≤ sub.inorder.length - 1 →
                  sub.inorder.getD p 0 ≠ j := by
                intro p hp1 hp2 he
                apply hjs
                rw [← he]
                rw [List.getD_eq_getElem _ _ (by omega)]
                exact List.getElem_mem (by omega)
              rw [taskWrite_frame sub.inorder (sub.inorder.length + 1) 0
                (sub.inorder.length - 1) _ j hslots (by omega)]
              exact Arena.node?_setRight_ne t.arena pp _ j hjp
            have hppb : ∀ np, t.arena.node? pp = some np →
                (taskWrite sub.inorder
                  (t.arena.setRight pp
                    (some (sub.inorder.getD ((sub.inorder.length - 1) / 2) 0)))
                  (sub.inorder.length + 1) 0 (sub.inorder.length - 1)).node? pp =
                some { np with right := some (sub.inorder.getD ((sub.inorder.length - 1) / 2) 0) } := by
              intro np hnp
              rw [taskWrite_frame sub.inorder (sub.inorder.length + 1) 0
                (sub.inorder.length - 1) _ pp hslots_pp (by omega)]
              exact Arena.node?_setRight_self t.arena pp _ np hnp
            have hG := extract_graft t.arena _ idx sub
              (balBTF sub.inorder (t.arena.vec.length + 1) 0 (sub.inorder.length - 1))
              (sub.inorder.getD ((sub.inorder.length - 1) / 2) 0) hnuin hnuext
              (t.arena.vec.length + 1) bt (some rootIdx) pp true hext
              (Nat.le_succ_of_le hcnt_bt) hnd_bt hsub hrootne hpe0 hframe hppb
            refine ⟨?_, ?_⟩
            · rw [SgTree.inorderKV, SgTree.inorderKV, hXa, hXr]
              rw [taskWrite_length, Arena.length_setRight]
              rw [hro]
              rw [inorderKVF_extract _ _ _ _ hG]
              rw [inorderKVF_extract t.arena _ _ bt hext]
              rw [BT.graft_inorder bt sub _ idx hnd_bt hsub hnuin]
              exact kvList_congr t.arena _ bt.inorder
                (fun j => by rw [taskWrite_kvAt, Arena.kvAt_setRight])
            · rw [hXa]
              exact hnuext (t.arena.vec.length + 1) (by rw [hnucnt]; omega)
  refine ⟨hlen_pres, ?_, ?_⟩
  · calc (t.rebuild idx).inorderKV
        = (t.rebalanceFromSorted idx sub.inorder).inorderKV := by
          rw [SgTree.inorderKV, SgTree.inorderKV, harena, hroot']
      _ = t.inorderKV := hmain.1
  · rw [hsorted, harena]
    exact hmain.2

/-- Witness for C7: rebuilding the capacity-3 tree (keys 1,2,3) at its
root slot preserves the traversal and length and yields the balanced
view. -/
theorem c7_rebuild_preserves_and_balances_witness :
    (exFullTree.rebuild 0).len = exFullTree.len ∧
    (exFullTree.rebuild 0).inorderKV = exFullTree.inorderKV ∧
    extractF (exFullTree.rebuild 0).arena (exFullTree.arena.vec.length + 1)
        (some ((exFullTree.flattenSubtree 0).getD
          (((exFullTree.flattenSubtree 0).length - 1) / 2) 0)) =
      some (balBTF (exFullTree.flattenSubtree 0) (exFullTree.arena.vec.length + 1) 0
        ((exFullTree.flattenSubtree 0).length - 1)) :=
  c7_rebuild_preserves_and_balances exFullTree
    (BT.node (BT.node BT.leaf 1 BT.leaf) 0 (BT.node BT.leaf 2 BT.leaf))
    (BT.node (BT.node BT.leaf 1 BT.leaf) 0 (BT.node BT.leaf 2 BT.leaf)) 0
    ⟨by decide, by
      have hk : keysOf exFullTree.arena
          (BT.node (BT.node BT.leaf 1 BT.leaf) 0 (BT.node BT.leaf 2 BT.leaf)).inorder =
          [1, 2, 3] := by decide
      rw [hk, List.chain'_iff_pairwise]
      norm_num [List.pairwise_cons]⟩ (by decide)

/-!
Arena sort correctness: the swap history tracks a permutation of the
slot positions, the first pass places the nodes in metadata order, the
relink pass renames every edge, and a second sort finds nothing to do.
-/

/-- The transposition of two positions, as a function. -/
def swapFn (x s q : Nat) : Nat :=
  if q = x then s else if q = s then x else q

theorem swapFn_involutive (x s q : Nat) : swapFn x s (swapFn x s q) = q := by
  unfold swapFn
  by_cases h1 : q = x <;> by_cases h2 : q = s <;> simp [h1, h2] <;> omega

theorem swapFn_inj (x s : Nat) : Function.Injective (swapFn x s) := by
  intro p q h
  have := congrArg (swapFn x s) h
  rwa [swapFn_involutive, swapFn_involutive] at this

theorem swapFn_left (x s : Nat) : swapFn x s x = s := by
  unfold swapFn
  simp

theorem swapFn_right (x s : Nat) (h : x ≠ s) : swapFn x s s = x := by
  unfold swapFn
  simp [Ne.symm h]

theorem swapFn_other (x s q : Nat) (h1 : q ≠ x) (h2 : q ≠ s) : swapFn x s q = q := by
  unfold swapFn
  simp [h1, h2]

/-- Original positions recorded in a swap history. -/
def HistKeys (h : NodeSwapHistHelper) : List Nat := h.history.map (fun e => e.1)

/-- Current positions recorded in a swap history. -/
def HistVals (h : NodeSwapHistHelper) : List Nat := h.history.map (fun e => e.2)

/-- The history invariant: entries have duplicate-free original and
current positions, the two position sets coincide (finitely supported
permutation), and all entries are in arena bounds. -/
def HistInv (L : Nat) (h : NodeSwapHistHelper) : Prop :=
  (HistKeys h).Nodup ∧ (HistVals h).Nodup ∧
  (∀ v, v ∈ HistVals h ↔ v ∈ HistKeys h) ∧
  ∀ e ∈ h.history, e.1 < L ∧ e.2 < L

theorem histInv_nil (L : Nat) : HistInv L ⟨[]⟩ := by
  refine ⟨List.nodup_nil, List.nodup_nil, ?_, ?_⟩
  · intro v
    simp [HistVals, HistKeys]
  · intro e he
    simp at he

theorem hist_not_mem_keys_of_find?_none (h : NodeSwapHistHelper) (p : Nat)
    (hf : h.history.find? (fun e => e.1 = p) = none) : p ∉ HistKeys h := by
  rw [List.find?_eq_none] at hf
  intro hp
  obtain ⟨e, he, hep⟩ := List.mem_map.mp hp
  have hc := hf e he
  simp [hep] at hc

theorem currIdx_eq_of_find?_none (h : NodeSwapHistHelper) (p : Nat)
    (hf : h.history.find? (fun e => e.1 = p) = none) : h.currIdx p = p := by
  unfold NodeSwapHistHelper.currIdx
  rw [hf]

theorem currIdx_eq_of_find?_some (h : NodeSwapHistHelper) (p : Nat) (e : Nat × Nat)
    (hf : h.history.find? (fun e => e.1 = p) = some e) : h.currIdx p = e.2 := by
  unfold NodeSwapHistHelper.currIdx
  rw [hf]

theorem addSwap_keys (h : NodeSwapHistHelper) (x s : Nat) :
    HistKeys (h.addSwap x s) =
      HistKeys h ++ (if h.history.any (fun e => e.2 = x) then [] else [x]) ++
        (if h.history.any (fun e => e.2 = s) then [] else [s]) := by
  unfold NodeSwapHistHelper.addSwap HistKeys
  simp only [List.map_append, List.map_map]
  congr 1
  congr 1
  · refine List.map_congr_left ?_
    intro e _
    dsimp only [Function.comp]
    by_cases h1 : e.2 = x
    · rw [if_pos h1]
    · rw [if_neg h1]
      by_cases h2 : e.2 = s
      · rw [if_pos h2]
      · rw [if_neg h2]
  · by_cases hk : h.history.any (fun e => e.2 = x) <;> simp [hk]
  · by_cases hk : h.history.any (fun e => e.2 = s) <;> simp [hk]

theorem addSwap_vals (h : NodeSwapHistHelper) (x s : Nat) :
    HistVals (h.addSwap x s) =
      (HistVals h).map (swapFn x s) ++
        (if h.history.any (fun e => e.2 = x) then [] else [s]) ++
        (if h.history.any (fun e => e.2 = s) then [] else [x]) := by
  unfold NodeSwapHistHelper.addSwap HistVals
  simp only [List.map_append, List.map_map]
  congr 1
  congr 1
  · refine List.map_congr_left ?_
    intro e _
    unfold swapFn
    dsimp only [Function.comp]
    by_cases h1 : e.2 = x
    · rw [if_pos h1, if_pos h1]
    · rw [if_neg h1, if_neg h1]
      by_cases h2 : e.2 = s
      · rw [if_pos h2, if_pos h2]
      · rw [if_neg h2, if_neg h2]
  · by_cases hk : h.history.any (fun e => e.2 = x) <;> simp [hk]
  · by_cases hk : h.history.any (fun e => e.2 = s) <;> simp [hk]

theorem any_val_iff (h : NodeSwapHistHelper) (v : Nat) :
    h.history.any (fun e => e.2 = v) = true ↔ v ∈ HistVals h := by
  rw [List.any_eq_true]
  constructor
  · rintro ⟨e, he, hev⟩
    exact List.mem_map.mpr ⟨e, he, by simpa using hev⟩
  · intro hv
    obtain ⟨e, he, hev⟩ := List.mem_map.mp hv
    exact ⟨e, he, by simpa using hev⟩

theorem currIdx_addSwap (L : Nat) (h : NodeSwapHistHelper) (x s : Nat)
    (hinv : HistInv L h) (hxs : x ≠ s) (p : Nat) :
    (h.addSwap x s).currIdx p = swapFn x s (h.currIdx p) := by
  obtain ⟨hk, hv, hvk, hb⟩ := hinv
  unfold NodeSwapHistHelper.currIdx NodeSwapHistHelper.addSwap
  simp only [List.find?_append, List.find?_map]
  have hpred : (fun e => decide (e.1 = p)) ∘
      (fun e : Nat × Nat => if e.2 = x then (e.1, s) else if e.2 = s then (e.1, x) else e) =
      fun e : Nat × Nat => decide (e.1 = p) := by
    funext e
    dsimp only [Function.comp]
    by_cases h1 : e.2 = x
    · rw [if_pos h1]
    · rw [if_neg h1]
      by_cases h2 : e.2 = s
      · rw [if_pos h2]
      · rw [if_neg h2]
  rw [hpred]
  cases hfind : h.history.find? (fun e => decide (e.1 = p)) with
  | some e =>
    simp only [Option.map_some', Option.or]
    unfold swapFn
    by_cases h1 : e.2 = x
    · rw [if_pos h1, if_pos h1]
    · rw [if_neg h1, if_neg h1]
      by_cases h2 : e.2 = s
      · rw [if_pos h2, if_pos h2]
      · rw [if_neg h2, if_neg h2]
  | none =>
    have hpk : p ∉ HistKeys h := hist_not_mem_keys_of_find?_none h p hfind
    have hpv : p ∉ HistVals h := fun hc => hpk ((hvk p).mp hc)
    simp only [Option.map_none', Option.none_or]
    have hanyfalse : ∀ v, v ∉ HistVals h → (h.history.any (fun e => e.2 = v)) = false := by
      intro v hvmem
      rw [Bool.eq_false_iff]
      intro htrue
      exact hvmem ((any_val_iff h v).mp htrue)
    by_cases hp1 : p = x
    · subst hp1
      rw [hanyfalse p hpv]
      simp only [Bool.false_eq_true, if_false]
      rw [show List.find? (fun e => decide (e.1 = p)) [(p, s)] = some (p, s) from by simp]
      simp only [Option.or]
      rw [swapFn_left]
    · by_cases hp2 : p = s
      · subst hp2
        rw [hanyfalse p hpv]
        simp only [Bool.false_eq_true, if_false]
        have h1none : List.find? (fun e => decide (e.1 = p))
            (if h.history.any (fun e => e.2 = x) = true then ([] : List (Nat × Nat))
             else [(x, p)]) = none := by
          by_cases hb1 : h.history.any (fun e => e.2 = x)
          · rw [if_pos hb1]
            rfl
          · rw [if_neg hb1]
            simp
            exact fun hc => hp1 hc.symm
        rw [h1none]
        rw [show List.find? (fun e => decide (e.1 = p)) [(p, x)] = some (p, x) from by simp]
        simp only [Option.or]
        rw [swapFn_right _ _ hxs]
      · rw [show List.find? (fun e => decide (e.1 = p))
            (if h.history.any (fun e => e.2 = x) = true then ([] : List (Nat × Nat))
             else [(x, s)]) = none from by
          by_cases hb1 : h.history.any (fun e => e.2 = x)
          · rw [if_pos hb1]; rfl
          · rw [if_neg hb1]
            simp
            exact fun hc => hp1 hc.symm]
        rw [show List.find? (fun e => decide (e.1 = p))
            (if h.history.any (fun e => e.2 = s) = true then ([] : List (Nat × Nat))
             else [(s, x)]) = none from by
          by_cases hb2 : h.history.any (fun e => e.2 = s)
          · rw [if_pos hb2]; rfl
          · rw [if_neg hb2]
            simp
            exact fun hc => hp2 hc.symm]
        simp only [Option.or]
        rw [swapFn_other _ _ _ hp1 hp2]

theorem mem_map_swapFn (x s v : Nat) (V : List Nat) :
    v ∈ V.map (swapFn x s) ↔ swapFn x s v ∈ V := by
  rw [List.mem_map]
  constructor
  · rintro ⟨w, hw, rfl⟩
    rwa [swapFn_involutive]
  · intro hv
    exact ⟨swapFn x s v, hv, swapFn_involutive x s v⟩

theorem histInv_addSwap (L : Nat) (h : NodeSwapHistHelper) (x s : Nat)
    (hinv : HistInv L h) (hx : x < L) (hs : s < L) (hxs : x ≠ s) :
    HistInv L (h.addSwap x s) := by
  obtain ⟨hk, hv, hvk, hb⟩ := hinv
  have hbounds : ∀ e ∈ (h.addSwap x s).history, e.1 < L ∧ e.2 < L := by
    intro e he
    unfold NodeSwapHistHelper.addSwap at he
    simp only [List.mem_append] at he
    rcases he with (he | he) | he
    · obtain ⟨e0, he0, hee⟩ := List.mem_map.mp he
      have hb0 := hb e0 he0
      by_cases h1 : e0.2 = x
      · rw [if_pos h1] at hee
        rw [← hee]
        exact ⟨hb0.1, hs⟩
      · rw [if_neg h1] at hee
        by_cases h2 : e0.2 = s
        · rw [if_pos h2] at hee
          rw [← hee]
          exact ⟨hb0.1, hx⟩
        · rw [if_neg h2] at hee
          rw [← hee]
          exact hb0
    · by_cases hc : h.history.any (fun e => e.2 = x)
      · rw [if_pos hc] at he
        simp at he
      · rw [if_neg hc] at he
        simp at he
        rw [he]
        exact ⟨hx, hs⟩
    · by_cases hc : h.history.any (fun e => e.2 = s)
      · rw [if_pos hc] at he
        simp at he
      · rw [if_neg hc] at he
        simp at he
        rw [he]
        exact ⟨hs, hx⟩
  rw [HistInv, addSwap_keys, addSwap_vals]
  by_cases hxv : x ∈ HistVals h <;> by_cases hsv : s ∈ HistVals h
  · simp only [if_pos ((any_val_iff h x).mpr hxv), if_pos ((any_val_iff h s).mpr hsv),
      List.append_nil]
    refine ⟨hk, List.Nodup.map (swapFn_inj x s) hv, ?_, hbounds⟩
    intro v
    rw [mem_map_swapFn]
    by_cases h1 : v = x
    · rw [h1, swapFn_left]
      simp [hsv, (hvk x).mp hxv]
    · by_cases h2 : v = s
      · rw [h2, swapFn_right _ _ hxs]
        simp [hxv, (hvk s).mp hsv]
      · rw [swapFn_other _ _ _ h1 h2]
        exact hvk v
  · simp only [if_pos ((any_val_iff h x).mpr hxv),
      if_neg (fun hc => hsv ((any_val_iff h s).mp hc)), List.append_nil, List.nil_append]
    have hsknot : s ∉ HistKeys h := fun hc => hsv ((hvk s).mpr hc)
    have hxmapnot : x ∉ (HistVals h).map (swapFn x s) := by
      rw [mem_map_swapFn, swapFn_left]
      exact hsv
    refine ⟨?_, ?_, ?_, hbounds⟩
    · simp [List.nodup_append, hk, hsknot]
    · simp [List.nodup_append, List.Nodup.map (swapFn_inj x s) hv, hxmapnot]
    · intro v
      simp only [List.mem_append, mem_map_swapFn, List.mem_singleton]
      by_cases h1 : v = x
      · rw [h1, swapFn_left]
        simp [(hvk x).mp hxv]
      · by_cases h2 : v = s
        · rw [h2, swapFn_right _ _ hxs]
          simp [hxv]
        · rw [swapFn_other _ _ _ h1 h2]
          simp [h1, h2, hvk v]
  · simp only [if_neg (fun hc => hxv ((any_val_iff h x).mp hc)),
      if_pos ((any_val_iff h s).mpr hsv), List.append_nil, List.nil_append]
    have hxknot : x ∉ HistKeys h := fun hc => hxv ((hvk x).mpr hc)
    have hsmapnot : s ∉ (HistVals h).map (swapFn x s) := by
      rw [mem_map_swapFn, swapFn_right _ _ hxs]
      exact hxv
    refine ⟨?_, ?_, ?_, hbounds⟩
    · simp [List.nodup_append, hk, hxknot]
    · simp [List.nodup_append, List.Nodup.map (swapFn_inj x s) hv, hsmapnot]
    · intro v
      simp only [List.mem_append, mem_map_swapFn, List.mem_singleton]
      by_cases h1 : v = x
      · rw [h1, swapFn_left]
        simp [hsv]
      · by_cases h2 : v = s
        · rw [h2, swapFn_right _ _ hxs]
          simp [(hvk s).mp hsv]
        · rw [swapFn_other _ _ _ h1 h2]
          simp [h1, h2, hvk v]
  · simp only [if_neg (fun hc => hxv ((any_val_iff h x).mp hc)),
      if_neg (fun hc => hsv ((any_val_iff h s).mp hc))]
    have hxknot : x ∉ HistKeys h := fun hc => hxv ((hvk x).mpr hc)
    have hsknot : s ∉ HistKeys h := fun hc => hsv ((hvk s).mpr hc)
    have hxmapnot : x ∉ (HistVals h).map (swapFn x s) := by
      rw [mem_map_swapFn, swapFn_left]
      exact hsv
    have hsmapnot : s ∉ (HistVals h).map (swapFn x s) := by
      rw [mem_map_swapFn, swapFn_right _ _ hxs]
      exact hxv
    refine ⟨?_, ?_, ?_, hbounds⟩
    · simp [List.nodup_append, hk, hxknot, hsknot, hxs]
    · simp [List.nodup_append, List.Nodup.map (swapFn_inj x s) hv, hxmapnot, hsmapnot,
        Ne.symm hxs]
    · intro v
      simp only [List.mem_append, mem_map_swapFn, List.mem_singleton]
      by_cases h1 : v = x
      · rw [h1, swapFn_left]
        simp
      · by_cases h2 : v = s
        · rw [h2, swapFn_right _ _ hxs]
          simp
        · rw [swapFn_other _ _ _ h1 h2]
          simp [h1, h2, hvk v]

theorem currIdx_inj (L : Nat) (h : NodeSwapHistHelper) (hinv : HistInv L h) :
    Function.Injective h.currIdx := by
  obtain ⟨hk, hv, hvk, hb⟩ := hinv
  intro p q he
  unfold NodeSwapHistHelper.currIdx at he
  cases hfp : h.history.find? (fun e => decide (e.1 = p)) with
  | some e1 =>
    cases hfq : h.history.find? (fun e => decide (e.1 = q)) with
    | some e2 =>
      simp only [hfp, hfq] at he
      have hm1 := List.mem_of_find?_eq_some hfp
      have hm2 := List.mem_of_find?_eq_some hfq
      have he12 : e1 = e2 := by
        unfold HistVals at hv
        exact List.inj_on_of_nodup_map hv hm1 hm2 he
      have hp1 := List.find?_some hfp
      have hq1 := List.find?_some hfq
      simp only [decide_eq_true_eq] at hp1 hq1
      rw [← hp1, ← hq1, he12]
    | none =>
      simp only [hfp, hfq] at he
      have hm1 := List.mem_of_find?_eq_some hfp
      have hqk : q ∉ HistKeys h := hist_not_mem_keys_of_find?_none h q hfq
      have hqv : q ∉ HistVals h := fun hc => hqk ((hvk q).mp hc)
      exact absurd (List.mem_map.mpr ⟨e1, hm1, he⟩) hqv
  | none =>
    cases hfq : h.history.find? (fun e => decide (e.1 = q)) with
    | some e2 =>
      simp only [hfp, hfq] at he
      have hm2 := List.mem_of_find?_eq_some hfq
      have hpk : p ∉ HistKeys h := hist_not_mem_keys_of_find?_none h p hfp
      have hpv : p ∉ HistVals h := fun hc => hpk ((hvk p).mp hc)
      exact absurd (List.mem_map.mpr ⟨e2, hm2, he.symm⟩) hpv
    | none =>
      simp only [hfp, hfq] at he
      exact he

theorem currIdx_lt (L : Nat) (h : NodeSwapHistHelper) (hinv : HistInv L h)
    (p : Nat) (hp : p < L) : h.currIdx p < L := by
  obtain ⟨hk, hv, hvk, hb⟩ := hinv
  unfold NodeSwapHistHelper.currIdx
  cases hfp : h.history.find? (fun e => decide (e.1 = p)) with
  | some e => exact (hb e (List.mem_of_find?_eq_some hfp)).2
  | none => exact hp

theorem listSwap_get? (l : List (Option Node)) (i j q : Nat)
    (hi : i < l.length) (hj : j < l.length) :
    (listSwap l i j).get? q =
      if q = i then l.get? j else if q = j then l.get? i else l.get? q := by
  unfold listSwap
  have hgi : l.get? i = some l[i] := by
    rw [List.get?_eq_getElem?]
    exact List.getElem?_eq_getElem hi
  have hgj : l.get? j = some l[j] := by
    rw [List.get?_eq_getElem?]
    exact List.getElem?_eq_getElem hj
  rw [hgi, hgj]
  simp only [List.get?_eq_getElem?, List.getElem?_set, List.length_set]
  by_cases hq1 : q = i <;> by_cases hq2 : q = j
  · rw [hq1] at hq2
    subst hq1
    subst hq2
    simp [hi, List.getElem?_eq_getElem hi]
  · subst hq1
    by_cases hji : j = q
    · omega
    · simp [hji, Ne.symm hji, hi, hj, List.getElem?_eq_getElem hj]
  · subst hq2
    by_cases hij : i = q
    · omega
    · simp [hij, hi, hj, List.getElem?_eq_getElem hi, hq1]
  · have hjq : ¬ (j = q) := fun hc => hq2 hc.symm
    have hiq : ¬ (i = q) := fun hc => hq1 hc.symm
    simp [hjq, hiq, hq1, hq2]

theorem listSwap_length (l : List (Option Node)) (i j : Nat) :
    (listSwap l i j).length = l.length := by
  unfold listSwap
  cases hi : l.get? i <;> cases hj : l.get? j <;> simp

theorem get?_isSome_lt (l : List (Option Node)) (q : Nat) (o : Option Node)
    (h : l.get? q = some o) : q < l.length := by
  by_contra hc
  rw [List.get?_eq_none.mpr (le_of_not_lt hc)] at h
  cases h

/-- First-pass correctness of the arena sort: walking the metadata
places the tracked nodes at consecutive slots, the history stays a
bounded permutation, and every original slot content is reachable
through it. -/
theorem arenaSortLoop_spec (a0 : Arena) :
    ∀ ms s a h,
      HistInv a0.vec.length h →
      a.vec.length = a0.vec.length →
      (∀ p, a.vec.get? (h.currIdx p) = a0.vec.get? p) →
      (∀ g ∈ ms, s ≤ h.currIdx (g.nodeIdx.getD 0)) →
      (∀ g ∈ ms, (a0.node? (g.nodeIdx.getD 0)).isSome = true) →
      List.Pairwise (fun g1 g2 => g1.nodeIdx.getD 0 ≠ g2.nodeIdx.getD 0) ms →
      s + ms.length ≤ a0.vec.length →
      HistInv a0.vec.length (arenaSortLoop a h s ms).2 ∧
      (arenaSortLoop a h s ms).1.vec.length = a0.vec.length ∧
      (∀ p, (arenaSortLoop a h s ms).1.vec.get? ((arenaSortLoop a h s ms).2.currIdx p) =
        a0.vec.get? p) ∧
      (∀ k, (hk : k < ms.length) →
        (arenaSortLoop a h s ms).2.currIdx ((ms.get ⟨k, hk⟩).nodeIdx.getD 0) = s + k) ∧
      (∀ p, h.currIdx p < s → (arenaSortLoop a h s ms).2.currIdx p = h.currIdx p) := by
  intro ms
  induction ms with
  | nil =>
    intro s a h hinv hlen hrel hpend hocc hpw hbound
    rw [arenaSortLoop]
    refine ⟨hinv, hlen, hrel, ?_, fun p _ => rfl⟩
    intro k hk
    simp at hk
  | cons ngh rest ih =>
    intro s a h hinv hlen hrel hpend hocc hpw hbound
    rw [arenaSortLoop]
    rw [List.pairwise_cons] at hpw
    have hxge : s ≤ h.currIdx (ngh.nodeIdx.getD 0) := hpend ngh (List.mem_cons_self _ _)
    have hinj := currIdx_inj a0.vec.length h hinv
    by_cases hxs : h.currIdx (ngh.nodeIdx.getD 0) ≠ s
    · rw [if_pos hxs]
      have hx_lt : h.currIdx (ngh.nodeIdx.getD 0) < a0.vec.length := by
        have h1 := hrel (ngh.nodeIdx.getD 0)
        have h2 := hocc ngh (List.mem_cons_self _ _)
        unfold Arena.node? at h2
        cases h3 : a0.vec.get? (ngh.nodeIdx.getD 0) with
        | none => rw [h3] at h2; simp at h2
        | some o =>
          rw [h3] at h1
          have h4 := get?_isSome_lt a.vec _ o h1
          omega
      have hs_lt : s < a0.vec.length := by
        simp only [List.length_cons] at hbound
        omega
      have hinv1 := histInv_addSwap a0.vec.length h (h.currIdx (ngh.nodeIdx.getD 0)) s
        hinv hx_lt hs_lt hxs
      have hc1 : ∀ p, (h.addSwap (h.currIdx (ngh.nodeIdx.getD 0)) s).currIdx p =
          swapFn (h.currIdx (ngh.nodeIdx.getD 0)) s (h.currIdx p) := fun p =>
        currIdx_addSwap a0.vec.length h _ s hinv hxs p
      have hrel1 : ∀ p,
          (listSwap a.vec (h.currIdx (ngh.nodeIdx.getD 0)) s).get?
            ((h.addSwap (h.currIdx (ngh.nodeIdx.getD 0)) s).currIdx p) =
          a0.vec.get? p := by
        intro p
        rw [hc1 p]
        rw [listSwap_get? a.vec _ s _ (by omega) (by omega)]
        by_cases hpx : h.currIdx p = h.currIdx (ngh.nodeIdx.getD 0)
        · rw [hpx, swapFn_left]
          rw [if_neg (Ne.symm hxs), if_pos rfl]
          rw [← hpx]
          exact hrel p
        · by_cases hps : h.currIdx p = s
          · rw [hps, swapFn_right _ _ hxs]
            rw [if_pos rfl]
            rw [← hps]
            exact hrel p
          · rw [swapFn_other _ _ _ hpx hps]
            rw [if_neg hpx, if_neg hps]
            exact hrel p
      have hpend1 : ∀ g ∈ rest,
          s + 1 ≤ (h.addSwap (h.currIdx (ngh.nodeIdx.getD 0)) s).currIdx
            (g.nodeIdx.getD 0) := by
        intro g hm
        rw [hc1]
        have hge := hpend g (List.mem_cons_of_mem _ hm)
        have hne : h.currIdx (g.nodeIdx.getD 0) ≠ h.currIdx (ngh.nodeIdx.getD 0) :=
          fun hc => hpw.1 g hm (hinj hc).symm
        by_cases hcs : h.currIdx (g.nodeIdx.getD 0) = s
        · rw [hcs, swapFn_right _ _ hxs]
          omega
        · rw [swapFn_other _ _ _ hne hcs]
          omega
      obtain ⟨ih1, ih2, ih3, ih4, ih5⟩ := ih (s+1)
        { a with vec := listSwap a.vec (h.currIdx (ngh.nodeIdx.getD 0)) s,
                 freeList := a.freeList.map
                   (fun i => if i = s then h.currIdx (ngh.nodeIdx.getD 0) else i) }
        (h.addSwap (h.currIdx (ngh.nodeIdx.getD 0)) s)
        hinv1
        (by simpa [listSwap_length] using hlen)
        hrel1 hpend1
        (fun g hm => hocc g (List.mem_cons_of_mem _ hm))
        hpw.2
        (by simp only [List.length_cons] at hbound; omega)
      refine ⟨ih1, ih2, ih3, ?_, ?_⟩
      · intro k hk
        cases k with
        | zero =>
          have h0 : (h.addSwap (h.currIdx (ngh.nodeIdx.getD 0)) s).currIdx
              (ngh.nodeIdx.getD 0) = s := by
            rw [hc1, swapFn_left]
          have h5 := ih5 (ngh.nodeIdx.getD 0) (by rw [h0]; omega)
          rw [h0] at h5
          simpa using h5
        | succ k2 =>
          have h4 := ih4 k2 (by simp only [List.length_cons] at hk; omega)
          rw [show s + 1 + k2 = s + (k2 + 1) from by omega] at h4
          simpa using h4
      · intro p hp
        have hxne : h.currIdx p ≠ h.currIdx (ngh.nodeIdx.getD 0) := by omega
        have hsne : h.currIdx p ≠ s := by omega
        have h1p : (h.addSwap (h.currIdx (ngh.nodeIdx.getD 0)) s).currIdx p =
            h.currIdx p := by
          rw [hc1, swapFn_other _ _ _ hxne hsne]
        rw [ih5 p (by rw [h1p]; omega), h1p]
    · rw [if_neg hxs]
      push_neg at hxs
      have hpend1 : ∀ g ∈ rest, s + 1 ≤ h.currIdx (g.nodeIdx.getD 0) := by
        intro g hm
        have hge := hpend g (List.mem_cons_of_mem _ hm)
        have hne : h.currIdx (g.nodeIdx.getD 0) ≠ h.currIdx (ngh.nodeIdx.getD 0) :=
          fun hc => hpw.1 g hm (hinj hc).symm
        rw [hxs] at hne
        omega
      obtain ⟨ih1, ih2, ih3, ih4, ih5⟩ := ih (s+1) a h hinv hlen hrel hpend1
        (fun g hm => hocc g (List.mem_cons_of_mem _ hm))
        hpw.2
        (by simp only [List.length_cons] at hbound; omega)
      refine ⟨ih1, ih2, ih3, ?_, ?_⟩
      · intro k hk
        cases k with
        | zero =>
          have h5 := ih5 (ngh.nodeIdx.getD 0) (by rw [hxs]; omega)
          rw [hxs] at h5
          simpa using h5
        | succ k2 =>
          have h4 := ih4 k2 (by simp only [List.length_cons] at hk; omega)
          rw [show s + 1 + k2 = s + (k2 + 1) from by omega] at h4
          simpa using h4
      · intro p hp
        rw [ih5 p (by omega)]

/-- Relabel every arena index of a view through a slot map. -/
def BT.relabel (c : Nat → Nat) : BT → BT
  | .leaf => .leaf
  | .node l i r => .node (l.relabel c) (c i) (r.relabel c)

theorem BT.relabel_inorder (c : Nat → Nat) :
    ∀ bt : BT, (bt.relabel c).inorder = bt.inorder.map c := by
  intro bt
  induction bt with
  | leaf => rfl
  | node l i r ihl ihr => simp [BT.relabel, BT.inorder, ihl, ihr]

theorem BT.relabel_rootIdx (c : Nat → Nat) (bt : BT) :
    (bt.relabel c).rootIdx? = bt.rootIdx?.map c := by
  cases bt <;> rfl

/-- The lookup-helper record `priv_get` produces for a node of a
well-formed view (cf. `privGet_correct`). -/
def mkMeta (bt : BT) (i : Nat) : NodeGetHelper :=
  match bt.parentEdge i with
  | some pe => ⟨some i, some pe.1, pe.2⟩
  | none => ⟨some i, none, false⟩

theorem mkMeta_nodeIdx (bt : BT) (i : Nat) : (mkMeta bt i).nodeIdx = some i := by
  unfold mkMeta
  cases bt.parentEdge i <;> rfl

theorem mkMeta_nodeIdx_getD (bt : BT) (i : Nat) : (mkMeta bt i).nodeIdx.getD 0 = i := by
  rw [mkMeta_nodeIdx]
  rfl

theorem BT.subtreeAt_trans :
    ∀ (bt : BT) (p q : Nat) (sub u : BT), bt.inorder.Nodup →
      bt.subtreeAt p = some sub → sub.subtreeAt q = some u →
      bt.subtreeAt q = some u := by
  intro bt
  induction bt with
  | leaf => intro p q sub u _ h _; simp [BT.subtreeAt] at h
  | node l i r ihl ihr =>
    intro p q sub u hnd hs hu
    obtain ⟨hndl, hndr, hil, hir, hdisj⟩ := BT.nodup_parts l i r hnd
    rw [BT.subtreeAt] at hs
    have hqsub : q ∈ sub.inorder := BT.mem_of_subtreeAt sub u q hu
    by_cases hip : i = p
    · rw [if_pos hip] at hs
      injection hs with hs
      rw [← hs] at hu
      exact hu
    · rw [if_neg hip] at hs
      cases hls : l.subtreeAt p with
      | some s =>
        rw [hls] at hs
        injection hs with hs
        subst hs
        have hql : q ∈ l.inorder := BT.subtreeAt_inorder_subset l p s hls q hqsub
        rw [BT.subtreeAt]
        rw [if_neg (fun he => hil (by rw [he]; exact hql))]
        rw [ihl p q s u hndl hls hu]
      | none =>
        rw [hls] at hs
        have hqr : q ∈ r.inorder := BT.subtreeAt_inorder_subset r p sub hs q hqsub
        rw [BT.subtreeAt]
        rw [if_neg (fun he => hir (by rw [he]; exact hqr))]
        rw [BT.subtreeAt_eq_none_of_not_mem l q (fun hql => hdisj q hql hqr)]
        exact ihr p q sub u hndr hs hu

theorem BT.parentEdge_subtreeAt :
    ∀ (bt : BT) (i pp : Nat) (side : Bool), bt.inorder.Nodup →
      bt.parentEdge i = some (pp, side) →
      ∃ cl cr, bt.subtreeAt pp = some (BT.node cl pp cr) ∧
        (if side then cr else cl).rootIdx? = some i := by
  intro bt
  induction bt with
  | leaf => intro i pp side _ h; simp [BT.parentEdge] at h
  | node l j r ihl ihr =>
    intro i pp side hnd hpe
    obtain ⟨hndl, hndr, hjl, hjr, hdisj⟩ := BT.nodup_parts l j r hnd
    rw [BT.parentEdge] at hpe
    by_cases h1 : l.rootIdx? = some i
    · rw [if_pos h1] at hpe
      simp only [Option.some.injEq, Prod.mk.injEq] at hpe
      obtain ⟨hpp, hside⟩ := hpe
      subst hpp
      subst hside
      refine ⟨l, r, ?_, h1⟩
      rw [BT.subtreeAt, if_pos rfl]
    · rw [if_neg h1] at hpe
      by_cases h2 : r.rootIdx? = some i
      · rw [if_pos h2] at hpe
        simp only [Option.some.injEq, Prod.mk.injEq] at hpe
        obtain ⟨hpp, hside⟩ := hpe
        subst hpp
        subst hside
        refine ⟨l, r, ?_, h2⟩
        rw [BT.subtreeAt, if_pos rfl]
      · rw [if_neg h2] at hpe
        cases hls : l.subtreeAt i with
        | some u =>
          rw [hls] at hpe
          obtain ⟨cl, cr, hsub, hchild⟩ := ihl i pp side hndl hpe
          have hppl : pp ∈ l.inorder := BT.parentEdge_mem l i pp side hpe
          refine ⟨cl, cr, ?_, hchild⟩
          rw [BT.subtreeAt]
          rw [if_neg (fun he => hjl (by rw [he]; exact hppl))]
          rw [hsub]
        | none =>
          rw [hls] at hpe
          obtain ⟨cl, cr, hsub, hchild⟩ := ihr i pp side hndr hpe
          have hppr : pp ∈ r.inorder := BT.parentEdge_mem r i pp side hpe
          refine ⟨cl, cr, ?_, hchild⟩
          rw [BT.subtreeAt]
          rw [if_neg (fun he => hjr (by rw [he]; exact hppr))]
          rw [BT.subtreeAt_eq_none_of_not_mem l pp (fun hml => hdisj pp hml hppr)]
          exact hsub

/-- The root of a duplicate-free view is nobody's child. -/
theorem BT.root_not_child (bt : BT) (p : Nat) (cl cr : BT) (i : Nat)
    (hnd : bt.inorder.Nodup) (hsub : bt.subtreeAt p = some (BT.node cl p cr))
    (hmem : i ∈ cl.inorder ∨ i ∈ cr.inorder) : bt.rootIdx? ≠ some i := by
  intro hroot
  cases bt with
  | leaf => simp [BT.subtreeAt] at hsub
  | node L j R =>
    simp only [BT.rootIdx?] at hroot
    injection hroot with hroot
    have himem : i ∈ (BT.node cl p cr).inorder := by
      rcases hmem with h | h <;> simp [BT.inorder, h]
    have hji : j ∈ (BT.node cl p cr).inorder := by rw [hroot]; exact himem
    have hpi : p = j := BT.subtreeAt_root_mem L j R p (BT.node cl p cr) hnd hsub hji
    subst hpi
    have hself : (BT.node L p R).subtreeAt p = some (BT.node L p R) := by
      rw [BT.subtreeAt, if_pos rfl]
    rw [hself] at hsub
    injection hsub with hsub
    injection hsub with hL hj2 hR
    obtain ⟨_, _, hpl, hpr, _⟩ := BT.nodup_parts L p R hnd
    rcases hmem with h | h
    · exact hpl (by rw [hL, hroot]; exact h)
    · exact hpr (by rw [hR, hroot]; exact h)

/-- Converse of `parentEdge_subtreeAt`: a child edge determines the
parent lookup. -/
theorem BT.child_parentEdge :
    ∀ (bt : BT) (p : Nat) (cl cr : BT) (side : Bool) (i : Nat), bt.inorder.Nodup →
      bt.subtreeAt p = some (BT.node cl p cr) →
      (if side then cr else cl).rootIdx? = some i →
      bt.parentEdge i = some (p, side) := by
  intro bt
  induction bt with
  | leaf => intro p cl cr side i _ h _; simp [BT.subtreeAt] at h
  | node L j R ihl ihr =>
    intro p cl cr side i hnd hsub hchild
    obtain ⟨hndl, hndr, hjl, hjr, hdisj⟩ := BT.nodup_parts L j R hnd
    have hic : i ∈ (if side then cr else cl).inorder := BT.rootIdx?_mem _ i hchild
    have hicd : i ∈ cl.inorder ∨ i ∈ cr.inorder := by
      cases side with
      | false => exact Or.inl hic
      | true => exact Or.inr hic
    have himem : i ∈ (BT.node cl p cr).inorder := by
      rcases hicd with h | h <;> simp [BT.inorder, h]
    rw [BT.subtreeAt] at hsub
    by_cases hjp : j = p
    · rw [if_pos hjp] at hsub
      injection hsub with hsub
      injection hsub with hL hj hR
      subst hjp
      rw [BT.parentEdge]
      cases side with
      | false =>
        have hchild' : L.rootIdx? = some i := by rw [hL]; exact hchild
        rw [if_pos hchild']
      | true =>
        have hchild' : R.rootIdx? = some i := by rw [hR]; exact hchild
        have h1 : ¬ (L.rootIdx? = some i) := by
          intro hc
          have hiL : i ∈ L.inorder := BT.rootIdx?_mem L i hc
          have hiR : i ∈ R.inorder := by rw [hR]; exact hic
          exact hdisj i hiL hiR
        rw [if_neg h1, if_pos hchild']
    · rw [if_neg hjp] at hsub
      cases hls : L.subtreeAt p with
      | some s =>
        rw [hls] at hsub
        injection hsub with hsub
        subst hsub
        have hpe := ihl p cl cr side i hndl hls hchild
        have hiL : i ∈ L.inorder :=
          BT.subtreeAt_inorder_subset L p (BT.node cl p cr) hls i himem
        rw [BT.parentEdge]
        rw [if_neg (BT.root_not_child L p cl cr i hndl hls hicd)]
        rw [if_neg (fun hc => hdisj i hiL (BT.rootIdx?_mem R i hc))]
        obtain ⟨u, hu⟩ := Option.isSome_iff_exists.mp
          (BT.subtreeAt_isSome_of_mem L i hiL)
        simp only [hu]
        exact hpe
      | none =>
        rw [hls] at hsub
        have hpe := ihr p cl cr side i hndr hsub hchild
        have hiR : i ∈ R.inorder :=
          BT.subtreeAt_inorder_subset R p (BT.node cl p cr) hsub i himem
        rw [BT.parentEdge]
        rw [if_neg (fun hc => hdisj i (BT.rootIdx?_mem L i hc) hiR)]
        rw [if_neg (BT.root_not_child R p cl cr i hndr hsub hicd)]
        rw [BT.subtreeAt_eq_none_of_not_mem L i (fun hml => hdisj i hml hiR)]
        exact hpe

theorem BT.subtreeAt_relabel (c : Nat → Nat) (hinj : Function.Injective c) :
    ∀ (bt : BT) (p : Nat),
      (bt.relabel c).subtreeAt (c p) = (bt.subtreeAt p).map (BT.relabel c) := by
  intro bt
  induction bt with
  | leaf => intro p; rfl
  | node l i r ihl ihr =>
    intro p
    simp only [BT.relabel]
    rw [BT.subtreeAt]
    conv_rhs => rw [BT.subtreeAt]
    by_cases hip : i = p
    · rw [if_pos (by rw [hip]), if_pos hip]
      rfl
    · rw [if_neg (fun he => hip (hinj he)), if_neg hip]
      rw [ihl p]
      cases hls : l.subtreeAt p with
      | some s => simp only [hls, Option.map_some']
      | none =>
        simp only [hls, Option.map_none']
        exact ihr p

theorem BT.parentEdge_relabel (c : Nat → Nat) (hinj : Function.Injective c) :
    ∀ (bt : BT) (i : Nat),
      (bt.relabel c).parentEdge (c i) =
        (bt.parentEdge i).map (fun pe => (c pe.1, pe.2)) := by
  intro bt
  induction bt with
  | leaf => intro i; rfl
  | node l j r ihl ihr =>
    intro i
    simp only [BT.relabel]
    rw [BT.parentEdge]
    conv_rhs => rw [BT.parentEdge]
    by_cases h1 : l.rootIdx? = some i
    · have h1' : (l.relabel c).rootIdx? = some (c i) := by
        rw [BT.relabel_rootIdx, h1]
        rfl
      rw [if_pos h1', if_pos h1]
      rfl
    · have h1' : ¬ ((l.relabel c).rootIdx? = some (c i)) := by
        rw [BT.relabel_rootIdx]
        cases hl : l.rootIdx? with
        | none => simp
        | some x =>
          simp only [Option.map_some']
          intro hc
          injection hc with hc
          exact h1 (by rw [hl, hinj hc])
      rw [if_neg h1', if_neg h1]
      by_cases h2 : r.rootIdx? = some i
      · have h2' : (r.relabel c).rootIdx? = some (c i) := by
          rw [BT.relabel_rootIdx, h2]
          rfl
        rw [if_pos h2', if_pos h2]
        rfl
      · have h2' : ¬ ((r.relabel c).rootIdx? = some (c i)) := by
          rw [BT.relabel_rootIdx]
          cases hr : r.rootIdx? with
          | none => simp
          | some x =>
            simp only [Option.map_some']
            intro hc
            injection hc with hc
            exact h2 (by rw [hr, hinj hc])
        rw [if_neg h2', if_neg h2]
        rw [BT.subtreeAt_relabel c hinj l i]
        cases hls : l.subtreeAt i with
        | some s =>
          simp only [hls, Option.map_some']
          exact ihl i
        | none =>
          simp only [hls, Option.map_none']
          exact ihr i

/-- A successful extraction pins down the extracted node's stored child
links: they are exactly the child views' roots. -/
theorem extract_node_fields (a : Arena) (G p : Nat) (l r : BT)
    (h : extractF a G (some p) = some (BT.node l p r)) :
    ∃ n, a.node? p = some n ∧ n.left = l.rootIdx? ∧ n.right = r.rootIdx? := by
  cases G with
  | zero => simp [extractF] at h
  | succ m =>
    rw [extractF] at h
    split at h
    · simp at h
    · rename_i n ho
      split at h
      · rename_i lbt rbt hl hr
        injection h with h
        injection h with h1 h2 h3
        refine ⟨n, ho, ?_, ?_⟩
        · cases hnl : n.left with
          | none =>
            rw [hnl] at hl
            rw [extractF_none_eq] at hl
            injection hl with hl
            rw [← h1, ← hl]
            rfl
          | some x =>
            rw [hnl] at hl
            obtain ⟨pl, pr, hbt, _⟩ := extracts_of_extract_some a m x lbt hl
            rw [← h1, hbt]
            rfl
        · cases hnr : n.right with
          | none =>
            rw [hnr] at hr
            rw [extractF_none_eq] at hr
            injection hr with hr
            rw [← h3, ← hr]
            rfl
          | some x =>
            rw [hnr] at hr
            obtain ⟨pl, pr, hbt, _⟩ := extracts_of_extract_some a m x rbt hr
            rw [← h3, hbt]
            rfl
      · simp at h

/-- Value of a stored child link midway through the relink pass: the
original child index while the child's metadata entry is still pending,
its post-permutation index afterwards. -/
def pendingLink (c : Nat → Nat) (ms : List NodeGetHelper) : BT → Option Nat
  | BT.leaf => none
  | BT.node _ x _ => if ms.any (fun g => g.nodeIdx.getD 0 = x) then some x else some (c x)

theorem pendingLink_nil (c : Nat → Nat) (sub : BT) :
    pendingLink c [] sub = (sub.relabel c).rootIdx? := by
  cases sub with
  | leaf => rfl
  | node l x r => simp [pendingLink, BT.relabel, BT.rootIdx?]

theorem arenaSortRelink_length (h : NodeSwapHistHelper) :
    ∀ (ms : List NodeGetHelper) (a : Arena),
      (arenaSortRelink a h ms).vec.length = a.vec.length := by
  intro ms
  induction ms with
  | nil => intro a; rfl
  | cons g rest ih =>
    intro a
    rw [arenaSortRelink]
    cases hgp : g.parentIdx with
    | none => exact ih a
    | some pp =>
      rw [ih]
      split
      · exact Arena.length_setRight a _ _
      · exact Arena.length_setLeft a _ _

theorem arenaSortRelink_frame (h : NodeSwapHistHelper) :
    ∀ (ms : List NodeGetHelper) (a : Arena) (q : Nat),
      (∀ g ∈ ms, ∀ pp, g.parentIdx = some pp → q ≠ h.currIdx pp) →
      (arenaSortRelink a h ms).node? q = a.node? q := by
  intro ms
  induction ms with
  | nil => intro a q _; rfl
  | cons g rest ih =>
    intro a q hq
    rw [arenaSortRelink]
    cases hgp : g.parentIdx with
    | none => exact ih a q (fun g' hg' => hq g' (List.mem_cons_of_mem _ hg'))
    | some pp =>
      have hqne : q ≠ h.currIdx pp := hq g (List.mem_cons_self _ _) pp hgp
      rw [ih _ q (fun g' hg' => hq g' (List.mem_cons_of_mem _ hg'))]
      split
      · exact Arena.node?_setRight_ne a _ _ q hqne
      · exact Arena.node?_setLeft_ne a _ _ q hqne

theorem pendingLink_leaf (c : Nat → Nat) (ms : List NodeGetHelper) :
    pendingLink c ms BT.leaf = none := rfl

theorem pendingLink_cons_ne (c : Nat → Nat) (g : NodeGetHelper)
    (ms : List NodeGetHelper) (sub : BT)
    (hne : ∀ y, sub.rootIdx? = some y → g.nodeIdx.getD 0 ≠ y) :
    pendingLink c (g :: ms) sub = pendingLink c ms sub := by
  cases sub with
  | leaf => rfl
  | node x y z =>
    have h := hne y rfl
    simp only [pendingLink, List.any_cons, decide_eq_false h, Bool.false_or]

theorem pendingLink_not_pending (c : Nat → Nat) (ms : List NodeGetHelper)
    (sub : BT) (y : Nat) (hroot : sub.rootIdx? = some y)
    (hnone : ∀ g ∈ ms, g.nodeIdx.getD 0 ≠ y) :
    pendingLink c ms sub = some (c y) := by
  cases sub with
  | leaf => simp [BT.rootIdx?] at hroot
  | node x y' z =>
    simp only [BT.rootIdx?] at hroot
    injection hroot with hroot
    subst hroot
    simp only [pendingLink]
    rw [if_neg]
    intro hc
    obtain ⟨g, hg, hgy⟩ := List.any_eq_true.mp hc
    exact hnone g hg (of_decide_eq_true hgy)

theorem pendingLink_pending (c : Nat → Nat) (ms : List NodeGetHelper)
    (sub : BT) (y : Nat) (hroot : sub.rootIdx? = some y)
    (hmem : ∃ g ∈ ms, g.nodeIdx.getD 0 = y) :
    pendingLink c ms sub = some y := by
  cases sub with
  | leaf => simp [BT.rootIdx?] at hroot
  | node x y' z =>
    simp only [BT.rootIdx?] at hroot
    injection hroot with hroot
    subst hroot
    simp only [pendingLink]
    rw [if_pos]
    obtain ⟨g, hg, hgy⟩ := hmem
    exact List.any_eq_true.mpr ⟨g, hg, decide_eq_true hgy⟩

/-- Away from its parent, a node of a duplicate-free view is nobody's
child: the parent edge is unique. -/
theorem child_root_ne_of_parentEdge (bt : BT) (knd : bt.inorder.Nodup)
    (p' : Nat) (cl' cr' : BT) (hsub' : bt.subtreeAt p' = some (BT.node cl' p' cr'))
    (i pp : Nat) (side : Bool) (hpe : bt.parentEdge i = some (pp, side))
    (hp' : p' ≠ pp) :
    (∀ y, cl'.rootIdx? = some y → i ≠ y) ∧ (∀ y, cr'.rootIdx? = some y → i ≠ y) := by
  constructor
  · intro y hy hiy
    have hparent := BT.child_parentEdge bt p' cl' cr' false y knd hsub'
      (show (if false then cr' else cl').rootIdx? = some y from hy)
    rw [← hiy, hpe] at hparent
    injection hparent with hparent
    exact hp' (congrArg Prod.fst hparent).symm
  · intro y hy hiy
    have hparent := BT.child_parentEdge bt p' cl' cr' true y knd hsub'
      (show (if true then cr' else cl').rootIdx? = some y from hy)
    rw [← hiy, hpe] at hparent
    injection hparent with hparent
    exact hp' (congrArg Prod.fst hparent).symm

/-- The root of a duplicate-free view is no node's child (link form). -/
theorem child_root_ne_of_root (bt : BT) (knd : bt.inorder.Nodup)
    (p' : Nat) (cl' cr' : BT) (hsub' : bt.subtreeAt p' = some (BT.node cl' p' cr'))
    (i : Nat) (hroot : bt.rootIdx? = some i) :
    (∀ y, cl'.rootIdx? = some y → i ≠ y) ∧ (∀ y, cr'.rootIdx? = some y → i ≠ y) := by
  constructor
  · intro y hy hiy
    exact BT.root_not_child bt p' cl' cr' y knd hsub'
      (Or.inl (BT.rootIdx?_mem cl' y hy)) (by rw [hroot, hiy])
  · intro y hy hiy
    exact BT.root_not_child bt p' cl' cr' y knd hsub'
      (Or.inr (BT.rootIdx?_mem cr' y hy)) (by rw [hroot, hiy])

/-- The relink pass of `Arena::sort`, run over lookup metadata of a
duplicate-free view, rewrites every node's stored child links to the
post-permutation indices (and nothing else in the slot). -/
theorem arenaSortRelink_nodes (c : Nat → Nat) (bt : BT) (knd : bt.inorder.Nodup)
    (hinj : Function.Injective c) (h : NodeSwapHistHelper)
    (hcc : ∀ p, h.currIdx p = c p) (kv : Nat → Nat × Nat) :
    ∀ (ms : List NodeGetHelper) (a : Arena),
      (∀ g ∈ ms, ∃ i, i ∈ bt.inorder ∧ g = mkMeta bt i) →
      List.Pairwise (fun g1 g2 => g1.nodeIdx.getD 0 ≠ g2.nodeIdx.getD 0) ms →
      (∀ p cl cr, bt.subtreeAt p = some (BT.node cl p cr) →
        a.node? (c p) = some ⟨(kv p).1, (kv p).2,
          pendingLink c ms cl, pendingLink c ms cr⟩) →
      ∀ p cl cr, bt.subtreeAt p = some (BT.node cl p cr) →
        (arenaSortRelink a h ms).node? (c p) =
          some ⟨(kv p).1, (kv p).2,
            (cl.relabel c).rootIdx?, (cr.relabel c).rootIdx?⟩ := by
  intro ms
  induction ms with
  | nil =>
    intro a _ _ hstate p cl cr hsub
    have hst := hstate p cl cr hsub
    rw [pendingLink_nil, pendingLink_nil] at hst
    exact hst
  | cons g rest ih =>
    intro a hent hpw hstate p cl cr hsub
    obtain ⟨i, himem, hgi⟩ := hent g (List.mem_cons_self _ _)
    rw [List.pairwise_cons] at hpw
    subst hgi
    rw [arenaSortRelink]
    cases hpe : bt.parentEdge i with
    | none =>
      have hmkp : (mkMeta bt i).parentIdx = none := by unfold mkMeta; rw [hpe]
      rw [hmkp]
      have hroot : bt.rootIdx? = some i := by
        by_contra hc
        have hs := BT.parentEdge_isSome_of_mem bt i knd himem hc
        rw [hpe] at hs
        simp at hs
      refine ih a (fun g' hg' => hent g' (List.mem_cons_of_mem _ hg')) hpw.2 ?_ p cl cr hsub
      intro p' cl' cr' hsub'
      have hst := hstate p' cl' cr' hsub'
      obtain ⟨hcl, hcr⟩ := child_root_ne_of_root bt knd p' cl' cr' hsub' i hroot
      rw [pendingLink_cons_ne c _ rest cl'
            (fun y hy => by rw [mkMeta_nodeIdx_getD]; exact hcl y hy),
          pendingLink_cons_ne c _ rest cr'
            (fun y hy => by rw [mkMeta_nodeIdx_getD]; exact hcr y hy)] at hst
      exact hst
    | some pe =>
      obtain ⟨pp, side⟩ := pe
      have hmkp : (mkMeta bt i).parentIdx = some pp := by unfold mkMeta; rw [hpe]
      have hmks : (mkMeta bt i).isRightChild = side := by unfold mkMeta; rw [hpe]
      have hmkn : (mkMeta bt i).nodeIdx.getD 0 = i := mkMeta_nodeIdx_getD bt i
      simp only [hmkp, hmks, hmkn, hcc]
      obtain ⟨pl, pr, hsubpp, hchild⟩ := BT.parentEdge_subtreeAt bt i pp side knd hpe
      have hsubnd : (BT.node pl pp pr).inorder.Nodup :=
        List.Nodup.sublist (BT.subtreeAt_inorder_sublist bt pp _ hsubpp) knd
      obtain ⟨_, _, _, _, hdisj⟩ := BT.nodup_parts pl pp pr hsubnd
      have hrest_ne : ∀ g' ∈ rest, g'.nodeIdx.getD 0 ≠ i := by
        intro g' hg' he
        exact hpw.1 g' hg' (by rw [mkMeta_nodeIdx_getD, he])
      cases side with
      | false =>
        have hchild' : pl.rootIdx? = some i := hchild
        refine ih (a.setLeft (c pp) (some (c i)))
          (fun g' hg' => hent g' (List.mem_cons_of_mem _ hg')) hpw.2 ?_ p cl cr hsub
        intro p' cl' cr' hsub'
        by_cases hp' : p' = pp
        · subst hp'
          rw [hsubpp] at hsub'
          injection hsub' with hsub'
          injection hsub' with h1 h2 h3
          subst h1
          subst h3
          have hold := hstate p' pl pr hsubpp
          rw [Arena.node?_setLeft_self a (c p') (some (c i)) _ hold]
          have hL : pendingLink c rest pl = some (c i) :=
            pendingLink_not_pending c rest pl i hchild' hrest_ne
          have hR : pendingLink c (mkMeta bt i :: rest) pr = pendingLink c rest pr := by
            refine pendingLink_cons_ne c _ rest pr ?_
            intro y hy
            rw [mkMeta_nodeIdx_getD]
            intro hiy
            exact hdisj i (BT.rootIdx?_mem pl i hchild')
              (by rw [hiy]; exact BT.rootIdx?_mem pr y hy)
          rw [hR, hL]
        · rw [Arena.node?_setLeft_ne a (c pp) (some (c i)) (c p')
            (fun he => hp' (hinj he))]
          have hst := hstate p' cl' cr' hsub'
          obtain ⟨hcl, hcr⟩ :=
            child_root_ne_of_parentEdge bt knd p' cl' cr' hsub' i pp false hpe hp'
          rw [pendingLink_cons_ne c _ rest cl'
                (fun y hy => by rw [mkMeta_nodeIdx_getD]; exact hcl y hy),
              pendingLink_cons_ne c _ rest cr'
                (fun y hy => by rw [mkMeta_nodeIdx_getD]; exact hcr y hy)] at hst
          exact hst
      | true =>
        have hchild' : pr.rootIdx? = some i := hchild
        refine ih (a.setRight (c pp) (some (c i)))
          (fun g' hg' => hent g' (List.mem_cons_of_mem _ hg')) hpw.2 ?_ p cl cr hsub
        intro p' cl' cr' hsub'
        by_cases hp' : p' = pp
        · subst hp'
          rw [hsubpp] at hsub'
          injection hsub' with hsub'
          injection hsub' with h1 h2 h3
          subst h1
          subst h3
          have hold := hstate p' pl pr hsubpp
          rw [Arena.node?_setRight_self a (c p') (some (c i)) _ hold]
          have hR : pendingLink c rest pr = some (c i) :=
            pendingLink_not_pending c rest pr i hchild' hrest_ne
          have hL : pendingLink c (mkMeta bt i :: rest) pl = pendingLink c rest pl := by
            refine pendingLink_cons_ne c _ rest pl ?_
            intro y hy
            rw [mkMeta_nodeIdx_getD]
            intro hiy
            exact hdisj y (BT.rootIdx?_mem pl y hy)
              (by rw [← hiy]; exact BT.rootIdx?_mem pr i hchild')
          rw [hL, hR]
        · rw [Arena.node?_setRight_ne a (c pp) (some (c i)) (c p')
            (fun he => hp' (hinj he))]
          have hst := hstate p' cl' cr' hsub'
          obtain ⟨hcl, hcr⟩ :=
            child_root_ne_of_parentEdge bt knd p' cl' cr' hsub' i pp true hpe hp'
          rw [pendingLink_cons_ne c _ rest cl'
                (fun y hy => by rw [mkMeta_nodeIdx_getD]; exact hcl y hy),
              pendingLink_cons_ne c _ rest cr'
                (fun y hy => by rw [mkMeta_nodeIdx_getD]; exact hcr y hy)] at hst
          exact hst

/-- Extraction over an arena whose nodes carry relabelled child links
yields the relabelled view. -/
theorem extract_relabel (a' : Arena) (c : Nat → Nat) (bt : BT)
    (knd : bt.inorder.Nodup) (kv : Nat → Nat × Nat)
    (hchar : ∀ p cl cr, bt.subtreeAt p = some (BT.node cl p cr) →
      a'.node? (c p) = some ⟨(kv p).1, (kv p).2,
        (cl.relabel c).rootIdx?, (cr.relabel c).rootIdx?⟩) :
    ∀ (G : Nat) (sub : BT) (p : Nat), bt.subtreeAt p = some sub → sub.count ≤ G →
      extractF a' G (some (c p)) = some (sub.relabel c) := by
  intro G
  induction G with
  | zero =>
    intro sub p hsub hcount
    obtain ⟨sl, sr, hse⟩ := BT.subtreeAt_root bt p sub hsub
    subst hse
    simp [BT.count] at hcount
  | succ m ih =>
    intro sub p hsub hcount
    obtain ⟨sl, sr, hse⟩ := BT.subtreeAt_root bt p sub hsub
    subst hse
    have hn := hchar p sl sr hsub
    have hsubnd : (BT.node sl p sr).inorder.Nodup :=
      List.Nodup.sublist (BT.subtreeAt_inorder_sublist bt p _ hsub) knd
    obtain ⟨hndsl, hndsr, hpsl, hpsr, _⟩ := BT.nodup_parts sl p sr hsubnd
    simp only [BT.count] at hcount
    rw [extractF]
    simp only [hn]
    have hL : extractF a' m ((sl.relabel c).rootIdx?) = some (sl.relabel c) := by
      cases sl with
      | leaf => exact extractF_none_eq a' m
      | node x y z =>
        have hsuby : bt.subtreeAt y = some (BT.node x y z) := by
          refine BT.subtreeAt_trans bt p y _ _ knd hsub ?_
          rw [BT.subtreeAt]
          rw [if_neg (fun he => hpsl (by rw [he]; simp [BT.inorder]))]
          rw [BT.subtreeAt, if_pos rfl]
        exact ih (BT.node x y z) y hsuby (by simp only [BT.count] at hcount ⊢; omega)
    have hR : extractF a' m ((sr.relabel c).rootIdx?) = some (sr.relabel c) := by
      cases sr with
      | leaf => exact extractF_none_eq a' m
      | node x y z =>
        have hsuby : bt.subtreeAt y = some (BT.node x y z) := by
          refine BT.subtreeAt_trans bt p y _ _ knd hsub ?_
          rw [BT.subtreeAt]
          rw [if_neg (fun he => hpsr (by rw [he]; simp [BT.inorder]))]
          rw [BT.subtreeAt_eq_none_of_not_mem sl y ?hy]
          · rw [BT.subtreeAt, if_pos rfl]
          case hy =>
            intro hyl
            obtain ⟨_, _, _, _, hdisj2⟩ := BT.nodup_parts sl p (BT.node x y z) hsubnd
            exact hdisj2 y hyl (by simp [BT.inorder])
        exact ih (BT.node x y z) y hsuby (by simp only [BT.count] at hcount ⊢; omega)
    rw [hL, hR]
    rfl

theorem filterMap_id_eq :
    ∀ (l : List (Option Node)),
      l.filterMap id =
        ((List.range l.length).filter (fun i => (l.getD i none).isSome)).map
          (fun i => (l.getD i none).getD default) := by
  intro l
  induction l with
  | nil => rfl
  | cons o rest ih =>
    rw [List.length_cons, List.range_succ_eq_map, List.filter_cons]
    cases o with
    | none =>
      rw [List.filterMap_cons_none (by rfl)]
      rw [if_neg (by simp)]
      rw [List.map_filter, List.map_map]
      simp only [Function.comp_def, List.getD_cons_succ]
      exact ih
    | some n =>
      rw [List.filterMap_cons_some (by rfl)]
      rw [if_pos (by simp)]
      rw [List.map_filter, List.map_cons, List.map_map]
      simp only [Function.comp_def, List.getD_cons_succ, List.getD_cons_zero]
      rw [ih]
      rfl

theorem vec_getD_eq_node? (a : Arena) (i : Nat) : a.vec.getD i none = a.node? i := by
  unfold Arena.node?
  rw [List.getD_eq_getD_get?]
  cases h : a.vec.get? i with
  | none => rfl
  | some o => cases o <;> rfl

theorem filterMap_id_arena (a : Arena) :
    a.vec.filterMap id =
      ((List.range a.vec.length).filter (fun i => (a.node? i).isSome)).map a.getNode := by
  rw [filterMap_id_eq]
  simp only [vec_getD_eq_node? a]
  rfl

instance (a : Arena) :
    IsTotal NodeGetHelper
      (fun g1 g2 => keyLe a (g1.nodeIdx.getD 0) (g2.nodeIdx.getD 0)) :=
  ⟨fun _ _ => Nat.le_total _ _⟩

instance (a : Arena) :
    IsTrans NodeGetHelper
      (fun g1 g2 => keyLe a (g1.nodeIdx.getD 0) (g2.nodeIdx.getD 0)) :=
  ⟨fun _ _ _ h1 h2 => Nat.le_trans h1 h2⟩

theorem eq_of_perm_of_map_eq_ngh (f : NodeGetHelper → Nat) :
    ∀ (l1 l2 : List NodeGetHelper), List.Perm l1 l2 → l1.map f = l2.map f →
      (l1.map f).Nodup → l1 = l2 := by
  intro l1
  induction l1 with
  | nil =>
    intro l2 hp _ _
    exact (List.Perm.eq_nil hp.symm).symm
  | cons a t ih =>
    intro l2 hp hm hnd
    cases l2 with
    | nil => exact absurd (List.Perm.eq_nil hp) (by simp)
    | cons b t2 =>
      simp only [List.map_cons] at hm
      injection hm with hfab hmt
      by_cases hab : a = b
      · subst hab
        rw [ih t2 hp.cons_inv hmt
          (by simp only [List.map_cons, List.nodup_cons] at hnd; exact hnd.2)]
      · exfalso
        have hmem : a ∈ b :: t2 := hp.subset (List.mem_cons_self a t)
        have hat2 : a ∈ t2 := by
          cases List.mem_cons.mp hmem with
          | inl h => exact absurd h hab
          | inr h => exact h
        have hfa : f a ∈ t2.map f := List.mem_map_of_mem f hat2
        rw [← hmt] at hfa
        simp only [List.map_cons, List.nodup_cons] at hnd
        exact hnd.1 hfa

/-- The metadata `sort_arena` builds is exactly one lookup record per
view node, listed in ascending key order (= the view's in-order). -/
theorem sortMetadata_eq (t : SgTree) (bt : BT) (hwf : WF t bt)
    (hreach : ∀ i, (t.arena.node? i).isSome = true ↔ i ∈ bt.inorder) :
    t.sortMetadata = bt.inorder.map (mkMeta bt) := by
  have hnd := WF_nodup t bt hwf
  have hpair : (keysOf t.arena bt.inorder).Pairwise (· < ·) :=
    List.chain'_iff_pairwise.mp hwf.2
  have hfilter : (List.range t.arena.vec.length).filter
        (fun i => (t.arena.node? i).isSome) =
      (List.range t.arena.vec.length).filter (fun i => decide (i ∈ bt.inorder)) := by
    refine List.filter_congr ?_
    intro i _
    by_cases hm : i ∈ bt.inorder
    · rw [(hreach i).mpr hm, decide_eq_true hm]
    · have hno : (t.arena.node? i).isSome = false := by
        rw [← Bool.not_eq_true]
        exact fun hc => hm ((hreach i).mp hc)
      rw [hno, decide_eq_false hm]
  have hperm : List.Perm
      ((List.range t.arena.vec.length).filter (fun i => decide (i ∈ bt.inorder)))
      bt.inorder := by
    refine (List.perm_ext_iff_of_nodup (List.Nodup.filter _ (List.nodup_range _)) hnd).mpr ?_
    intro x
    simp only [List.mem_filter, List.mem_range, decide_eq_true_eq]
    constructor
    · exact fun h => h.2
    · intro hx
      refine ⟨?_, hx⟩
      obtain ⟨n, hn⟩ := Option.isSome_iff_exists.mp ((hreach x).mpr hx)
      exact node?_lt_length t.arena x n hn
  have hunsorted : (t.arena.vec.filterMap id).map (fun n => t.privGet n.key) =
      ((List.range t.arena.vec.length).filter
        (fun i => decide (i ∈ bt.inorder))).map (mkMeta bt) := by
    rw [filterMap_id_arena, hfilter, List.map_map]
    refine List.map_congr_left ?_
    intro i hi
    have him : i ∈ bt.inorder := by
      simp only [List.mem_filter, decide_eq_true_eq] at hi
      exact hi.2
    show t.privGet ((t.arena.getNode i).key) = mkMeta bt i
    rw [privGet_correct t bt i hwf him]
    rfl
  rw [SgTree.sortMetadata, hunsorted]
  have hperm2 : List.Perm
      (List.insertionSort
        (fun g1 g2 => keyLe t.arena (g1.nodeIdx.getD 0) (g2.nodeIdx.getD 0))
        ((((List.range t.arena.vec.length).filter
          (fun i => decide (i ∈ bt.inorder)))).map (mkMeta bt)))
      (bt.inorder.map (mkMeta bt)) :=
    (List.perm_insertionSort _ _).trans (hperm.map _)
  have hsorted : List.Sorted
      (fun g1 g2 => keyLe t.arena (g1.nodeIdx.getD 0) (g2.nodeIdx.getD 0))
      (List.insertionSort
        (fun g1 g2 => keyLe t.arena (g1.nodeIdx.getD 0) (g2.nodeIdx.getD 0))
        ((((List.range t.arena.vec.length).filter
          (fun i => decide (i ∈ bt.inorder)))).map (mkMeta bt))) :=
    List.sorted_insertionSort _ _
  have hmapt : (bt.inorder.map (mkMeta bt)).map
      (fun g => (t.arena.getNode (g.nodeIdx.getD 0)).key) = keysOf t.arena bt.inorder := by
    rw [List.map_map]
    refine List.map_congr_left ?_
    intro i _
    show (t.arena.getNode ((mkMeta bt i).nodeIdx.getD 0)).key = _
    rw [mkMeta_nodeIdx_getD]
  have hktnd : ((bt.inorder.map (mkMeta bt)).map
      (fun g => (t.arena.getNode (g.nodeIdx.getD 0)).key)).Nodup := by
    rw [hmapt]
    exact List.Pairwise.imp (fun h => Nat.ne_of_lt h) hpair
  have hms := hperm2.map (fun g => (t.arena.getNode (g.nodeIdx.getD 0)).key)
  have hmapsorted1 : ((List.insertionSort
      (fun g1 g2 => keyLe t.arena (g1.nodeIdx.getD 0) (g2.nodeIdx.getD 0))
      ((((List.range t.arena.vec.length).filter
        (fun i => decide (i ∈ bt.inorder)))).map (mkMeta bt))).map
      (fun g => (t.arena.getNode (g.nodeIdx.getD 0)).key)).Pairwise (· ≤ ·) :=
    List.Pairwise.map _ (fun _ _ h => h) hsorted
  have hmapsorted2 : (keysOf t.arena bt.inorder).Pairwise (· ≤ ·) :=
    List.Pairwise.imp (fun h => Nat.le_of_lt h) hpair
  have hmapeq := List.eq_of_perm_of_sorted hms hmapsorted1 (by rw [hmapt]; exact hmapsorted2)
  refine eq_of_perm_of_map_eq_ngh
    (fun g => (t.arena.getNode (g.nodeIdx.getD 0)).key) _ _ hperm2 ?_ ?_
  · rw [hmapeq, hmapt]
  · rw [hmapeq, hmapt]
    exact List.Pairwise.imp (fun h => Nat.ne_of_lt h) hpair

theorem list_set_self {α : Type} :
    ∀ (l : List α) (i : Nat) (v : α), l.get? i = some v → l.set i v = l := by
  intro l
  induction l with
  | nil => intro i v h; simp at h
  | cons a rest ih =>
    intro i v h
    cases i with
    | zero =>
      injection h with h
      rw [List.set_cons_zero, h]
    | succ m =>
      rw [List.set_cons_succ, ih m v h]

theorem node?_some_get? (a : Arena) (i : Nat) (n : Node)
    (h : a.node? i = some n) : a.vec.get? i = some (some n) := by
  unfold Arena.node? at h
  cases hg : a.vec.get? i with
  | none => rw [hg] at h; cases h
  | some o =>
    cases o with
    | none => rw [hg] at h; cases h
    | some m =>
      rw [hg] at h
      injection h with h
      rw [h]

theorem Arena.setLeft_id (a : Arena) (i : Nat) (n : Node) (x : Option Nat)
    (h : a.node? i = some n) (hx : n.left = x) : a.setLeft i x = a := by
  have hv := node?_some_get? a i n h
  unfold Arena.setLeft Arena.modifyNode
  simp only [hv]
  have hnn : { n with left := x } = n := by rw [← hx]
  rw [hnn, list_set_self a.vec i (some n) hv]

theorem Arena.setRight_id (a : Arena) (i : Nat) (n : Node) (x : Option Nat)
    (h : a.node? i = some n) (hx : n.right = x) : a.setRight i x = a := by
  have hv := node?_some_get? a i n h
  unfold Arena.setRight Arena.modifyNode
  simp only [hv]
  have hnn : { n with right := x } = n := by rw [← hx]
  rw [hnn, list_set_self a.vec i (some n) hv]

theorem currIdx_nil (p : Nat) : (⟨[]⟩ : NodeSwapHistHelper).currIdx p = p := rfl

/-- When every node is already in its target slot, the first sort pass
does nothing and records no swaps. -/
theorem arenaSortLoop_id (a : Arena) :
    ∀ (ms : List NodeGetHelper) (s : Nat),
      (∀ k, (hk : k < ms.length) → (ms.get ⟨k, hk⟩).nodeIdx.getD 0 = s + k) →
      arenaSortLoop a ⟨[]⟩ s ms = (a, ⟨[]⟩) := by
  intro ms
  induction ms with
  | nil => intro s _; rw [arenaSortLoop]
  | cons g rest ih =>
    intro s hidx
    rw [arenaSortLoop]
    have h0 : g.nodeIdx.getD 0 = s := by
      have := hidx 0 (by simp)
      simpa using this
    have hcc : (⟨[]⟩ : NodeSwapHistHelper).currIdx (g.nodeIdx.getD 0) = s := by
      rw [currIdx_nil, h0]
    rw [if_neg (fun hc => hc hcc)]
    refine ih (s+1) ?_
    intro k hk
    have := hidx (k+1) (by simpa using Nat.succ_lt_succ hk)
    rw [show s + (k + 1) = s + 1 + k from by omega] at this
    simpa using this

/-- When every parent's stored edge already names the child's slot, the
relink pass (with an empty history) leaves the arena untouched. -/
theorem arenaSortRelink_id :
    ∀ (ms : List NodeGetHelper) (a : Arena),
      (∀ g ∈ ms, ∀ pp, g.parentIdx = some pp →
        ∃ n, a.node? pp = some n ∧
          (if g.isRightChild then n.right else n.left) = some (g.nodeIdx.getD 0)) →
      arenaSortRelink a ⟨[]⟩ ms = a := by
  intro ms
  induction ms with
  | nil => intro a _; rfl
  | cons g rest ih =>
    intro a hlink
    rw [arenaSortRelink]
    cases hgp : g.parentIdx with
    | none => exact ih a (fun g' hg' => hlink g' (List.mem_cons_of_mem _ hg'))
    | some pp =>
      obtain ⟨n, hn, hside⟩ := hlink g (List.mem_cons_self _ _) pp hgp
      cases hrc : g.isRightChild with
      | true =>
        rw [hrc] at hside
        show arenaSortRelink (a.setRight pp (some (g.nodeIdx.getD 0))) ⟨[]⟩ rest = a
        rw [Arena.setRight_id a pp n _ hn hside]
        exact ih a (fun g' hg' => hlink g' (List.mem_cons_of_mem _ hg'))
      | false =>
        rw [hrc] at hside
        show arenaSortRelink (a.setLeft pp (some (g.nodeIdx.getD 0))) ⟨[]⟩ rest = a
        rw [Arena.setLeft_id a pp n _ hn hside]
        exact ih a (fun g' hg' => hlink g' (List.mem_cons_of_mem _ hg'))

theorem node?_congr_get? (a b : Arena) (q p : Nat)
    (h : a.vec.get? q = b.vec.get? p) : a.node? q = b.node? p := by
  unfold Arena.node?
  rw [h]

/-- The first pass of `sort_arena` on a well-formed tree: the history
is a bounded permutation moving each node to its in-order rank, and
slot contents travel with it. -/
theorem sortLoop_package (t : SgTree) (bt : BT) (hwf : WF t bt)
    (hreach : ∀ i, (t.arena.node? i).isSome = true ↔ i ∈ bt.inorder) :
    HistInv t.arena.vec.length (arenaSortLoop t.arena ⟨[]⟩ 0 t.sortMetadata).2 ∧
    (arenaSortLoop t.arena ⟨[]⟩ 0 t.sortMetadata).1.vec.length = t.arena.vec.length ∧
    (∀ p, (arenaSortLoop t.arena ⟨[]⟩ 0 t.sortMetadata).1.node?
        ((arenaSortLoop t.arena ⟨[]⟩ 0 t.sortMetadata).2.currIdx p) = t.arena.node? p) ∧
    (∀ k, (hk : k < bt.inorder.length) →
      (arenaSortLoop t.arena ⟨[]⟩ 0 t.sortMetadata).2.currIdx (bt.inorder.get ⟨k, hk⟩) = k) := by
  have hnd := WF_nodup t bt hwf
  have hmeta := sortMetadata_eq t bt hwf hreach
  have hcount : bt.count ≤ t.arena.vec.length :=
    extract_count_le t.arena (t.arena.vec.length + 1) t.optRootIdx bt hwf.1 hnd
  have hoccs : ∀ g ∈ t.sortMetadata, (t.arena.node? (g.nodeIdx.getD 0)).isSome = true := by
    intro g hg
    rw [hmeta] at hg
    obtain ⟨i, him, rfl⟩ := List.mem_map.mp hg
    rw [mkMeta_nodeIdx_getD]
    exact (hreach i).mpr him
  have hpws : List.Pairwise
      (fun g1 g2 => g1.nodeIdx.getD 0 ≠ g2.nodeIdx.getD 0) t.sortMetadata := by
    rw [hmeta, List.pairwise_map]
    refine List.Pairwise.imp ?_ hnd
    intro i j hne he
    rw [mkMeta_nodeIdx_getD, mkMeta_nodeIdx_getD] at he
    exact hne he
  have hbound : 0 + t.sortMetadata.length ≤ t.arena.vec.length := by
    rw [hmeta, List.length_map, ← BT.count_inorder]
    omega
  obtain ⟨hinvf, hlenf, hrelf, hplacef, _⟩ :=
    arenaSortLoop_spec t.arena t.sortMetadata 0 t.arena ⟨[]⟩ (histInv_nil _) rfl
      (fun p => by rw [currIdx_nil]) (fun g _ => Nat.zero_le _) hoccs hpws hbound
  refine ⟨hinvf, hlenf, fun p => node?_congr_get? _ _ _ _ (hrelf p), ?_⟩
  intro k hk
  have hk' : k < t.sortMetadata.length := by
    rw [hmeta, List.length_map]
    exact hk
  have hp := hplacef k hk'
  have hget : t.sortMetadata.get ⟨k, hk'⟩ = mkMeta bt (bt.inorder.get ⟨k, hk⟩) := by
    have h1 := List.get_of_eq hmeta ⟨k, hk'⟩
    rw [h1]
    simp
  rw [hget, mkMeta_nodeIdx_getD] at hp
  simpa using hp

/-- First pass of `Arena::sort` as invoked by `sort_arena` (empty swap
history, target position 0). -/
def loopRes (t : SgTree) : Arena × NodeSwapHistHelper :=
  arenaSortLoop t.arena ⟨[]⟩ 0 t.sortMetadata

/-- The slot permutation `sort_arena` applies: original slot to final
slot, read off the completed swap history. -/
def sortMap (t : SgTree) : Nat → Nat :=
  (loopRes t).2.currIdx

/-- Full characterization of one `sort_arena` on a well-formed tree
whose occupied slots are exactly the reachable ones: the arena is
permuted by an injective slot map sending the k-th in-order node to
slot k, every node keeps its key/value and gets relabelled child
links, occupancy follows the permutation, and the final state ends
with the `update_max_idx`/`update_min_idx` refresh. -/
theorem sortArena_build (t : SgTree) (bt : BT) (rootIdx : Nat) (hwf : WF t bt)
    (hreach : ∀ i, (t.arena.node? i).isSome = true ↔ i ∈ bt.inorder)
    (hro : t.optRootIdx = some rootIdx) :
    Function.Injective (sortMap t) ∧
    (t.sortArena).arena.vec.length = t.arena.vec.length ∧
    (t.sortArena).optRootIdx = some (sortMap t rootIdx) ∧
    (∀ k, (hk : k < bt.inorder.length) → sortMap t (bt.inorder.get ⟨k, hk⟩) = k) ∧
    (∀ p cl cr, bt.subtreeAt p = some (BT.node cl p cr) →
      (t.sortArena).arena.node? (sortMap t p) =
        some ⟨(t.arena.getNode p).key, (t.arena.getNode p).val,
          (cl.relabel (sortMap t)).rootIdx?, (cr.relabel (sortMap t)).rootIdx?⟩) ∧
    (∀ q, ((t.sortArena).arena.node? q).isSome = true ↔
      q ∈ (bt.relabel (sortMap t)).inorder) ∧
    (∃ t1 : SgTree, t.sortArena = (t1.updateMaxIdx).updateMinIdx) := by
  have hnd := WF_nodup t bt hwf
  have hmeta := sortMetadata_eq t bt hwf hreach
  obtain ⟨hinvf0, hlenf0, hnodef0, hplace0⟩ := sortLoop_package t bt hwf hreach
  have hinvf : HistInv t.arena.vec.length (loopRes t).2 := hinvf0
  have hlenf : (loopRes t).1.vec.length = t.arena.vec.length := hlenf0
  have hnodef : ∀ p, (loopRes t).1.node? (sortMap t p) = t.arena.node? p := hnodef0
  have hplace : ∀ k, (hk : k < bt.inorder.length) → sortMap t (bt.inorder.get ⟨k, hk⟩) = k :=
    hplace0
  clear hinvf0 hlenf0 hnodef0 hplace0
  have hsa : t.sortArena =
      ((({ t with arena := arenaSortRelink (loopRes t).1 (loopRes t).2 t.sortMetadata, optRootIdx := some (sortMap t rootIdx) } : SgTree).updateMaxIdx).updateMinIdx) := by
    unfold SgTree.sortArena
    rw [hro]
    rfl
  have harena : (t.sortArena).arena =
      arenaSortRelink (loopRes t).1 (loopRes t).2 t.sortMetadata := by
    rw [hsa, (updateMinIdx_fields _).2.2.2.2, (updateMaxIdx_fields _).2.2.2.2]
  have hroot' : (t.sortArena).optRootIdx = some (sortMap t rootIdx) := by
    rw [hsa, (updateMinIdx_fields _).2.2.2.1, (updateMaxIdx_fields _).2.2.2.1]
  have hinj : Function.Injective (sortMap t) :=
    currIdx_inj t.arena.vec.length (loopRes t).2 hinvf
  have hlen' : (t.sortArena).arena.vec.length = t.arena.vec.length := by
    rw [harena, arenaSortRelink_length]
    exact hlenf
  have hent : ∀ g ∈ t.sortMetadata, ∃ i, i ∈ bt.inorder ∧ g = mkMeta bt i := by
    intro g hg
    rw [hmeta] at hg
    obtain ⟨i, him, rfl⟩ := List.mem_map.mp hg
    exact ⟨i, him, rfl⟩
  have hpws : List.Pairwise
      (fun g1 g2 => g1.nodeIdx.getD 0 ≠ g2.nodeIdx.getD 0) t.sortMetadata := by
    rw [hmeta, List.pairwise_map]
    refine List.Pairwise.imp ?_ hnd
    intro i j hne he
    rw [mkMeta_nodeIdx_getD, mkMeta_nodeIdx_getD] at he
    exact hne he
  have hstate0 : ∀ p cl cr, bt.subtreeAt p = some (BT.node cl p cr) →
      (loopRes t).1.node? (sortMap t p) =
        some ⟨(t.arena.getNode p).key, (t.arena.getNode p).val,
          pendingLink (sortMap t) t.sortMetadata cl,
          pendingLink (sortMap t) t.sortMetadata cr⟩ := by
    intro p cl cr hsub
    have hsubext : extractF t.arena (t.arena.vec.length + 1) (some p) =
        some (BT.node cl p cr) :=
      extractF_subtreeAt t.arena _ t.optRootIdx bt p _ hwf.1 hsub
    obtain ⟨n0, hn0, hl0, hr0⟩ := extract_node_fields t.arena _ p cl cr hsubext
    have hgn : t.arena.getNode p = n0 := by
      unfold Arena.getNode
      rw [hn0]
      rfl
    have hpl : pendingLink (sortMap t) t.sortMetadata cl = n0.left := by
      cases cl with
      | leaf => rw [pendingLink_leaf, hl0]; rfl
      | node x y z =>
        rw [hl0]
        refine pendingLink_pending (sortMap t) _ _ y rfl ?_
        have hymem : y ∈ bt.inorder := by
          refine BT.subtreeAt_inorder_subset bt p _ hsub y ?_
          simp [BT.inorder]
        refine ⟨mkMeta bt y, ?_, mkMeta_nodeIdx_getD bt y⟩
        rw [hmeta]
        exact List.mem_map_of_mem _ hymem
    have hpr : pendingLink (sortMap t) t.sortMetadata cr = n0.right := by
      cases cr with
      | leaf => rw [pendingLink_leaf, hr0]; rfl
      | node x y z =>
        rw [hr0]
        refine pendingLink_pending (sortMap t) _ _ y rfl ?_
        have hymem : y ∈ bt.inorder := by
          refine BT.subtreeAt_inorder_subset bt p _ hsub y ?_
          simp [BT.inorder]
        refine ⟨mkMeta bt y, ?_, mkMeta_nodeIdx_getD bt y⟩
        rw [hmeta]
        exact List.mem_map_of_mem _ hymem
    rw [hnodef p, hn0, hgn, hpl, hpr]
  have hchar : ∀ p cl cr, bt.subtreeAt p = some (BT.node cl p cr) →
      (arenaSortRelink (loopRes t).1 (loopRes t).2 t.sortMetadata).node? (sortMap t p) =
        some ⟨(t.arena.getNode p).key, (t.arena.getNode p).val,
          (cl.relabel (sortMap t)).rootIdx?, (cr.relabel (sortMap t)).rootIdx?⟩ :=
    arenaSortRelink_nodes (sortMap t) bt hnd hinj (loopRes t).2 (fun _ => rfl)
      (fun p => ((t.arena.getNode p).key, (t.arena.getNode p).val))
      t.sortMetadata (loopRes t).1 hent hpws hstate0
  have hsurj : ∀ q, q < t.arena.vec.length →
      ∃ p, p < t.arena.vec.length ∧ sortMap t p = q := by
    intro q hq
    have hfinj : Function.Injective (fun x : Fin t.arena.vec.length =>
        (⟨sortMap t x.1, currIdx_lt _ (loopRes t).2 hinvf x.1 x.2⟩ :
          Fin t.arena.vec.length)) := by
      intro x y hxy
      exact Fin.ext (hinj (congrArg Fin.val hxy))
    obtain ⟨p, hp⟩ := Finite.injective_iff_surjective.mp hfinj ⟨q, hq⟩
    exact ⟨p.1, p.2, congrArg Fin.val hp⟩
  have hocc' : ∀ q, ((t.sortArena).arena.node? q).isSome = true ↔
      q ∈ (bt.relabel (sortMap t)).inorder := by
    intro q
    rw [BT.relabel_inorder, harena]
    constructor
    · intro hq
      obtain ⟨nq, hnq⟩ := Option.isSome_iff_exists.mp hq
      have hqL : q < t.arena.vec.length := by
        have h1 := node?_lt_length _ q nq hnq
        rw [arenaSortRelink_length, hlenf] at h1
        exact h1
      obtain ⟨p, hpL, hcp⟩ := hsurj q hqL
      by_cases hpm : p ∈ bt.inorder
      · rw [← hcp]
        exact List.mem_map_of_mem _ hpm
      · exfalso
        have hframe : (arenaSortRelink (loopRes t).1 (loopRes t).2 t.sortMetadata).node? q =
            (loopRes t).1.node? q := by
          refine arenaSortRelink_frame (loopRes t).2 t.sortMetadata (loopRes t).1 q ?_
          intro g hg pp hgp
          obtain ⟨i, him, rfl⟩ := hent g hg
          cases hpe : bt.parentEdge i with
          | none =>
            rw [show (mkMeta bt i).parentIdx = none from by unfold mkMeta; rw [hpe]] at hgp
            cases hgp
          | some pe =>
            rw [show (mkMeta bt i).parentIdx = some pe.1 from by
              unfold mkMeta; rw [hpe]] at hgp
            injection hgp with hgp
            have hppm : pe.1 ∈ bt.inorder :=
              BT.parentEdge_mem bt i pe.1 pe.2 (by rw [hpe])
            subst hgp
            intro he
            rw [← hcp] at he
            rw [hinj he] at hpm
            exact hpm hppm
        rw [hframe, ← hcp, hnodef p] at hnq
        have hps : (t.arena.node? p).isSome = true := by rw [hnq]; rfl
        exact hpm ((hreach p).mp hps)
    · intro hq
      obtain ⟨p, hpm, hcp⟩ := List.mem_map.mp hq
      obtain ⟨sub, hsub⟩ := Option.isSome_iff_exists.mp
        (BT.subtreeAt_isSome_of_mem bt p hpm)
      obtain ⟨cl, cr, hse⟩ := BT.subtreeAt_root bt p sub hsub
      rw [hse] at hsub
      rw [← hcp, hchar p cl cr hsub]
      rfl
  refine ⟨hinj, hlen', hroot', hplace, ?_, hocc', ?_⟩
  · intro p cl cr hsub
    rw [harena]
    exact hchar p cl cr hsub
  · exact ⟨_, hsa⟩

/-- Refreshing the cached min/max indices twice is the same as once:
both passes read only the arena and root, which they do not change. -/
theorem updateMinMax_stable (t0 : SgTree) :
    (((t0.updateMaxIdx).updateMinIdx).updateMaxIdx).updateMinIdx =
      (t0.updateMaxIdx).updateMinIdx := by
  cases hro : t0.optRootIdx with
  | none => simp [SgTree.updateMaxIdx, SgTree.updateMinIdx, hro]
  | some rootIdx => simp [SgTree.updateMaxIdx, SgTree.updateMinIdx, hro]

/-- `sort_arena` is the identity when the moving pass finds every node
in place, the relink pass rewrites every edge to its current value, and
the state already carries refreshed min/max caches. -/
theorem sortArena_noop (T : SgTree) (rootIdx2 : Nat)
    (hro2 : T.optRootIdx = some rootIdx2)
    (hloopid : arenaSortLoop T.arena ⟨[]⟩ 0 T.sortMetadata = (T.arena, ⟨[]⟩))
    (hrelid : arenaSortRelink T.arena ⟨[]⟩ T.sortMetadata = T.arena)
    (ht1 : ∃ t1 : SgTree, T = (t1.updateMaxIdx).updateMinIdx) :
    T.sortArena = T := by
  have hfull : T.arena.sortFull rootIdx2 T.sortMetadata = (T.arena, rootIdx2) := by
    unfold Arena.sortFull
    simp only [hloopid]
    rw [hrelid]
    rfl
  obtain ⟨t1, ht1e⟩ := ht1
  unfold SgTree.sortArena
  simp only [hro2]
  rw [hfull]
  have hrec : ({ T with arena := (T.arena, rootIdx2).1, optRootIdx := some ((T.arena, rootIdx2).2) } : SgTree) = T := by
    show ({ T with arena := T.arena, optRootIdx := some rootIdx2 } : SgTree) = T
    rw [← hro2]
  rw [hrec, ht1e]
  exact updateMinMax_stable t1

/-- Once slot order equals in-order rank, the moving pass of a second
sort finds every node already in place. -/
theorem sorted_tree_loopid (T : SgTree) (bt2 : BT)
    (hmeta2 : T.sortMetadata = bt2.inorder.map (mkMeta bt2))
    (hrange : bt2.inorder = List.range bt2.count) :
    arenaSortLoop T.arena ⟨[]⟩ 0 T.sortMetadata = (T.arena, ⟨[]⟩) := by
  refine arenaSortLoop_id _ _ 0 ?_
  intro k hk
  have hget := List.get_of_eq hmeta2 ⟨k, hk⟩
  rw [hget]
  simp only [List.get_eq_getElem, List.getElem_map]
  rw [mkMeta_nodeIdx_getD]
  rw [List.getElem_of_eq hrange, List.getElem_range]
  omega

/-- Once every node's stored links are the relabelled ones, the relink
pass of a second sort writes back only current values. -/
theorem relinkid_of_char (T2 : SgTree) (bt : BT) (c : Nat → Nat)
    (kv : Nat → Nat × Nat) (hnd : bt.inorder.Nodup) (hinj : Function.Injective c)
    (hchar : ∀ p cl cr, bt.subtreeAt p = some (BT.node cl p cr) →
      T2.arena.node? (c p) = some ⟨(kv p).1, (kv p).2,
        (cl.relabel c).rootIdx?, (cr.relabel c).rootIdx?⟩)
    (hmeta2 : T2.sortMetadata = (bt.relabel c).inorder.map (mkMeta (bt.relabel c))) :
    arenaSortRelink T2.arena ⟨[]⟩ T2.sortMetadata = T2.arena := by
  refine arenaSortRelink_id _ _ ?_
  intro g hg pp hgp
  rw [hmeta2] at hg
  obtain ⟨q, hqm, rfl⟩ := List.mem_map.mp hg
  rw [BT.relabel_inorder] at hqm
  obtain ⟨p2, hp2m, hcq⟩ := List.mem_map.mp hqm
  have hPE : (bt.relabel c).parentEdge q =
      (bt.parentEdge p2).map (fun pe => (c pe.1, pe.2)) := by
    rw [← hcq, BT.parentEdge_relabel c hinj bt p2]
  cases hpe0 : bt.parentEdge p2 with
  | none =>
    have hnone : (mkMeta (bt.relabel c) q).parentIdx = none := by
      unfold mkMeta
      simp only [hPE, hpe0, Option.map_none']
    rw [hnone] at hgp
    cases hgp
  | some pe0 =>
    have hPE2 : (bt.relabel c).parentEdge q = some (c pe0.1, pe0.2) := by
      rw [hPE, hpe0]
      rfl
    have hgp2 : (mkMeta (bt.relabel c) q).parentIdx = some (c pe0.1) := by
      unfold mkMeta
      rw [hPE2]
    rw [hgp2] at hgp
    injection hgp with hgp
    have hrc : (mkMeta (bt.relabel c) q).isRightChild = pe0.2 := by
      unfold mkMeta
      rw [hPE2]
    have hni : (mkMeta (bt.relabel c) q).nodeIdx.getD 0 = q := mkMeta_nodeIdx_getD _ _
    obtain ⟨pl, pr, hsubpp, hchild⟩ :=
      BT.parentEdge_subtreeAt bt p2 pe0.1 pe0.2 hnd
        (by rw [hpe0])
    have hnode := hchar pe0.1 pl pr hsubpp
    refine ⟨⟨(kv pe0.1).1, (kv pe0.1).2,
      (pl.relabel c).rootIdx?, (pr.relabel c).rootIdx?⟩, ?_, ?_⟩
    · rw [← hgp]
      exact hnode
    · rw [hrc, hni]
      cases hb : pe0.2 with
      | true =>
        have hc2 : pr.rootIdx? = some p2 := by
          rw [hb] at hchild
          exact hchild
        show (pr.relabel c).rootIdx? = some q
        rw [BT.relabel_rootIdx, hc2, ← hcq]
        rfl
      | false =>
        have hc2 : pl.rootIdx? = some p2 := by
          rw [hb] at hchild
          exact hchild
        show (pl.relabel c).rootIdx? = some q
        rw [BT.relabel_rootIdx, hc2, ← hcq]
        rfl

theorem BT.relabel_count (c : Nat → Nat) : ∀ bt : BT, (bt.relabel c).count = bt.count := by
  intro bt
  induction bt with
  | leaf => rfl
  | node l i r ihl ihr => simp [BT.relabel, BT.count, ihl, ihr]

/-- C9: on a well-formed tree whose occupied slots are exactly the
reachable nodes, the mutable-iterator arena sort permutes slots so that
slot order equals in-order (ascending-key) order — the sorted tree
extracts to the same view relabelled by an injective slot map whose
in-order image is `0, 1, …, n-1` — with every node's key/value pair
preserved, and running `sort_arena` a second time returns the state
unchanged (identical arena layout, root, and caches). -/
theorem c9_sort_arena_inorder_and_idempotent (t : SgTree) (bt : BT)
    (hwf : WF t bt)
    (hreach : ∀ i, (t.arena.node? i).isSome = true ↔ i ∈ bt.inorder) :
    ∃ c : Nat → Nat,
      extractF (t.sortArena).arena ((t.sortArena).arena.vec.length + 1)
          (t.sortArena).optRootIdx = some (bt.relabel c) ∧
      (bt.relabel c).inorder = List.range bt.count ∧
      kvList (t.sortArena).arena (bt.relabel c).inorder = kvList t.arena bt.inorder ∧
      (t.sortArena).sortArena = t.sortArena := by
  cases hro : t.optRootIdx with
  | none =>
    have hsa : t.sortArena = t := by
      unfold SgTree.sortArena
      rw [hro]
    have hbt : bt = BT.leaf := by
      have hext := hwf.1
      rw [hro, extractF_none_eq] at hext
      injection hext with hext
      exact hext.symm
    subst hbt
    refine ⟨id, ?_, ?_, ?_, ?_⟩
    · rw [hsa, hro]
      exact extractF_none_eq _ _
    · rfl
    · rfl
    · rw [hsa]
      exact hsa
  | some rootIdx =>
    obtain ⟨hinj, hlen', hroot', hplace, hchar, hocc', ht1ex⟩ :=
      sortArena_build t bt rootIdx hwf hreach hro
    have hnd := WF_nodup t bt hwf
    have hsubroot : bt.subtreeAt rootIdx = some bt := by
      obtain ⟨bl, br, hbteq, _⟩ := extracts_of_extract_some t.arena _ rootIdx bt
        (by rw [← hro]; exact hwf.1)
      exact BT.subtreeAt_self_of_root bt rootIdx (by rw [hbteq]; rfl)
    have hcount : bt.count ≤ t.arena.vec.length :=
      extract_count_le t.arena _ t.optRootIdx bt hwf.1 hnd
    have hext' : extractF (t.sortArena).arena (t.arena.vec.length + 1)
        (some (sortMap t rootIdx)) = some (bt.relabel (sortMap t)) :=
      extract_relabel (t.sortArena).arena (sortMap t) bt hnd
        (fun p => ((t.arena.getNode p).key, (t.arena.getNode p).val)) hchar
        (t.arena.vec.length + 1) bt rootIdx hsubroot (by omega)
    have hrange : (bt.relabel (sortMap t)).inorder = List.range bt.count := by
      rw [BT.relabel_inorder]
      refine List.ext_getElem ?_ ?_
      · rw [List.length_map, List.length_range, BT.count_inorder]
      · intro k h1 h2
        simp only [List.getElem_map, List.getElem_range]
        have hk : k < bt.inorder.length := by
          rw [List.length_map] at h1
          exact h1
        have hp := hplace k hk
        rw [List.get_eq_getElem] at hp
        exact hp
    have hkv : kvList (t.sortArena).arena (bt.relabel (sortMap t)).inorder =
        kvList t.arena bt.inorder := by
      rw [BT.relabel_inorder]
      unfold kvList
      rw [List.map_map]
      refine List.map_congr_left ?_
      intro p hp
      obtain ⟨sub, hsub⟩ := Option.isSome_iff_exists.mp
        (BT.subtreeAt_isSome_of_mem bt p hp)
      obtain ⟨cl, cr, hse⟩ := BT.subtreeAt_root bt p sub hsub
      rw [hse] at hsub
      have hcp := hchar p cl cr hsub
      have hgn : (t.sortArena).arena.getNode (sortMap t p) =
          ⟨(t.arena.getNode p).key, (t.arena.getNode p).val,
            (cl.relabel (sortMap t)).rootIdx?, (cr.relabel (sortMap t)).rootIdx?⟩ := by
        unfold Arena.getNode
        rw [hcp]
        rfl
      show (((t.sortArena).arena.getNode (sortMap t p)).key,
        ((t.sortArena).arena.getNode (sortMap t p)).val) = _
      rw [hgn]
    have hkeysEq : keysOf (t.sortArena).arena (bt.relabel (sortMap t)).inorder =
        keysOf t.arena bt.inorder := by
      have h1 : ∀ (a : Arena) (l : List Nat), (kvList a l).map Prod.fst = keysOf a l := by
        intro a l
        unfold kvList keysOf
        rw [List.map_map]
        rfl
      rw [← h1, ← h1, hkv]
    have hwf' : WF (t.sortArena) (bt.relabel (sortMap t)) := by
      constructor
      · rw [hroot', hlen']
        exact hext'
      · rw [hkeysEq]
        exact hwf.2
    have hmeta' := sortMetadata_eq (t.sortArena) (bt.relabel (sortMap t)) hwf' hocc'
    have hrange2 : (bt.relabel (sortMap t)).inorder =
        List.range (bt.relabel (sortMap t)).count := by
      rw [hrange, BT.relabel_count]
    have hloopid := sorted_tree_loopid (t.sortArena) (bt.relabel (sortMap t)) hmeta' hrange2
    have hrelid := relinkid_of_char (t.sortArena) bt (sortMap t)
      (fun p => ((t.arena.getNode p).key, (t.arena.getNode p).val)) hnd hinj hchar hmeta'
    have hidem := sortArena_noop (t.sortArena) (sortMap t rootIdx) hroot' hloopid hrelid ht1ex
    refine ⟨sortMap t, ?_, hrange, hkv, hidem⟩
    rw [hroot', hlen']
    exact hext'

theorem c9_sort_arena_inorder_and_idempotent_witness :
    WF exFullTree (BT.node (BT.node BT.leaf 1 BT.leaf) 0 (BT.node BT.leaf 2 BT.leaf)) ∧
    (∀ i, (exFullTree.arena.node? i).isSome = true ↔
      i ∈ (BT.node (BT.node BT.leaf 1 BT.leaf) 0 (BT.node BT.leaf 2 BT.leaf)).inorder) ∧
    (∃ c : Nat → Nat,
      extractF (exFullTree.sortArena).arena ((exFullTree.sortArena).arena.vec.length + 1)
          (exFullTree.sortArena).optRootIdx =
        some ((BT.node (BT.node BT.leaf 1 BT.leaf) 0
          (BT.node BT.leaf 2 BT.leaf)).relabel c) ∧
      ((BT.node (BT.node BT.leaf 1 BT.leaf) 0
          (BT.node BT.leaf 2 BT.leaf)).relabel c).inorder =
        List.range (BT.node (BT.node BT.leaf 1 BT.leaf) 0
          (BT.node BT.leaf 2 BT.leaf)).count ∧
      kvList (exFullTree.sortArena).arena
          ((BT.node (BT.node BT.leaf 1 BT.leaf) 0
            (BT.node BT.leaf 2 BT.leaf)).relabel c).inorder =
        kvList exFullTree.arena
          (BT.node (BT.node BT.leaf 1 BT.leaf) 0 (BT.node BT.leaf 2 BT.leaf)).inorder ∧
      (exFullTree.sortArena).sortArena = exFullTree.sortArena) := by
  have hwf : WF exFullTree
      (BT.node (BT.node BT.leaf 1 BT.leaf) 0 (BT.node BT.leaf 2 BT.leaf)) := by
    refine ⟨by decide, ?_⟩
    have hk : keysOf exFullTree.arena
        (BT.node (BT.node BT.leaf 1 BT.leaf) 0 (BT.node BT.leaf 2 BT.leaf)).inorder =
        [1, 2, 3] := by decide
    rw [hk, List.chain'_iff_pairwise]
    norm_num [List.pairwise_cons]
  have hreach : ∀ i, (exFullTree.arena.node? i).isSome = true ↔
      i ∈ (BT.node (BT.node BT.leaf 1 BT.leaf) 0 (BT.node BT.leaf 2 BT.leaf)).inorder := by
    intro i
    by_cases hi : i < 3
    · interval_cases i <;> decide
    · have hlen : exFullTree.arena.vec.length = 3 := by decide
      have hnone : exFullTree.arena.node? i = none := by
        unfold Arena.node?
        rw [List.get?_eq_none.mpr (by omega)]
      rw [hnone]
      simp only [Option.isSome_none, Bool.false_eq_true, false_iff]
      intro h
      simp [BT.inorder] at h
      omega
  exact ⟨hwf, hreach, c9_sort_arena_inorder_and_idempotent exFullTree _ hwf hreach⟩
